import Mathlib

/-!
Verification development for `go-hac` (HTTP Agent Context middleware)

Shallow embedding of `lib/go-hac`: `media.go`, `envelope.go`, `config.go`,
`context.go` and `middleware.go`, with models of the Go standard library
functions they call (`strings`, `unicode/utf8`, `strconv.ParseFloat`,
`encoding/json`, `net/http`).

Conventions.
* A Go `string` and a Go `[]byte` are both a finite sequence of bytes:
  `Bytes = List UInt8`.  `B "text"` is the UTF-8 encoding of a literal.
* A Go `int` is modelled by `Int` (the package compares status codes and
  does no arithmetic on them).
* A `float64` is modelled by `Float64` below: NaN, the two infinities, or a
  finite value `(-1)^neg * m * 2^e` in IEEE-754 binary64 form.
* A nil pointer is `none`; a pair `(value, error)` is an `Except`.
* An `http.Handler` is the program of calls it makes on the
  `http.ResponseWriter` it is given (`Prog`); `Middleware` maps handlers to
  handlers.  `Prog.record` runs such a program on the package's
  `responseRecorder`, `Prog.serve` on the server's writer.
* `json.Marshal` and the iteration order of Go maps are parameters
  (`GoRuntime`); every other library function used is modelled concretely.
* Recursions that are not structural in Go (loops over a shrinking input)
  carry a fuel argument fixed from the length of the input; the section
  "Fuel" proves that this fuel is enough.
-/

set_option autoImplicit false

namespace Hac

/-! ## Byte strings -/

/-- Go strings and byte slices. -/
abbrev Bytes := List UInt8

/-- UTF-8 bytes of a literal. -/
def B (s : String) : Bytes := s.data.flatMap String.utf8EncodeChar

/-- Go `strings.Split(s, sep)` for a one-byte separator: the pieces of `s`
between the occurrences of `sep`; always at least one piece. -/
def splitByte (sep : UInt8) : Bytes → List Bytes
  | [] => [[]]
  | c :: cs =>
    if c = sep then [] :: splitByte sep cs
    else
      match splitByte sep cs with
      | [] => [[c]]
      | p :: ps => (c :: p) :: ps

/-- Go `strings.IndexByte(s, c)`: index of the first `c` in `s`, or `-1`. -/
def IndexByte (c : UInt8) : Bytes → Int
  | [] => -1
  | b :: bs =>
    if b = c then 0
    else
      let i := IndexByte c bs
      if i < 0 then -1 else i + 1

/-- Go `strings.HasPrefix(s, p)`. -/
def HasPrefix (s p : Bytes) : Bool := p.isPrefixOf s

/-! ## `unicode/utf8` and `unicode.IsSpace` -/

/-- The rune `utf8.RuneError` (U+FFFD). -/
def RuneError : Nat := 0xFFFD

/-- A UTF-8 continuation byte (`locb ≤ b ≤ hicb`). -/
def isCont (b : UInt8) : Bool := decide (0x80 ≤ b) && decide (b ≤ 0xBF)

/-- Go `utf8.DecodeRune`: the first rune of `p` and its width; `(RuneError, 0)`
for the empty input and `(RuneError, 1)` for an invalid encoding. -/
def DecodeRune : Bytes → Nat × Nat
  | [] => (RuneError, 0)
  | p0 :: rest =>
    if p0 < 0x80 then (p0.toNat, 1)
    else if p0 < 0xC2 then (RuneError, 1)
    else if p0 < 0xE0 then
      match rest with
      | b1 :: _ =>
        if isCont b1 then ((p0.toNat - 0xC0) * 64 + (b1.toNat - 0x80), 2)
        else (RuneError, 1)
      | [] => (RuneError, 1)
    else if p0 < 0xF0 then
      let lo : UInt8 := if p0 = 0xE0 then 0xA0 else 0x80
      let hi : UInt8 := if p0 = 0xED then 0x9F else 0xBF
      match rest with
      | b1 :: b2 :: _ =>
        if decide (lo ≤ b1) && decide (b1 ≤ hi) then
          if isCont b2 then
            ((p0.toNat - 0xE0) * 4096 + (b1.toNat - 0x80) * 64 + (b2.toNat - 0x80), 3)
          else (RuneError, 1)
        else (RuneError, 1)
      | _ => (RuneError, 1)
    else if p0 < 0xF5 then
      let lo : UInt8 := if p0 = 0xF0 then 0x90 else 0x80
      let hi : UInt8 := if p0 = 0xF4 then 0x8F else 0xBF
      match rest with
      | b1 :: b2 :: b3 :: _ =>
        if decide (lo ≤ b1) && decide (b1 ≤ hi) then
          if isCont b2 then
            if isCont b3 then
              ((p0.toNat - 0xF0) * 262144 + (b1.toNat - 0x80) * 4096
                + (b2.toNat - 0x80) * 64 + (b3.toNat - 0x80), 4)
            else (RuneError, 1)
          else (RuneError, 1)
        else (RuneError, 1)
      | _ => (RuneError, 1)
    else (RuneError, 1)

/-- Go `utf8.RuneStart`: `b` is not a continuation byte. -/
def RuneStart (b : UInt8) : Bool := !isCont b

/-- The backwards search of `utf8.DecodeLastRune`: `before` holds the bytes
preceding the last byte, nearest first; at most three of them are inspected.
Returns how many of them belong to the candidate encoding. -/
def lastRuneStart : Bytes → Option Nat
  | b1 :: rest1 =>
    if RuneStart b1 then some 1
    else
      match rest1 with
      | b2 :: rest2 =>
        if RuneStart b2 then some 2
        else
          match rest2 with
          | b3 :: _ => if RuneStart b3 then some 3 else none
          | [] => none
      | [] => none
  | [] => none

/-- Go `utf8.DecodeLastRune`: the last rune of `p` and its width. -/
def DecodeLastRune (p : Bytes) : Nat × Nat :=
  match p.reverse with
  | [] => (RuneError, 0)
  | l :: before =>
    if l < 0x80 then (l.toNat, 1)
    else
      match lastRuneStart before with
      | none => (RuneError, 1)
      | some k =>
        let cand := (l :: before.take k).reverse
        let (r, size) := DecodeRune cand
        if size = k + 1 then (r, size) else (RuneError, 1)

/-- Go `unicode.IsSpace`. -/
def IsSpace (r : Nat) : Bool :=
  if r ≤ 0xFF then
    r = 0x09 || r = 0x0A || r = 0x0B || r = 0x0C || r = 0x0D || r = 0x20
      || r = 0x85 || r = 0xA0
  else
    r = 0x1680 || (decide (0x2000 ≤ r) && decide (r ≤ 0x200A)) || r = 0x2028
      || r = 0x2029 || r = 0x202F || r = 0x205F || r = 0x3000

/-- Go `strings.TrimLeftFunc(s, unicode.IsSpace)`; `fuel` bounds the number of
runes removed. -/
def trimLeftSpace : Nat → Bytes → Bytes
  | 0, s => s
  | fuel + 1, s =>
    match s with
    | [] => []
    | _ :: _ =>
      let (r, size) := DecodeRune s
      if IsSpace r then trimLeftSpace fuel (s.drop size) else s

/-- Go `strings.TrimRightFunc(s, unicode.IsSpace)`; `fuel` bounds the number of
runes removed. -/
def trimRightSpace : Nat → Bytes → Bytes
  | 0, s => s
  | fuel + 1, s =>
    match s with
    | [] => []
    | _ :: _ =>
      let (r, size) := DecodeLastRune s
      if IsSpace r then trimRightSpace fuel (s.take (s.length - size)) else s

/-- Go `strings.TrimSpace`: leading and trailing white space (as defined by
Unicode) removed (the fuel is enough: `TrimSpace_fuel`). -/
def TrimSpace (s : Bytes) : Bytes :=
  let t := trimLeftSpace s.length s
  trimRightSpace t.length t

/-! ## `float64` and `strconv.ParseFloat` -/

/-- An IEEE-754 binary64 value: NaN, an infinity, or the finite value
`(-1)^neg * m * 2^e` with `m < 2^53`, `-1074 ≤ e ≤ 971`, and `2^52 ≤ m`
unless `e = -1074` (so that every finite value has one representation per
sign). -/
inductive Float64 where
  | nan
  | inf (neg : Bool)
  | fin (neg : Bool) (m : Nat) (e : Int)
  deriving DecidableEq, Repr

namespace Float64

/-- The constant `1.0`. -/
def one : Float64 := .fin false 4503599627370496 (-52)

/-- The zero value of a Go `float64` (`+0`). -/
def zero : Float64 := .fin false 0 (-1074)

/-- Go `x > 0` on `float64`: false for NaN, zero and negative values. -/
def gtZero : Float64 → Bool
  | .nan => false
  | .inf neg => !neg
  | .fin neg m _ => !neg && m != 0

end Float64

/-- Number of binary digits of `n`, by repeated halving; `fuel ≥` the result. -/
def bitLen : Nat → Nat → Nat
  | 0, _ => 0
  | fuel + 1, n => if n = 0 then 0 else bitLen fuel (n / 2) + 1

/-- Comparison `num / den ≥ 2^e` over the integers. -/
def geTwoPow (num den : Nat) (e : Int) : Bool :=
  if 0 ≤ e then decide (den * 2 ^ e.toNat ≤ num)
  else decide (den ≤ num * 2 ^ (-e).toNat)

/-- IEEE-754 round-to-nearest-even of the non-negative rational `num / den`
(`den > 0`) to binary64; `none` when the result is out of range (Go reports
`ErrRange`).  Values too small to be represented round to zero. -/
def roundFloat64 (neg : Bool) (num den : Nat) : Option Float64 :=
  if num = 0 then some (.fin neg 0 (-1074))
  else
    let e0 : Int := (bitLen num num : Int) - (bitLen den den : Int)
    let e : Int := if geTwoPow num den e0 then e0 else e0 - 1
    let q : Int := max (e - 52) (-1074)
    let n : Nat := if 0 ≤ q then num else num * 2 ^ (-q).toNat
    let d : Nat := if 0 ≤ q then den * 2 ^ q.toNat else den
    let m0 := n / d
    let r := n % d
    let m := if d < 2 * r ∨ (2 * r = d ∧ m0 % 2 = 1) then m0 + 1 else m0
    let (m, q) := if m = 9007199254740992 then (4503599627370496, q + 1) else (m, q)
    if 971 < q then none else some (.fin neg m q)

/-- Go `strconv`'s `lower(c)`: `c | 0x20`. -/
def lowerByte (c : UInt8) : UInt8 := c ||| 0x20

/-- ASCII decimal digit. -/
def isDigit (c : UInt8) : Bool := decide (0x30 ≤ c) && decide (c ≤ 0x39)

/-- Hexadecimal letter digit `a`..`f` / `A`..`F` (tested on `lower(c)`). -/
def isHexLetter (c : UInt8) : Bool :=
  decide (0x61 ≤ lowerByte c) && decide (lowerByte c ≤ 0x66)

/-- State of the mantissa loop of `strconv.readFloat`.  `mant` is the value of
all significant digits read (Go keeps the first 19 resp. 16 and a `trunc` flag,
and falls back to an exact conversion, so the value parsed is the exact one). -/
structure MantState where
  mant : Nat := 0
  nd : Nat := 0
  dp : Int := 0
  sawdot : Bool := false
  sawdigits : Bool := false
  underscores : Bool := false

/-- The digit loop of `strconv.readFloat`; returns the state and the unread
rest of the input. -/
def readMant (hex : Bool) : Bytes → MantState → MantState × Bytes
  | [], st => (st, [])
  | c :: cs, st =>
    if c = 0x5F then readMant hex cs { st with underscores := true }
    else if c = 0x2E then
      if st.sawdot then (st, c :: cs)
      else readMant hex cs { st with sawdot := true, dp := st.nd }
    else if isDigit c then
      if c = 0x30 ∧ st.nd = 0 then
        readMant hex cs { st with sawdigits := true, dp := st.dp - 1 }
      else
        readMant hex cs { st with
          sawdigits := true, nd := st.nd + 1,
          mant := st.mant * (if hex then 16 else 10) + (c.toNat - 0x30) }
    else if hex && isHexLetter c then
      readMant hex cs { st with
        sawdigits := true, nd := st.nd + 1,
        mant := st.mant * 16 + ((lowerByte c).toNat - 0x61 + 10) }
    else (st, c :: cs)

/-- The exponent digit loop of `strconv.readFloat` (`e` stops growing once it
reaches 10000); returns the exponent, whether an underscore was seen, and the
unread rest. -/
def readExpDigits : Bytes → Nat → Bool → Nat × Bool × Bytes
  | [], e, u => (e, u, [])
  | c :: cs, e, u =>
    if c = 0x5F then readExpDigits cs e true
    else if isDigit c then
      readExpDigits cs (if e < 10000 then e * 10 + (c.toNat - 0x30) else e) u
    else (e, u, c :: cs)

/-- Go `strconv.underscoreOK` on the part after the optional sign and base
prefix: `last` is the class of the previous character (`0` digit,
`1` underscore, `2` other, `3` none yet). -/
def underscoreLoop (hex : Bool) : Bytes → Nat → Bool
  | [], last => last != 1
  | c :: cs, last =>
    if isDigit c || (hex && isHexLetter c) then underscoreLoop hex cs 0
    else if c = 0x5F then
      if last != 0 then false else underscoreLoop hex cs 1
    else if last = 1 then false
    else underscoreLoop hex cs 2

/-- Go `strconv.underscoreOK`: underscores only between digits (a base prefix
counts as a digit). -/
def underscoreOK (s : Bytes) : Bool :=
  let s := match s with
    | c :: cs => if c = 0x2D ∨ c = 0x2B then cs else c :: cs
    | [] => []
  match s with
  | c0 :: c1 :: cs =>
    if c0 = 0x30 ∧ (lowerByte c1 = 0x62 ∨ lowerByte c1 = 0x6F ∨ lowerByte c1 = 0x78) then
      underscoreLoop (lowerByte c1 = 0x78) cs 0
    else underscoreLoop false (c0 :: c1 :: cs) 3
  | s => underscoreLoop false s 3

/-- Go `strconv.commonPrefixLenIgnoreCase(s, prefix)` (`prefix` lower case). -/
def commonPrefixLenIgnoreCase : Bytes → Bytes → Nat
  | c :: cs, p :: ps =>
    let c := if decide (0x41 ≤ c) && decide (c ≤ 0x5A) then c + 0x20 else c
    if c = p then commonPrefixLenIgnoreCase cs ps + 1 else 0
  | _, _ => 0

/-- Go `strconv.special`: the values `NaN`, `Inf`, `Infinity` (any case, the
infinities optionally signed); returns the value and the number of bytes
consumed. -/
def special (s : Bytes) : Option (Float64 × Nat) :=
  match s with
  | [] => none
  | c :: cs =>
    let infCase (neg : Bool) (nsign : Nat) (t : Bytes) : Option (Float64 × Nat) :=
      let n := commonPrefixLenIgnoreCase t (B "infinity")
      let n := if 3 < n ∧ n < 8 then 3 else n
      if n = 3 ∨ n = 8 then some (.inf neg, nsign + n) else none
    if c = 0x2B then infCase false 1 cs
    else if c = 0x2D then infCase true 1 cs
    else if c = 0x69 ∨ c = 0x49 then infCase false 0 (c :: cs)
    else if c = 0x6E ∨ c = 0x4E then
      if commonPrefixLenIgnoreCase (c :: cs) (B "nan") = 3 then some (.nan, 3) else none
    else none

/-- Outcome of `strconv.readFloat`: sign, base, the exact value
`mant * base^exp` (`exp` a power of ten, or of two for a hexadecimal input),
and the unread rest; `none` when `ok` is false. -/
structure ReadFloat where
  neg : Bool
  hex : Bool
  mant : Nat
  exp : Int
  rest : Bytes

/-- Go `strconv.readFloat`. -/
def readFloat (s : Bytes) : Option ReadFloat :=
  match s with
  | [] => none
  | c :: cs =>
    let neg := decide (c = 0x2D)
    let t := if c = 0x2B ∨ c = 0x2D then cs else c :: cs
    let hex : Bool :=
      match t with
      | c0 :: c1 :: _ :: _ => decide (c0 = 0x30) && decide (lowerByte c1 = 0x78)
      | _ => false
    let t := if hex then t.drop 2 else t
    let (st, rest) := readMant hex t {}
    if !st.sawdigits then none
    else
      let dp : Int := if st.sawdot then st.dp else st.nd
      let dp : Int := if hex then dp * 4 else dp
      let ndMant : Int := if hex then st.nd * 4 else st.nd
      let expChar : UInt8 := if hex then 0x70 else 0x65
      let finish (dp : Int) (u : Bool) (rest : Bytes) : Option ReadFloat :=
        let exp : Int := if st.mant != 0 then dp - ndMant else 0
        if u && !underscoreOK (s.take (s.length - rest.length)) then none
        else some { neg := neg, hex := hex, mant := st.mant, exp := exp, rest := rest }
      match rest with
      | x :: xs =>
        if lowerByte x = expChar then
          match xs with
          | [] => none
          | y :: ys =>
            let esign : Int := if y = 0x2D then -1 else 1
            let ds := if y = 0x2B ∨ y = 0x2D then ys else y :: ys
            match ds with
            | [] => none
            | z :: _ =>
              if !isDigit z then none
              else
                let (e, u, rest2) := readExpDigits ds 0 st.underscores
                finish (dp + e * esign) u rest2
        else if hex then none
        else finish dp st.underscores rest
      | [] => if hex then none else finish dp st.underscores []

/-- Go `strconv.ParseFloat(s, 64)`: `some f` when the error is nil, `none`
otherwise (syntax error, trailing bytes, or a value out of range). -/
def ParseFloat (s : Bytes) : Option Float64 :=
  match special s with
  | some (f, n) => if n = s.length then some f else none
  | none =>
    match readFloat s with
    | none => none
    | some r =>
      if !r.rest.isEmpty then none
      else
        let base : Nat := if r.hex then 2 else 10
        if 0 ≤ r.exp then roundFloat64 r.neg (r.mant * base ^ r.exp.toNat) 1
        else roundFloat64 r.neg r.mant (base ^ (-r.exp).toNat)

/-! ## `media.go` -/

/-- The constant `MediaType`. -/
def MediaType : Bytes := B "application/vnd.hac+json"

/-- The constant `SpecVersion`. -/
def SpecVersion : Bytes := B "1.0"

/-- A parsed media range from an Accept header (`mediaRange`). -/
structure mediaRange where
  typ : Bytes
  subtype : Bytes
  quality : Float64
  deriving DecidableEq, Repr

/-- The zero value `mediaRange{}`. -/
def mediaRange.empty : mediaRange := { typ := [], subtype := [], quality := Float64.zero }

/-- One iteration of the parameter loop of `parseMediaRange`: a parameter
starting with `q=` or `Q=` whose value `ParseFloat` accepts replaces the
quality. -/
def applyParam (mr : mediaRange) (param : Bytes) : mediaRange :=
  let param := TrimSpace param
  if HasPrefix param (B "q=") || HasPrefix param (B "Q=") then
    match ParseFloat (param.drop 2) with
    | some q => { mr with quality := q }
    | none => mr
  else mr

/-- Model of `parseMediaRange`: parses one entry such as
`application/json;q=0.8`; the empty range for a malformed entry. -/
def parseMediaRange (s : Bytes) : mediaRange :=
  let params := splitByte 0x3B s
  let mediaType := TrimSpace (params.headD [])
  let slash := IndexByte 0x2F mediaType
  if slash < 0 then mediaRange.empty
  else
    let typ := TrimSpace (mediaType.take slash.toNat)
    let subtype := TrimSpace (mediaType.drop (slash.toNat + 1))
    if typ = [] ∨ subtype = [] then mediaRange.empty
    else
      params.tail.foldl applyParam { typ := typ, subtype := subtype, quality := Float64.one }

/-- Model of `parseAccept`: the ranges of the comma-separated entries, in
header order, entries with an empty type dropped. -/
def parseAccept (header : Bytes) : List mediaRange :=
  if header = [] then []
  else
    ((splitByte 0x2C header).map (fun part => parseMediaRange (TrimSpace part))).filter
      (fun mr => decide (mr.typ ≠ []))

/-- Model of `matchesHAC`. -/
def matchesHAC (mr : mediaRange) : Bool :=
  decide (mr.typ = B "application") && decide (mr.subtype = B "vnd.hac+json")

/-- Model of `wantsHAC`: some range matches the HAC media type with a quality
above zero. -/
def wantsHAC (accept : Bytes) : Bool :=
  (parseAccept accept).any (fun mr => matchesHAC mr && mr.quality.gtZero)

/-- The loop of `hacIsOnlyAcceptable`, with the local `hasHAC`. -/
def hacOnlyLoop : List mediaRange → Bool → Bool
  | [], hasHAC => hasHAC
  | mr :: rest, hasHAC =>
    if matchesHAC mr then
      hacOnlyLoop rest (if mr.quality.gtZero then true else hasHAC)
    else if mr.quality.gtZero then false
    else hacOnlyLoop rest hasHAC

/-- Model of `hacIsOnlyAcceptable`. -/
def hacIsOnlyAcceptable (accept : Bytes) : Bool :=
  let ranges := parseAccept accept
  if ranges.length = 0 then false else hacOnlyLoop ranges false

/-! ## `encoding/json`: syntax check and decoding -/

/-- A decoded JSON value.  Strings and object keys are held unquoted. -/
inductive JSON where
  | null
  | bool (b : Bool)
  | num
  | str (s : Bytes)
  | arr (xs : List JSON)
  | obj (kvs : List (Bytes × JSON))

/-- JSON white space (`isSpace` of the scanner). -/
def isJSONSpace (c : UInt8) : Bool := c = 0x20 || c = 0x09 || c = 0x0D || c = 0x0A

/-- Skip JSON white space. -/
def skipSpace : Bytes → Bytes
  | [] => []
  | c :: cs => if isJSONSpace c then skipSpace cs else c :: cs

/-- Go `utf8.AppendRune`: the UTF-8 encoding of `r`; surrogates and values
above U+10FFFF are encoded as U+FFFD. -/
def EncodeRune (r : Nat) : Bytes :=
  if r < 0x80 then [UInt8.ofNat r]
  else if r < 0x800 then [UInt8.ofNat (0xC0 + r / 64), UInt8.ofNat (0x80 + r % 64)]
  else if (0xD800 ≤ r ∧ r ≤ 0xDFFF) ∨ 0x10FFFF < r then [0xEF, 0xBF, 0xBD]
  else if r < 0x10000 then
    [UInt8.ofNat (0xE0 + r / 4096), UInt8.ofNat (0x80 + r / 64 % 64), UInt8.ofNat (0x80 + r % 64)]
  else
    [UInt8.ofNat (0xF0 + r / 262144), UInt8.ofNat (0x80 + r / 4096 % 64),
      UInt8.ofNat (0x80 + r / 64 % 64), UInt8.ofNat (0x80 + r % 64)]

/-- Value of a hexadecimal digit. -/
def hexVal (c : UInt8) : Option Nat :=
  if isDigit c then some (c.toNat - 0x30)
  else if decide (0x61 ≤ c) && decide (c ≤ 0x66) then some (c.toNat - 0x61 + 10)
  else if decide (0x41 ≤ c) && decide (c ≤ 0x46) then some (c.toNat - 0x41 + 10)
  else none

/-- Go `getu4`: the code unit of a leading `\uXXXX` escape. -/
def getu4 : Bytes → Option Nat
  | 0x5C :: 0x75 :: a :: b :: c :: d :: _ =>
    match hexVal a, hexVal b, hexVal c, hexVal d with
    | some a, some b, some c, some d => some (a * 4096 + b * 256 + c * 16 + d)
    | _, _, _, _ => none
  | _ => none

/-- The byte a two-character escape other than `\u` stands for. -/
def simpleEscape (e : UInt8) : Option UInt8 :=
  if e = 0x22 ∨ e = 0x5C ∨ e = 0x2F then some e
  else if e = 0x62 then some 0x08
  else if e = 0x66 then some 0x0C
  else if e = 0x6E then some 0x0A
  else if e = 0x72 then some 0x0D
  else if e = 0x74 then some 0x09
  else none

/-- The rune a `\uXXXX` escape at the start of `s` stands for, and the number
of bytes it takes: a high surrogate followed by the escape of a low surrogate
is combined with it (12 bytes); any other surrogate is U+FFFD (6 bytes). -/
def unicodeEscape (s : Bytes) : Option (Nat × Nat) :=
  match getu4 s with
  | none => none
  | some rr =>
    if 0xD800 ≤ rr ∧ rr ≤ 0xDFFF then
      match getu4 (s.drop 6) with
      | some rr1 =>
        if rr ≤ 0xDBFF ∧ 0xDC00 ≤ rr1 ∧ rr1 ≤ 0xDFFF then
          some ((rr - 0xD800) * 1024 + (rr1 - 0xDC00) + 0x10000, 12)
        else some (RuneError, 6)
      | none => some (RuneError, 6)
    else some (rr, 6)

/-- Scanning and unquoting of a JSON string, started after the opening quote:
the decoded bytes and the input after the closing quote.  Escapes are
expanded, a valid surrogate pair of `\u` escapes is combined, a lone surrogate
and every invalid UTF-8 byte become U+FFFD (Go `unquoteBytes`); a control
byte, an unknown escape or a missing closing quote is a syntax error.  Every
step takes at least one byte, so fuel equal to the length of the input is
enough (`parseString_fuel`). -/
def parseString : Nat → Bytes → Bytes → Option (Bytes × Bytes)
  | 0, _, _ => none
  | _ + 1, [], _ => none
  | fuel + 1, c :: cs, acc =>
    if c = 0x22 then some (acc, cs)
    else if c < 0x20 then none
    else if c = 0x5C then
      match cs with
      | [] => none
      | e :: es =>
        match simpleEscape e with
        | some b => parseString fuel es (acc ++ [b])
        | none =>
          if e = 0x75 then
            match unicodeEscape (c :: cs) with
            | some (r, n) => parseString fuel ((c :: cs).drop n) (acc ++ EncodeRune r)
            | none => none
          else none
    else if c < 0x80 then parseString fuel cs (acc ++ [c])
    else
      parseString fuel ((c :: cs).drop (DecodeRune (c :: cs)).2)
        (acc ++ EncodeRune (DecodeRune (c :: cs)).1)

/-- Longest prefix of decimal digits, and the rest. -/
def takeDigits : Bytes → Bytes × Bytes
  | [] => ([], [])
  | c :: cs =>
    if isDigit c then
      let (ds, r) := takeDigits cs
      (c :: ds, r)
    else ([], c :: cs)

/-- The input without a leading sign of an exponent. -/
def dropSign : Bytes → Bytes
  | [] => []
  | x :: xs => if x = 0x2B ∨ x = 0x2D then xs else x :: xs

/-- The exponent part of a JSON number, if present. -/
def parseNumberExp (s : Bytes) : Option Bytes :=
  match s with
  | c :: r =>
    if c = 0x65 ∨ c = 0x45 then
      if (takeDigits (dropSign r)).1 = [] then none else some (takeDigits (dropSign r)).2
    else some s
  | [] => some s

/-- The fraction and exponent parts of a JSON number, if present. -/
def parseNumberFrac (s : Bytes) : Option Bytes :=
  match s with
  | c :: r =>
    if c = 0x2E then
      if (takeDigits r).1 = [] then none else parseNumberExp (takeDigits r).2
    else parseNumberExp s
  | [] => some s

/-- The integer part of a JSON number, then the rest of it: `0`, or a digit
from `1` to `9` followed by digits. -/
def parseNumberInt (s : Bytes) : Option Bytes :=
  match s with
  | c :: r =>
    if c = 0x30 then parseNumberFrac r
    else if decide (0x31 ≤ c) && decide (c ≤ 0x39) then parseNumberFrac (takeDigits r).2
    else none
  | [] => none

/-- Scanning of a JSON number: the input after it. -/
def parseNumber (s : Bytes) : Option Bytes :=
  match s with
  | c :: r => if c = 0x2D then parseNumberInt r else parseNumberInt (c :: r)
  | [] => none

/-- The scanner's `maxNestingDepth`. -/
def maxNestingDepth : Nat := 10000

mutual

/-- One JSON value, with leading white space: the value and the input after
it.  `depth` is the number of enclosing arrays and objects; `fuel` bounds the
recursion. -/
def parseValue : Nat → Nat → Bytes → Option (JSON × Bytes)
  | 0, _, _ => none
  | fuel + 1, depth, s =>
    match skipSpace s with
    | [] => none
    | c :: r =>
      if c = 0x7B then
        if maxNestingDepth < depth + 1 then none
        else
          match skipSpace r with
          | [] => none
          | x :: xs =>
            if x = 0x7D then some (.obj [], xs)
            else parseMembers fuel (depth + 1) (x :: xs) []
      else if c = 0x5B then
        if maxNestingDepth < depth + 1 then none
        else
          match skipSpace r with
          | [] => none
          | x :: xs =>
            if x = 0x5D then some (.arr [], xs)
            else parseElems fuel (depth + 1) (x :: xs) []
      else if c = 0x22 then
        match parseString (r.length + 1) r [] with
        | some (str, rest) => some (.str str, rest)
        | none => none
      else if c = 0x2D ∨ isDigit c then
        match parseNumber (c :: r) with
        | some rest => some (.num, rest)
        | none => none
      else if HasPrefix (c :: r) (B "true") then some (.bool true, r.drop 3)
      else if HasPrefix (c :: r) (B "false") then some (.bool false, r.drop 4)
      else if HasPrefix (c :: r) (B "null") then some (.null, r.drop 3)
      else none

/-- The elements of an array from the start of an element on, up to and
including the closing bracket. -/
def parseElems : Nat → Nat → Bytes → List JSON → Option (JSON × Bytes)
  | 0, _, _, _ => none
  | fuel + 1, depth, s, acc =>
    match parseValue fuel depth s with
    | none => none
    | some (v, r) =>
      match skipSpace r with
      | [] => none
      | x :: xs =>
        if x = 0x2C then parseElems fuel depth xs (acc ++ [v])
        else if x = 0x5D then some (.arr (acc ++ [v]), xs)
        else none

/-- The members of an object from the start of a key on, up to and including
the closing brace. -/
def parseMembers : Nat → Nat → Bytes → List (Bytes × JSON) → Option (JSON × Bytes)
  | 0, _, _, _ => none
  | fuel + 1, depth, s, acc =>
    match skipSpace s with
    | [] => none
    | q :: r =>
      if q = 0x22 then
        match parseString (r.length + 1) r [] with
        | none => none
        | some (key, r1) =>
          match skipSpace r1 with
          | [] => none
          | colon :: r2 =>
            if colon = 0x3A then
              match parseValue fuel depth r2 with
              | none => none
              | some (v, r3) =>
                match skipSpace r3 with
                | [] => none
                | x :: xs =>
                  if x = 0x2C then parseMembers fuel depth xs (acc ++ [(key, v)])
                  else if x = 0x7D then some (.obj (acc ++ [(key, v)]), xs)
                  else none
            else none
      else none

end

/-- Decoding of a complete JSON text: one value, white space around it
allowed, nothing else.  `none` for a syntax error (the fuel is enough:
`jsonParse_fuel`). -/
def jsonParse (data : Bytes) : Option JSON :=
  match parseValue (2 * data.length + 2) 0 data with
  | some (v, rest) => if skipSpace rest = [] then some v else none
  | none => none

/-- Go `json.Valid`. -/
def jsonValid (data : Bytes) : Bool := (jsonParse data).isSome

/-- Case-insensitive match of a struct field name `s` (ASCII) against an
object key `t`, as `encoding/json` does it: ASCII letters match in either
case, and U+017F and U+212A match `s` and `k`. -/
def equalFoldField : Bytes → Bytes → Bool
  | [], t => t.isEmpty
  | _ :: _, [] => false
  | sb :: s, tb :: t =>
    if tb < 0x80 then
      if sb = tb then equalFoldField s t
      else
        let su := sb &&& 0xDF
        if decide (0x41 ≤ su) && decide (su ≤ 0x5A) && decide (su = tb &&& 0xDF) then
          equalFoldField s t
        else false
    else
      match t with
      | t1 :: t' =>
        if (sb = 0x73 ∨ sb = 0x53) ∧ tb = 0xC5 ∧ t1 = 0xBF then equalFoldField s t'
        else
          match t' with
          | t2 :: t'' =>
            if (sb = 0x6B ∨ sb = 0x4B) ∧ tb = 0xE2 ∧ t1 = 0x84 ∧ t2 = 0xAA then
              equalFoldField s t''
            else false
          | [] => false
      | [] => false

/-- The anonymous struct `parsed` of `defaultErrorMapping`. -/
structure parsedBody where
  Code : Bytes := []
  Message : Bytes := []
  Error : Bytes := []
  deriving DecidableEq, Repr

/-- Decoding of one JSON value into a `string` field: a JSON string is
stored, `null` leaves the field alone, anything else is an
`UnmarshalTypeError` (`none`). -/
def storeString (cur : Bytes) : JSON → Option Bytes
  | .str s => some s
  | .null => some cur
  | _ => none

/-- Decoding of one object member into `parsed`; the flag turns false at the
first type error.  Keys matching no field are skipped. -/
def storeMember (st : parsedBody × Bool) (kv : Bytes × JSON) : parsedBody × Bool :=
  let (p, ok) := st
  if equalFoldField (B "code") kv.1 then
    match storeString p.Code kv.2 with
    | some v => ({ p with Code := v }, ok)
    | none => (p, false)
  else if equalFoldField (B "message") kv.1 then
    match storeString p.Message kv.2 with
    | some v => ({ p with Message := v }, ok)
    | none => (p, false)
  else if equalFoldField (B "error") kv.1 then
    match storeString p.Error kv.2 with
    | some v => ({ p with Error := v }, ok)
    | none => (p, false)
  else (p, ok)

/-- Go `json.Unmarshal(body, &parsed)` for the struct of three string fields:
`some parsed` when the error is nil, `none` otherwise (syntax error, or a JSON
value of the wrong type for the struct or for one of its fields). -/
def unmarshalParsed (body : Bytes) : Option parsedBody :=
  match jsonParse body with
  | none => none
  | some (.obj kvs) =>
    let (p, ok) := kvs.foldl storeMember ({}, true)
    if ok then some p else none
  | some .null => some {}
  | some _ => none

/-- An object key that `json.Unmarshal` matches with one of the fields `code`,
`message`, `error` of `parsed`. -/
def isFieldKey (k : Bytes) : Bool :=
  equalFoldField (B "code") k || equalFoldField (B "message") k || equalFoldField (B "error") k

/-- A JSON value that can be decoded into a `string` field: a string or
`null`. -/
def JSON.isStringOrNull : JSON → Bool
  | .str _ => true
  | .null => true
  | _ => false

/-- A JSON value that can be decoded into a struct: an object or `null`. -/
def JSON.isObjectOrNull : JSON → Bool
  | .obj _ => true
  | .null => true
  | _ => false

/-- The string a `string` field ends up with after the members `kvs` were
decoded into it: the value of the last member whose key matches `name` and
whose value is a string; `cur` if there is none. -/
def lastString (name : Bytes) : List (Bytes × JSON) → Bytes → Bytes
  | [], cur => cur
  | kv :: kvs, cur =>
    lastString name kvs
      (if equalFoldField name kv.1 then
        match kv.2 with
        | .str s => s
        | _ => cur
       else cur)

/-- Every member for one of the three fields holds a string or `null`. -/
def wellTyped (kvs : List (Bytes × JSON)) : Bool :=
  kvs.all (fun kv => !isFieldKey kv.1 || kv.2.isStringOrNull)

/-! ## `net/http`: status text and headers -/

/-- Go `http.StatusText`: the reason phrase of a status code, empty for an
unknown code. -/
def StatusText (code : Int) : Bytes :=
  match code with
  | 100 => B "Continue"
  | 101 => B "Switching Protocols"
  | 102 => B "Processing"
  | 103 => B "Early Hints"
  | 200 => B "OK"
  | 201 => B "Created"
  | 202 => B "Accepted"
  | 203 => B "Non-Authoritative Information"
  | 204 => B "No Content"
  | 205 => B "Reset Content"
  | 206 => B "Partial Content"
  | 207 => B "Multi-Status"
  | 208 => B "Already Reported"
  | 226 => B "IM Used"
  | 300 => B "Multiple Choices"
  | 301 => B "Moved Permanently"
  | 302 => B "Found"
  | 303 => B "See Other"
  | 304 => B "Not Modified"
  | 305 => B "Use Proxy"
  | 307 => B "Temporary Redirect"
  | 308 => B "Permanent Redirect"
  | 400 => B "Bad Request"
  | 401 => B "Unauthorized"
  | 402 => B "Payment Required"
  | 403 => B "Forbidden"
  | 404 => B "Not Found"
  | 405 => B "Method Not Allowed"
  | 406 => B "Not Acceptable"
  | 407 => B "Proxy Authentication Required"
  | 408 => B "Request Timeout"
  | 409 => B "Conflict"
  | 410 => B "Gone"
  | 411 => B "Length Required"
  | 412 => B "Precondition Failed"
  | 413 => B "Request Entity Too Large"
  | 414 => B "Request URI Too Long"
  | 415 => B "Unsupported Media Type"
  | 416 => B "Requested Range Not Satisfiable"
  | 417 => B "Expectation Failed"
  | 418 => B "I\x27m a teapot"
  | 421 => B "Misdirected Request"
  | 422 => B "Unprocessable Entity"
  | 423 => B "Locked"
  | 424 => B "Failed Dependency"
  | 425 => B "Too Early"
  | 426 => B "Upgrade Required"
  | 428 => B "Precondition Required"
  | 429 => B "Too Many Requests"
  | 431 => B "Request Header Fields Too Large"
  | 451 => B "Unavailable For Legal Reasons"
  | 500 => B "Internal Server Error"
  | 501 => B "Not Implemented"
  | 502 => B "Bad Gateway"
  | 503 => B "Service Unavailable"
  | 504 => B "Gateway Timeout"
  | 505 => B "HTTP Version Not Supported"
  | 506 => B "Variant Also Negotiates"
  | 507 => B "Insufficient Storage"
  | 508 => B "Loop Detected"
  | 510 => B "Not Extended"
  | 511 => B "Network Authentication Required"
  | _ => []

/-! ### Go maps

A Go map is modelled by an association list in which a key is looked up at
its first occurrence; assignment replaces the entry of the key if there is
one and adds an entry otherwise. -/

section GoMap

variable {K V : Type} [DecidableEq K]

/-- Go `m[k]` (with the `ok` result): the value stored under `k`. -/
def mapGet : List (K × V) → K → Option V
  | [], _ => none
  | (k', v) :: m, k => if k' = k then some v else mapGet m k

/-- Go `m[k] = v`. -/
def mapSet : List (K × V) → K → V → List (K × V)
  | [], k, v => [(k, v)]
  | (k', v') :: m, k, v => if k' = k then (k, v) :: m else (k', v') :: mapSet m k v

/-- Go `delete(m, k)`. -/
def mapDel (m : List (K × V)) (k : K) : List (K × V) :=
  m.filter (fun e => decide (e.1 ≠ k))

end GoMap

/-- Go `http.Header`: a map from header names to their values. -/
abbrev Header := List (Bytes × List Bytes)

/-- Go `textproto`'s `validHeaderFieldByte`: the token characters of RFC 7230. -/
def validHeaderFieldByte (c : UInt8) : Bool :=
  isDigit c || (decide (0x41 ≤ c) && decide (c ≤ 0x5A)) || (decide (0x61 ≤ c) && decide (c ≤ 0x7A))
    || c = 0x21 || c = 0x23 || c = 0x24 || c = 0x25 || c = 0x26 || c = 0x27 || c = 0x2A
    || c = 0x2B || c = 0x2D || c = 0x2E || c = 0x5E || c = 0x5F || c = 0x60 || c = 0x7C
    || c = 0x7E

/-- The case mapping of `CanonicalMIMEHeaderKey`: upper case at the start and
after a dash, lower case elsewhere. -/
def canonCase : Bool → Bytes → Bytes
  | _, [] => []
  | upper, c :: cs =>
    let c :=
      if upper && decide (0x61 ≤ c) && decide (c ≤ 0x7A) then c - 0x20
      else if !upper && decide (0x41 ≤ c) && decide (c ≤ 0x5A) then c + 0x20
      else c
    c :: canonCase (c = 0x2D) cs

/-- Go `textproto.CanonicalMIMEHeaderKey`: a key holding a byte that is not a
token character is returned unchanged. -/
def CanonicalMIMEHeaderKey (s : Bytes) : Bytes :=
  if s.all validHeaderFieldByte then canonCase true s else s

namespace Header

/-- Go `Header.Get`: the first value under the canonical form of `key`, or
the empty string. -/
def Get (h : Header) (key : Bytes) : Bytes :=
  match mapGet h (CanonicalMIMEHeaderKey key) with
  | some (v :: _) => v
  | _ => []

/-- Go `Header.Values`: all values under the canonical form of `key`. -/
def Values (h : Header) (key : Bytes) : List Bytes :=
  (mapGet h (CanonicalMIMEHeaderKey key)).getD []

/-- Go `Header.Set`. -/
def Set (h : Header) (key value : Bytes) : Header :=
  mapSet h (CanonicalMIMEHeaderKey key) [value]

/-- Go `Header.Add`. -/
def Add (h : Header) (key value : Bytes) : Header :=
  mapSet h (CanonicalMIMEHeaderKey key)
    ((mapGet h (CanonicalMIMEHeaderKey key)).getD [] ++ [value])

/-- Go `Header.Del`. -/
def Del (h : Header) (key : Bytes) : Header :=
  mapDel h (CanonicalMIMEHeaderKey key)

end Header

/-! ## `hac.go`: the data model -/

/-- A Go value of interface type `any`, as far as `encoding/json` tells
values apart; `unsupported` stands for a value that cannot be encoded. -/
inductive GoAny where
  | null
  | bool (b : Bool)
  | int (i : Int)
  | float (f : Float64)
  | str (s : Bytes)
  | list (xs : List GoAny)
  | object (kvs : List (Bytes × GoAny))
  | unsupported

/-- The struct `Cost`. -/
structure Cost where
  Amount : Float64
  Currency : Bytes
  Description : Bytes

/-- The struct `Safety`; `Mutability` and `BlastRadius` are string types. -/
structure Safety where
  Mutability : Bytes
  BlastRadius : Bytes
  ReversibleWithin : Bytes
  ConfirmationRecommended : Bool
  Cost : Option Cost

/-- The struct `Field` (`Type_` is the field `Type`). -/
structure Field where
  Name : Bytes
  Type_ : Bytes
  Description : Bytes
  Required : Bool
  Enum : List GoAny
  Default : GoAny

/-- The struct `Action`. -/
structure Action where
  Rel : Bytes
  Method : Bytes
  Href : Bytes
  Description : Bytes
  Safety : Option Safety
  Fields : List Field
  Preconditions : List Bytes

/-- The struct `RelatedResource`. -/
structure RelatedResource where
  Rel : Bytes
  Href : Bytes
  Description : Bytes

/-- The struct `HACMeta`. -/
structure HACMeta where
  Version : Bytes
  Description : Bytes
  Actions : List Action
  Related : List RelatedResource

/-- The struct `SuccessEnvelope`; `Data` is a `json.RawMessage`. -/
structure SuccessEnvelope where
  Data : Bytes
  HAC : Option HACMeta

/-- The struct `Recovery`. -/
structure Recovery where
  Description : Bytes
  Actions : List Action

/-- The struct `HACError`. -/
structure HACError where
  Code : Bytes
  Message : Bytes
  Retryable : Bool
  RetryAfter : Int
  Recovery : Option Recovery

/-- The struct `ErrorEnvelope`. -/
structure ErrorEnvelope where
  Error : Option HACError

/-- A non-nil Go `error`. -/
structure GoError where
  msg : Bytes

/-! ## `config.go`: the route registry -/

/-- The struct `RouteConfig`. -/
structure RouteConfig where
  Description : Bytes
  Actions : List Action
  Related : List RelatedResource

/-- The struct `routeKey`. -/
structure routeKey where
  method : Bytes
  pattern : Bytes
  deriving DecidableEq, Repr

/-- The struct `Registry`: the map `routes` (the mutex is not modelled). -/
structure Registry where
  routes : List (routeKey × RouteConfig)

/-- Model of `NewRegistry`. -/
def NewRegistry : Registry := { routes := [] }

/-- Model of `Registry.Lookup`: the stored config, or nil. -/
def Registry.Lookup (reg : Registry) (method pattern : Bytes) : Option RouteConfig :=
  mapGet reg.routes { method := method, pattern := pattern }

/-- The struct `RouteBuilder`, without its pointer to the registry: `Register`
takes the registry it commits to. -/
structure RouteBuilder where
  method : Bytes
  pattern : Bytes
  description : Bytes := []
  actions : List Action := []
  related : List RelatedResource := []

/-- Model of `Registry.Route`. -/
def Registry.Route (method pattern : Bytes) : RouteBuilder :=
  { method := method, pattern := pattern }

/-- Model of `Registry.Get`. -/
def Registry.Get (pattern : Bytes) : RouteBuilder := { method := B "GET", pattern := pattern }

/-- Model of `Registry.Post`. -/
def Registry.Post (pattern : Bytes) : RouteBuilder := { method := B "POST", pattern := pattern }

/-- Model of `Registry.Put`. -/
def Registry.Put (pattern : Bytes) : RouteBuilder := { method := B "PUT", pattern := pattern }

/-- Model of `Registry.Patch`. -/
def Registry.Patch (pattern : Bytes) : RouteBuilder := { method := B "PATCH", pattern := pattern }

/-- Model of `Registry.Delete`. -/
def Registry.Delete (pattern : Bytes) : RouteBuilder :=
  { method := B "DELETE", pattern := pattern }

/-- Model of `RouteBuilder.Description`. -/
def RouteBuilder.Description (b : RouteBuilder) (desc : Bytes) : RouteBuilder :=
  { b with description := desc }

/-- Model of `RouteBuilder.Actions`. -/
def RouteBuilder.Actions (b : RouteBuilder) (actions : List Action) : RouteBuilder :=
  { b with actions := actions }

/-- Model of `RouteBuilder.Related`. -/
def RouteBuilder.Related (b : RouteBuilder) (related : List RelatedResource) : RouteBuilder :=
  { b with related := related }

/-- Model of `RouteBuilder.Register`: stores the built config under the
builder's key in `reg`. -/
def RouteBuilder.Register (b : RouteBuilder) (reg : Registry) : Registry :=
  { routes := mapSet reg.routes { method := b.method, pattern := b.pattern }
      { Description := b.description, Actions := b.actions, Related := b.related } }

/-! ## Requests, response writers and handlers -/

/-- The parts of an `*http.Request` the package reads: the method, `URL.Path`,
`Pattern`, the header, and the value stored in the request context under
`contextKey{}` (`true` once `withHACRequested` was applied). -/
structure Request where
  Method : Bytes
  Path : Bytes
  Pattern : Bytes
  Header : Header
  hacRequested : Bool := false

/-- Model of `IsHACRequested`. -/
def IsHACRequested (r : Request) : Bool := r.hacRequested

/-- Model of `r.WithContext(withHACRequested(r.Context()))`. -/
def withHACRequested (r : Request) : Request := { r with hacRequested := true }

/-- Model of `StdlibPathResolver`. -/
def StdlibPathResolver (r : Request) : Bytes := r.Pattern

/-- What a handler does with the `http.ResponseWriter` it is given, as a
program over the three methods of the interface: `header f` changes the map
returned by `Header()`, `getHeader` reads it, `write` and `writeHeader` are
the calls of the same name. -/
inductive Prog where
  | done
  | header (f : Header → Header) (k : Prog)
  | getHeader (k : Header → Prog)
  | write (b : Bytes) (k : Prog)
  | writeHeader (code : Int) (k : Prog)

/-- An `http.Handler`: the calls `ServeHTTP(w, r)` makes on `w`. -/
abbrev Handler := Request → Prog

/-- The struct `responseRecorder`. -/
structure responseRecorder where
  header : Header
  body : Bytes
  code : Int
  wrote : Bool

/-- Model of `responseRecorder.Write`. -/
def responseRecorder.Write (r : responseRecorder) (b : Bytes) : responseRecorder :=
  { r with wrote := true, body := r.body ++ b }

/-- Model of `responseRecorder.WriteHeader`. -/
def responseRecorder.WriteHeader (r : responseRecorder) (statusCode : Int) : responseRecorder :=
  { r with code := statusCode }

/-- A handler program run against a `responseRecorder`. -/
def Prog.record : Prog → responseRecorder → responseRecorder
  | .done, r => r
  | .header f k, r => k.record { r with header := f r.header }
  | .getHeader k, r => (k r.header).record r
  | .write b k, r => k.record (r.Write b)
  | .writeHeader c k, r => k.record (r.WriteHeader c)

/-- The response writer of the server, as `net/http` and
`httptest.ResponseRecorder` implement `http.ResponseWriter`: `header` is the
map returned by `Header()`; the first `WriteHeader` fixes the status code and
the headers sent; a `Write` before any `WriteHeader` sends status 200 first;
a `WriteHeader` with a code below 100 or above 999 panics, which ends the
handler (`panicked`).  Content-Type sniffing is not modelled. -/
structure Response where
  header : Header := []
  wroteHeader : Bool := false
  code : Int := 200
  sent : Header := []
  body : Bytes := []
  panicked : Bool := false

/-- `WriteHeader` of the server's writer. -/
def Response.WriteHeader (w : Response) (code : Int) : Response :=
  if w.wroteHeader then w
  else if code < 100 ∨ code > 999 then { w with panicked := true }
  else { w with wroteHeader := true, code := code, sent := w.header }

/-- `Write` of the server's writer. -/
def Response.Write (w : Response) (b : Bytes) : Response :=
  let w := w.WriteHeader 200
  { w with body := w.body ++ b }

/-- A handler program run against the server's writer; nothing runs after a
panic. -/
def Prog.serve : Prog → Response → Response
  | .done, w => w
  | .header f k, w => if w.panicked then w else k.serve { w with header := f w.header }
  | .getHeader k, w => if w.panicked then w else (k w.header).serve w
  | .write b k, w => if w.panicked then w else k.serve (w.Write b)
  | .writeHeader c k, w => if w.panicked then w else k.serve (w.WriteHeader c)

/-- Go `http.Error(w, msg, code)`. -/
def httpError (msg : Bytes) (code : Int) : Prog :=
  .header (fun h => Header.Del h (B "Content-Length"))
    (.header (fun h => Header.Set h (B "Content-Type") (B "text/plain; charset=utf-8"))
      (.header (fun h => Header.Set h (B "X-Content-Type-Options") (B "nosniff"))
        (.writeHeader code (.write (msg ++ [0x0A]) .done))))

/-! ## `envelope.go` -/

/-- Model of `buildSuccessEnvelope`: the pair `(*SuccessEnvelope, error)` as
an `Except`. -/
def buildSuccessEnvelope (body : Bytes) (cfg : Option RouteConfig) :
    Except GoError SuccessEnvelope :=
  let raw : Bytes := if 0 < body.length ∧ jsonValid body = true then body else B "null"
  let meta : HACMeta := { Version := SpecVersion, Description := [], Actions := [], Related := [] }
  let meta : HACMeta :=
    match cfg with
    | some cfg =>
      { meta with Description := cfg.Description, Actions := cfg.Actions, Related := cfg.Related }
    | none => meta
  .ok { Data := raw, HAC := some meta }

/-- The type `ErrorMapper`; a nil result is `none`. -/
abbrev ErrorMapper := Int → Bytes → Request → Option HACError

/-- Model of `defaultErrorMapping`. -/
def defaultErrorMapping (statusCode : Int) (body : Bytes) : HACError :=
  let hacErr : HACError :=
    { Code := StatusText statusCode, Message := StatusText statusCode,
      Retryable := false, RetryAfter := 0, Recovery := none }
  let hacErr : HACError :=
    if statusCode = 429 ∨ statusCode ≥ 500 then { hacErr with Retryable := true } else hacErr
  if body.length = 0 then hacErr
  else
    match unmarshalParsed body with
    | some parsed =>
      let hacErr : HACError :=
        if parsed.Code ≠ [] then { hacErr with Code := parsed.Code } else hacErr
      if parsed.Message ≠ [] then { hacErr with Message := parsed.Message }
      else if parsed.Error ≠ [] then { hacErr with Message := parsed.Error }
      else hacErr
    | none => hacErr

/-- Model of `buildErrorEnvelope`; a nil `mapper` is `none`. -/
def buildErrorEnvelope (statusCode : Int) (body : Bytes) (r : Request)
    (mapper : Option ErrorMapper) : Except GoError ErrorEnvelope :=
  match mapper with
  | some m =>
    match m statusCode body r with
    | some hacErr => .ok { Error := some hacErr }
    | none => .ok { Error := some (defaultErrorMapping statusCode body) }
  | none => .ok { Error := some (defaultErrorMapping statusCode body) }

/-! ## `middleware.go` -/

/-- The value held by the local `envelope` of `Middleware`. -/
inductive Envelope where
  | success (e : SuccessEnvelope)
  | error (e : ErrorEnvelope)

/-- What the Go runtime and `encoding/json` contribute to `Middleware` and is
not fixed by the package: `Marshal` is `json.Marshal` on an envelope (`some
out` when the error is nil; it fails on a value it cannot encode, such as a
NaN amount), and `rangeHeader` is the order in which a `range` over a header
map yields its entries, which Go leaves unspecified. -/
structure GoRuntime where
  Marshal : Envelope → Option Bytes
  rangeHeader : Header → Header
  rangeHeader_perm : ∀ h, (rangeHeader h).Perm h

/-- The struct `Options`; nil fields are `none`. -/
structure Options where
  Registry : Option Registry := none
  PathResolver : Option (Request → Bytes) := none
  ErrorMapper : Option ErrorMapper := none

/-- The loop `for _, v := range vs { w.Header().Add(k, v) }`, followed by `k`. -/
def addValues (key : Bytes) (vs : List Bytes) (k : Prog) : Prog :=
  vs.foldr (fun v p => .header (fun h => Header.Add h key v) p) k

/-- The loop `for k, vs := range rec.header { ... }` over the entries in the
order the runtime yields them, followed by `k`. -/
def copyHeaders (entries : Header) (k : Prog) : Prog :=
  entries.foldr (fun e p => addValues e.1 e.2 p) k

/-- The tail of `Middleware` once the envelope is serialised: copy the
recorded headers, set `Content-Type` and `Vary`, write the status if it is at
least 400, write the body. -/
def emit (rt : GoRuntime) (rec : responseRecorder) (out : Bytes) : Prog :=
  copyHeaders (rt.rangeHeader rec.header)
    (.header (fun h => Header.Set h (B "Content-Type") MediaType)
      (.header (fun h => Header.Set h (B "Vary") (B "Accept"))
        (if rec.code ≥ 400 then .writeHeader rec.code (.write out .done)
         else .write out .done)))

/-- The recorder `Middleware` hands to the downstream handler. -/
def newRecorder : responseRecorder := { header := [], body := [], code := 200, wrote := false }

/-- The envelope `Middleware` builds from the recorded response. -/
def buildEnvelope (rec : responseRecorder) (cfg : RouteConfig) (r : Request)
    (mapper : Option ErrorMapper) : Except GoError Envelope :=
  if rec.code ≥ 400 then
    match buildErrorEnvelope rec.code rec.body r mapper with
    | .ok e => .ok (.error e)
    | .error err => .error err
  else
    match buildSuccessEnvelope rec.body (some cfg) with
    | .ok e => .ok (.success e)
    | .error err => .error err

/-- The intercepting branch of `Middleware`, entered with the `RouteConfig`
found for the route. -/
def intercept (rt : GoRuntime) (opts : Options) (next : Handler) (cfg : RouteConfig)
    (r : Request) : Prog :=
  let r := withHACRequested r
  let recorded := (next r).record newRecorder
  match buildEnvelope recorded cfg r opts.ErrorMapper with
  | .error _ => httpError (B "Internal Server Error") 500
  | .ok envelope =>
    match rt.Marshal envelope with
    | none => httpError (B "Internal Server Error") 500
    | some out => emit rt recorded out

/-- Model of `Middleware(opts)(next)`: the handler that wraps `next`. -/
def Middleware (rt : GoRuntime) (opts : Options) (next : Handler) : Handler := fun r =>
  let resolver : Request → Bytes := opts.PathResolver.getD (fun r => r.Path)
  let registry : Registry := opts.Registry.getD NewRegistry
  let accept := Header.Get r.Header (B "Accept")
  if !wantsHAC accept then next r
  else
    let pattern := resolver r
    match registry.Lookup r.Method pattern with
    | none =>
      if hacIsOnlyAcceptable accept then
        httpError (B "Not Acceptable: no HAC metadata for this route") 406
      else next r
    | some cfg => intercept rt opts next cfg r

/-- The header map of the writer after the copy loop of `Middleware` ran over
`entries` on a writer whose map was `h`. -/
def copied (entries : Header) (h : Header) : Header :=
  entries.foldl (fun h e => e.2.foldl (fun h v => Header.Add h e.1 v) h) h

/-- The values of the entries whose key has the canonical form `key`, in the
order of `entries`. -/
def collect (key : Bytes) : Header → List Bytes
  | [] => []
  | e :: es => (if CanonicalMIMEHeaderKey e.1 = key then e.2 else []) ++ collect key es

/-- The header map of the writer when `Middleware` sends the envelope. -/
def emittedHeader (rt : GoRuntime) (recorded : responseRecorder) (h : Header) : Header :=
  Header.Set (Header.Set (copied (rt.rangeHeader recorded.header) h) (B "Content-Type") MediaType)
    (B "Vary") (B "Accept")

/-! ## `sort` and `strings` helpers used by `discovery.go` -/

/-- Go `a < b` on strings: the byte-wise lexicographic order. -/
def lessBytes : Bytes → Bytes → Bool
  | _, [] => false
  | [], _ :: _ => true
  | a :: as, b :: bs =>
    if a.toNat < b.toNat then true
    else if b.toNat < a.toNat then false
    else lessBytes as bs

/-- Go `a <= b` on strings, that is `!(b < a)`. -/
def leBytes (a b : Bytes) : Prop := lessBytes b a = false

instance leBytes.decidable : DecidableRel leBytes :=
  fun a b => inferInstanceAs (Decidable (lessBytes b a = false))

/-- Go `sort.Strings(x)`: `x` rearranged in ascending order.  Equal strings
are indistinguishable, so the ascending rearrangement is unique and any
sorting algorithm computes it; insertion sort is used here. -/
def sortStrings (x : List Bytes) : List Bytes := x.insertionSort leBytes

/-- Go `strings.Index(s, substr)`: index of the first occurrence of `substr`
in `s`, or `-1`. -/
def Index (s substr : Bytes) : Int :=
  match s with
  | [] => if substr = [] then 0 else -1
  | c :: cs =>
    if HasPrefix (c :: cs) substr then 0
    else
      let i := Index cs substr
      if i < 0 then -1 else i + 1

/-- Go `strings.TrimPrefix(s, p)`. -/
def TrimPrefix (s p : Bytes) : Bytes :=
  if HasPrefix s p then s.drop p.length else s

/-- The order in which Go's `for ... range` visits the entries of a map: some
rearrangement of the entries, not specified by the language. -/
structure RangeOrder (α : Type) where
  order : List α → List α
  perm : ∀ l, (order l).Perm l

/-- The order that visits the entries as they are stored. -/
def RangeOrder.stored (α : Type) : RangeOrder α := { order := id, perm := fun l => List.Perm.refl l }

/-- The order that visits the entries from the last stored to the first. -/
def RangeOrder.reversed (α : Type) : RangeOrder α :=
  { order := List.reverse, perm := fun l => List.reverse_perm l }

/-- `Registry.Routes`: all registered keys as (method, pattern) pairs, in the
order of the map iteration. -/
def Registry.Routes (ro : RangeOrder (routeKey × RouteConfig)) (reg : Registry) :
    List (Bytes × Bytes) :=
  (ro.order reg.routes).map (fun e => (e.1.method, e.1.pattern))

/-- Registering several builders one after the other. -/
def registerAll (bs : List RouteBuilder) (reg : Registry) : Registry :=
  bs.foldl (fun reg b => b.Register reg) reg

/-! ## `discovery.go` -/

/-- `ResourceEntry` of `hac.go`. -/
structure ResourceEntry where
  Rel : Bytes
  Href : Bytes
  Description : Bytes
  Methods : List Bytes
  deriving DecidableEq, Repr

/-- `DiscoveryMeta` of `hac.go`. -/
structure DiscoveryMeta where
  Name : Bytes
  Version : Bytes
  Description : Bytes
  Resources : List ResourceEntry
  deriving DecidableEq, Repr

/-- `Discovery`: `Meta` is a pointer, `none` is `nil`. -/
structure Discovery where
  Meta : Option DiscoveryMeta
  deriving DecidableEq, Repr

/-- The resource list of a discovery document (empty when `Meta` is `nil`). -/
def Discovery.Resources (d : Discovery) : List ResourceEntry :=
  match d.Meta with
  | some m => m.Resources
  | none => []

/-- The test of the loop of `deriveRel`: `p != "" && !strings.HasPrefix(p, "\x7b")`. -/
def isPlainSegment (p : Bytes) : Bool := decide (p ≠ []) && !HasPrefix p (B "\x7b")

/-- `deriveRel`: the relation name of a URL pattern. -/
def deriveRel (pattern : Bytes) : Bytes :=
  let pattern := TrimPrefix pattern (B "/")
  let parts := splitByte 0x2F pattern
  match parts.find? isPlainSegment with
  | some p => p
  | none => if pattern = [] then B "root" else pattern

/-- The pattern without the method that a stdlib pattern such as
`GET /users/{id}` carries in front: `AutoDiscovery` cuts a pattern after the
first `" /"`'s space. -/
def cleanPattern (pattern : Bytes) : Bytes :=
  let idx := Index pattern (B " /")
  if idx ≥ 0 then pattern.drop (idx.toNat + 1) else pattern

/-- One iteration of the first loop of `AutoDiscovery` on the map `grouped`
from cleaned pattern to the methods appended for it (the `pattern` field of an
entry is its key): the route's method is appended to the entry of its cleaned
pattern, which is created if it is missing. -/
def groupStep (grouped : List (Bytes × List Bytes)) (pair : Bytes × Bytes) :
    List (Bytes × List Bytes) :=
  let cleanPattern := cleanPattern pair.2
  mapSet grouped cleanPattern ((mapGet grouped cleanPattern).getD [] ++ [pair.1])

/-- The map `grouped` after the first loop of `AutoDiscovery`. -/
def groupRoutes (routes : List (Bytes × Bytes)) : List (Bytes × List Bytes) :=
  routes.foldl groupStep []

/-- The inner loop of `AutoDiscovery`: the description of the first route,
in the order of `routes`, whose cleaned pattern is `pattern` and whose
configuration has a non-empty description; empty when there is none. -/
def findDescription (reg : Registry) (pattern : Bytes) : List (Bytes × Bytes) → Bytes
  | [] => []
  | (method, pat) :: rest =>
    if cleanPattern pat = pattern then
      match reg.Lookup method pat with
      | some cfg => if cfg.Description ≠ [] then cfg.Description else findDescription reg pattern rest
      | none => findDescription reg pattern rest
    else findDescription reg pattern rest

/-- Go `sort.Slice(resources, func(i, j) bool { return resources[i].Href <
resources[j].Href })`.  The entries come from distinct map keys, so no two
have the same `Href` and the ascending rearrangement is unique. -/
def sortByHref (resources : List ResourceEntry) : List ResourceEntry :=
  resources.insertionSort (fun a b => leBytes a.Href b.Href)

/-- `AutoDiscovery`: `ro` is the iteration order of the registry's map (in
`Routes`), `go` that of the local map `grouped`. -/
def AutoDiscovery (ro : RangeOrder (routeKey × RouteConfig))
    (go : RangeOrder (Bytes × List Bytes))
    (name version description : Bytes) (reg : Registry) : Discovery :=
  let routes := reg.Routes ro
  let grouped := groupRoutes routes
  let resources := (go.order grouped).map (fun e =>
    { Rel := deriveRel e.1
      Href := e.1
      Description := findDescription reg e.1 routes
      Methods := sortStrings e.2 : ResourceEntry })
  { Meta := some
      { Name := name, Version := version, Description := description
        Resources := sortByHref resources } }

/-! ## Notions of the specification -/

/-- Go `x == 0` on `float64`: true for both zeros. -/
def Float64.eqZero : Float64 → Bool
  | .fin _ m _ => m == 0
  | _ => false

/-- A well-formed Accept entry: the part before the first `;` has a `/`, with
a non-empty type before it and a non-empty subtype after it, once trimmed. -/
def wellFormedEntry (entry : Bytes) : Bool :=
  let mediaType := TrimSpace ((splitByte 0x3B entry).headD [])
  let slash := IndexByte 0x2F mediaType
  decide (0 ≤ slash) && decide (TrimSpace (mediaType.take slash.toNat) ≠ [])
    && decide (TrimSpace (mediaType.drop (slash.toNat + 1)) ≠ [])

/-- A wildcard range: `*/*` or `application/*`. -/
def isWildcard (mr : mediaRange) : Bool :=
  decide (mr.subtype = B "*") && (decide (mr.typ = B "*") || decide (mr.typ = B "application"))

/-- The methods of the routes whose cleaned pattern is `href`, in the order of
`routes`. -/
def methodsOf (routes : List (Bytes × Bytes)) (href : Bytes) : List Bytes :=
  (routes.filter (fun pair => decide (cleanPattern pair.2 = href))).map (fun pair => pair.1)

/-- The first non-empty description among the configurations of the registry's
entries, in the order `entries`, whose pattern cleans to `href`. -/
def firstDescription (href : Bytes) (entries : List (routeKey × RouteConfig)) : Bytes :=
  match (entries.filter (fun e => decide (cleanPattern e.1.pattern = href))).find?
      (fun e => decide (e.2.Description ≠ [])) with
  | some e => e.2.Description
  | none => []

/-- Go `strings.Join(elems, sep)`. -/
def Join (sep : Bytes) : List Bytes → Bytes
  | [] => []
  | [e] => e
  | e :: e' :: es => e ++ sep ++ Join sep (e' :: es)

/-! ## Calls on a response writer -/

/-- One call a handler makes on the `http.ResponseWriter` it was given: a
change `f` of the map returned by `Header()`, a `Write` or a `WriteHeader`. -/
inductive Call where
  | header (f : Header → Header)
  | write (b : Bytes)
  | writeHeader (code : Int)

/-- The effect of one call on a `responseRecorder`. -/
def responseRecorder.call (r : responseRecorder) : Call → responseRecorder
  | .header f => { r with header := f r.header }
  | .write b => r.Write b
  | .writeHeader c => r.WriteHeader c

/-- The calls a handler program makes, in order, when it runs against the
recorder `r`. -/
def Prog.calls : Prog → responseRecorder → List Call
  | .done, _ => []
  | .header f k, r => .header f :: k.calls { r with header := f r.header }
  | .getHeader k, r => (k r.header).calls r
  | .write b k, r => .write b :: k.calls (r.Write b)
  | .writeHeader c k, r => .writeHeader c :: k.calls (r.WriteHeader c)

/-- The argument of a `WriteHeader` call. -/
def Call.status : Call → Option Int
  | .writeHeader c => some c
  | _ => none

/-- The bytes passed by a `Write` call (empty for the other calls). -/
def Call.chunk : Call → Bytes
  | .write b => b
  | _ => []

/-- The change a call makes to the header map (none for `Write` and
`WriteHeader`). -/
def Call.onHeader : Call → Header → Header
  | .header f => f
  | _ => id

/-! ## `discovery.go`: the handler -/

/-- `DiscoveryResponse` of `hac.go`. -/
structure DiscoveryResponse where
  HAC : Option DiscoveryMeta
  deriving DecidableEq, Repr

/-- Go `http.NotFound(w, r)`. -/
def NotFound : Prog := httpError (B "404 page not found") 404

/-- `Discovery.Handler(fallback)`: a nil `fallback` is `none`; `Marshal` is
`json.Marshal` on a `DiscoveryResponse` (`some out` when its error is nil). -/
def Discovery.Handler (Marshal : DiscoveryResponse → Option Bytes) (d : Discovery)
    (fallback : Option Handler) : Handler := fun r =>
  let accept := Header.Get r.Header (B "Accept")
  if !wantsHAC accept then
    match fallback with
    | some f => f r
    | none => NotFound
  else
    let resp : DiscoveryResponse := { HAC := d.Meta }
    match Marshal resp with
    | none => httpError (B "Internal Server Error") 500
    | some out =>
      .header (fun h => Header.Set h (B "Content-Type") MediaType)
        (.header (fun h => Header.Set h (B "Vary") (B "Accept"))
          (.write out .done))

/-! ## Comparison of `float64` values -/

/-- `m₁ * 2^e₁ ≤ m₂ * 2^e₂`, compared after scaling both by the smaller
exponent. -/
def magLe (m₁ : Nat) (e₁ : Int) (m₂ : Nat) (e₂ : Int) : Bool :=
  decide (m₁ * 2 ^ (e₁ - min e₁ e₂).toNat ≤ m₂ * 2 ^ (e₂ - min e₁ e₂).toNat)

/-- Go `a >= b` on `float64`: false when either is NaN; the two zeros are
equal. -/
def Float64.ge : Float64 → Float64 → Bool
  | .nan, _ => false
  | _, .nan => false
  | .inf false, _ => true
  | _, .inf true => true
  | .inf true, _ => false
  | _, .inf false => false
  | .fin false m₁ e₁, .fin false m₂ e₂ => magLe m₂ e₂ m₁ e₁
  | .fin false _ _, .fin true _ _ => true
  | .fin true m₁ _, .fin false m₂ _ => m₁ == 0 && m₂ == 0
  | .fin true m₁ e₁, .fin true m₂ e₂ => magLe m₁ e₁ m₂ e₂

/-- Descending order of quality: each range has a quality `>=` that of the
next one. -/
def descendingQuality : List mediaRange → Bool
  | a :: b :: rest => a.quality.ge b.quality && descendingQuality (b :: rest)
  | _ => true

/-! ## `media.go` with the run-time checks of indexing and slicing

In the definitions of this section `none` stands for the run-time panic of an
index or a slice expression that is out of range. -/

/-- Go `s[lo:]`. -/
def sliceFrom {α : Type} (s : List α) (lo : Int) : Option (List α) :=
  if 0 ≤ lo ∧ lo ≤ s.length then some (s.drop lo.toNat) else none

/-- Go `s[:hi]`. -/
def sliceTo {α : Type} (s : List α) (hi : Int) : Option (List α) :=
  if 0 ≤ hi ∧ hi ≤ s.length then some (s.take hi.toNat) else none

/-- Go `s[i]`. -/
def index {α : Type} (s : List α) (i : Nat) : Option α := s.get? i

/-- One iteration of the parameter loop of `parseMediaRange`, with the check
of `param[2:]`. -/
def checkedApplyParam (mr : mediaRange) (param : Bytes) : Option mediaRange :=
  let param := TrimSpace param
  if HasPrefix param (B "q=") || HasPrefix param (B "Q=") then
    match sliceFrom param 2 with
    | none => none
    | some v =>
      match ParseFloat v with
      | some q => some { mr with quality := q }
      | none => some mr
  else some mr

/-- The parameter loop of `parseMediaRange`. -/
def checkedParams : mediaRange → List Bytes → Option mediaRange
  | mr, [] => some mr
  | mr, param :: rest =>
    match checkedApplyParam mr param with
    | none => none
    | some mr => checkedParams mr rest

/-- `parseMediaRange` with the checks of `params[0]`, `mediaType[:slash]`,
`mediaType[slash+1:]` and `params[1:]`. -/
def checkedParseMediaRange (s : Bytes) : Option mediaRange :=
  let params := splitByte 0x3B s
  match index params 0 with
  | none => none
  | some first =>
    let mediaType := TrimSpace first
    let slash := IndexByte 0x2F mediaType
    if slash < 0 then some mediaRange.empty
    else
      match sliceTo mediaType slash, sliceFrom mediaType (slash + 1) with
      | some t, some st =>
        let typ := TrimSpace t
        let subtype := TrimSpace st
        if typ = [] ∨ subtype = [] then some mediaRange.empty
        else
          match sliceFrom params 1 with
          | none => none
          | some rest => checkedParams { typ := typ, subtype := subtype, quality := Float64.one } rest
      | _, _ => none

/-- The loop of `parseAccept`. -/
def checkedRanges : List Bytes → Option (List mediaRange)
  | [] => some []
  | part :: parts =>
    match checkedParseMediaRange (TrimSpace part) with
    | none => none
    | some mr =>
      match checkedRanges parts with
      | none => none
      | some ranges => some (if mr.typ ≠ [] then mr :: ranges else ranges)

/-- `parseAccept` over the checked `parseMediaRange`. -/
def checkedParseAccept (header : Bytes) : Option (List mediaRange) :=
  if header = [] then some [] else checkedRanges (splitByte 0x2C header)

/-- `wantsHAC` over the checked `parseAccept`. -/
def checkedWantsHAC (accept : Bytes) : Option Bool :=
  match checkedParseAccept accept with
  | none => none
  | some ranges => some (ranges.any (fun mr => matchesHAC mr && mr.quality.gtZero))

/-- `hacIsOnlyAcceptable` over the checked `parseAccept`. -/
def checkedHacIsOnlyAcceptable (accept : Bytes) : Option Bool :=
  match checkedParseAccept accept with
  | none => none
  | some ranges => some (if ranges.length = 0 then false else hacOnlyLoop ranges false)

/-- The parameter is read as a quality: trimmed, it starts with `q=` or `Q=`
(the test of the parameter loop of `parseMediaRange`). -/
def isQParam (param : Bytes) : Bool :=
  HasPrefix (TrimSpace param) (B "q=") || HasPrefix (TrimSpace param) (B "Q=")

/-- The text of the value of a quality parameter, `param[2:]`. -/
def qValue (param : Bytes) : Bytes := (TrimSpace param).drop 2

/-- The quality a parameter sets: the value of a q parameter when
`strconv.ParseFloat` accepts it (its error is nil), nothing otherwise. -/
def acceptedQuality (param : Bytes) : Option Float64 :=
  if isQParam param then ParseFloat (qValue param) else none

/-! ## `encoding/json`: the values `json.Marshal` writes

`json.Marshal` is modelled by the JSON value whose text it writes: a struct is
an object with one member for each field, named by the field's tag, in the
order of declaration; a field whose tag has `omitempty` is left out when its
value is empty (false, 0, a nil pointer or interface, an empty string or
slice).  `none` stands for an error of `json.Marshal`. -/

/-- The string `json.Marshal` writes for a Go string: every byte that is not
part of a valid UTF-8 encoding is replaced by U+FFFD.  `skip` counts the bytes
still to copy of the encoding being read. -/
def coerceUTF8 : Nat → Bytes → Bytes
  | _, [] => []
  | skip + 1, c :: cs => c :: coerceUTF8 skip cs
  | 0, c :: cs =>
    if (DecodeRune (c :: cs)).1 = RuneError ∧ (DecodeRune (c :: cs)).2 = 1 then
      [0xEF, 0xBF, 0xBD] ++ coerceUTF8 0 cs
    else c :: coerceUTF8 ((DecodeRune (c :: cs)).2 - 1) cs

/-- The JSON value of a Go string. -/
def marshalString (s : Bytes) : JSON := .str (coerceUTF8 0 s)

/-- The JSON value of a `float64`: NaN and the infinities are an error. -/
def marshalFloat : Float64 → Option JSON
  | .fin _ _ _ => some .num
  | _ => none

/-- All the values of a list, unless one of them is an error. -/
def allSome {α : Type} : List (Option α) → Option (List α)
  | [] => some []
  | none :: _ => none
  | some a :: xs => (allSome xs).map (fun as => a :: as)

/-- One field of a struct as `json.Marshal` treats it: the key of its tag,
whether it is left out (`omitempty` and an empty value), and its JSON value. -/
structure jsonField where
  name : Bytes
  omitted : Bool := false
  value : Option JSON

/-- The members of the object written for a struct. -/
def marshalFields : List jsonField → Option (List (Bytes × JSON))
  | [] => some []
  | f :: fs =>
    if f.omitted then marshalFields fs
    else
      match f.value with
      | none => none
      | some v => (marshalFields fs).map (fun kvs => (f.name, v) :: kvs)

/-- The object written for a struct. -/
def marshalStruct (fields : List jsonField) : Option JSON :=
  (marshalFields fields).map JSON.obj

mutual
/-- The JSON value of a Go value of type `any`; the keys of a map are written
in ascending order. -/
def marshalAny : GoAny → Option JSON
  | .null => some .null
  | .bool b => some (.bool b)
  | .int _ => some .num
  | .float f => marshalFloat f
  | .str s => some (marshalString s)
  | .list xs => (marshalAnyList xs).map JSON.arr
  | .object kvs =>
    (marshalAnyMembers kvs).map (fun ms =>
      JSON.obj (ms.insertionSort (fun a b => leBytes a.1 b.1)))
  | .unsupported => none
/-- The JSON values of the elements of a `[]any`. -/
def marshalAnyList : List GoAny → Option (List JSON)
  | [] => some []
  | x :: xs =>
    match marshalAny x with
    | none => none
    | some v => (marshalAnyList xs).map (fun vs => v :: vs)
/-- The members of a `map[string]any`. -/
def marshalAnyMembers : List (Bytes × GoAny) → Option (List (Bytes × JSON))
  | [] => some []
  | (k, x) :: kvs =>
    match marshalAny x with
    | none => none
    | some v => (marshalAnyMembers kvs).map (fun ms => (coerceUTF8 0 k, v) :: ms)
end

/-- The JSON value of a `[]string`. -/
def marshalStrings (xs : List Bytes) : Option JSON := some (.arr (xs.map marshalString))

/-- `Cost` of `hac.go`. -/
def marshalCost (c : Cost) : Option JSON :=
  marshalStruct
    [{ name := B "amount", value := marshalFloat c.Amount },
     { name := B "currency", value := some (marshalString c.Currency) },
     { name := B "description", omitted := c.Description = [],
       value := some (marshalString c.Description) }]

/-- `Safety` of `hac.go`. -/
def marshalSafety (s : Safety) : Option JSON :=
  marshalStruct
    [{ name := B "mutability", omitted := s.Mutability = [],
       value := some (marshalString s.Mutability) },
     { name := B "blast_radius", omitted := s.BlastRadius = [],
       value := some (marshalString s.BlastRadius) },
     { name := B "reversible_within", omitted := s.ReversibleWithin = [],
       value := some (marshalString s.ReversibleWithin) },
     { name := B "confirmation_recommended", omitted := !s.ConfirmationRecommended,
       value := some (.bool s.ConfirmationRecommended) },
     { name := B "cost", omitted := s.Cost.isNone, value := s.Cost.bind marshalCost }]

/-- `Field` of `hac.go`; a nil `Default` is `GoAny.null`. -/
def marshalField (f : Field) : Option JSON :=
  marshalStruct
    [{ name := B "name", value := some (marshalString f.Name) },
     { name := B "type", value := some (marshalString f.Type_) },
     { name := B "description", omitted := f.Description = [],
       value := some (marshalString f.Description) },
     { name := B "required", omitted := !f.Required, value := some (.bool f.Required) },
     { name := B "enum", omitted := f.Enum.isEmpty, value := (marshalAnyList f.Enum).map JSON.arr },
     { name := B "default",
       omitted := (match f.Default with
         | .null => true
         | _ => false),
       value := marshalAny f.Default }]

/-- `Action` of `hac.go`. -/
def marshalAction (a : Action) : Option JSON :=
  marshalStruct
    [{ name := B "rel", value := some (marshalString a.Rel) },
     { name := B "method", value := some (marshalString a.Method) },
     { name := B "href", value := some (marshalString a.Href) },
     { name := B "description", omitted := a.Description = [],
       value := some (marshalString a.Description) },
     { name := B "safety", omitted := a.Safety.isNone, value := a.Safety.bind marshalSafety },
     { name := B "fields", omitted := a.Fields.isEmpty,
       value := (allSome (a.Fields.map marshalField)).map JSON.arr },
     { name := B "preconditions", omitted := a.Preconditions.isEmpty,
       value := marshalStrings a.Preconditions }]

/-- `RelatedResource` of `hac.go`. -/
def marshalRelatedResource (r : RelatedResource) : Option JSON :=
  marshalStruct
    [{ name := B "rel", value := some (marshalString r.Rel) },
     { name := B "href", value := some (marshalString r.Href) },
     { name := B "description", omitted := r.Description = [],
       value := some (marshalString r.Description) }]

/-- `HACMeta` of `hac.go`. -/
def marshalHACMeta (m : HACMeta) : Option JSON :=
  marshalStruct
    [{ name := B "version", value := some (marshalString m.Version) },
     { name := B "description", omitted := m.Description = [],
       value := some (marshalString m.Description) },
     { name := B "actions", omitted := m.Actions.isEmpty,
       value := (allSome (m.Actions.map marshalAction)).map JSON.arr },
     { name := B "related", omitted := m.Related.isEmpty,
       value := (allSome (m.Related.map marshalRelatedResource)).map JSON.arr }]

/-- A `json.RawMessage`: the value of its text, an error when the text is not
valid JSON; `null` for the nil message, which the empty list stands for. -/
def marshalRawMessage (m : Bytes) : Option JSON :=
  if m = [] then some .null else jsonParse m

/-- A pointer: `null` when it is nil. -/
def marshalPointer {α : Type} (f : α → Option JSON) : Option α → Option JSON
  | none => some .null
  | some a => f a

/-- `SuccessEnvelope` of `hac.go`. -/
def marshalSuccessEnvelope (e : SuccessEnvelope) : Option JSON :=
  marshalStruct
    [{ name := B "data", value := marshalRawMessage e.Data },
     { name := B "_hac", value := marshalPointer marshalHACMeta e.HAC }]

/-- The keys of a JSON object, in order (none for another value). -/
def JSON.keys : JSON → List Bytes
  | .obj kvs => kvs.map Prod.fst
  | _ => []

/-! ## A builder and the registry it belongs to

`RouteBuilder` holds a pointer to its registry; the pair of the builder's
fields and the registry is the state that the builder's methods act on.  No
function of the package writes to the elements of a slice, so the slices
`actions` and `related` are lists. -/

/-- A call of one of the setters of a builder. -/
inductive BuilderCall where
  | Description (desc : Bytes)
  | Actions (actions : List Action)
  | Related (related : List RelatedResource)

/-- The builder after a call of a setter. -/
def RouteBuilder.call (b : RouteBuilder) : BuilderCall → RouteBuilder
  | .Description desc => b.Description desc
  | .Actions actions => b.Actions actions
  | .Related related => b.Related related

/-- A builder and the registry `b.registry` points to. -/
structure BuilderState where
  builder : RouteBuilder
  registry : Registry

/-- A setter assigns to a field of the builder and to nothing else. -/
def BuilderState.call (s : BuilderState) (c : BuilderCall) : BuilderState :=
  { s with builder := s.builder.call c }

/-- `b.Register()`: the configuration built from the builder's fields is
stored in the registry. -/
def BuilderState.Register (s : BuilderState) : BuilderState :=
  { s with registry := s.builder.Register s.registry }

/-! ## Sample inputs (those of the package's tests) -/

/-- A runtime whose `Marshal` always yields `out` and whose `range` follows
the order of the association list. -/
def constRuntime (out : Bytes) : GoRuntime :=
  { Marshal := fun _ => some out
    rangeHeader := fun h => h
    rangeHeader_perm := fun h => List.Perm.refl h }

/-- A GET request for `path` with the given `Accept` header. -/
def getRequest (path accept : Bytes) : Request :=
  { Method := B "GET", Path := path, Pattern := [], Header := [(B "Accept", [accept])] }

/-- The handler of `TestMiddleware406WhenHACOnly`: `w.Write([]byte("ok"))`. -/
def okHandler : Handler := fun _ => .write (B "ok") .done

/-- The handler of `TestMiddlewarePassthrough`. -/
def jsonHandler : Handler := fun _ =>
  .header (fun h => Header.Set h (B "Content-Type") (B "application/json"))
    (.write (B "\x7b\"id\":1\x7d") .done)

/-- A handler answering `201 Created` with a JSON body and a custom header. -/
def createdHandler : Handler := fun _ =>
  .header (fun h => Header.Set h (B "X-Custom") (B "value"))
    (.writeHeader 201 (.write (B "\x7b\"id\":1\x7d") .done))

/-- The registry of `TestMiddlewarePreservesOriginalHeaders`. -/
def testRegistry : Registry :=
  ((Registry.Route (B "GET") (B "/test")).Description (B "Test.")).Register NewRegistry

/-- The request of `TestMiddlewarePreservesOriginalHeaders`:
`GET /test` with `Accept: application/vnd.hac+json`. -/
def hacRequest : Request := getRequest (B "/test") (B "application/vnd.hac+json")

/-- The options of `TestMiddlewarePreservesOriginalHeaders`. -/
def testOptions : Options := { Registry := some testRegistry }

/-- A runtime that serialises every envelope to the bytes `json.Marshal`
yields for the success envelope of `createdHandler` under `testRegistry`. -/
def testRuntime : GoRuntime :=
  constRuntime (B "\x7b\"data\":\x7b\"id\":1\x7d,\"_hac\":\x7b\"version\":\"1.0\",\"description\":\"Test.\"\x7d\x7d")

/-- A handler that sets `Content-Type` and `X-Custom` and writes `{}` (the
handlers of `TestMiddlewareHACEnvelope` and
`TestMiddlewarePreservesOriginalHeaders` combined). -/
def customHandler : Handler := fun _ =>
  .header (fun h => Header.Set h (B "Content-Type") (B "application/json"))
    (.header (fun h => Header.Set h (B "X-Custom") (B "value"))
      (.write (B "\x7b\x7d") .done))

/-- The registry of `TestAutoDiscovery`. -/
def usersRegistry : Registry :=
  registerAll
    [(Registry.Get (B "/users")).Description (B "List users."),
     (Registry.Post (B "/users")).Description (B "Create user."),
     (Registry.Get (B "/users/\x7bid\x7d")).Description (B "Get user."),
     (Registry.Delete (B "/users/\x7bid\x7d")).Description (B "Delete user."),
     (Registry.Get (B "/orders")).Description (B "List orders.")]
    NewRegistry

/-- The registry of `TestAutoDiscoveryWithStdlibPatterns`. -/
def itemsRegistry : Registry :=
  registerAll
    [(Registry.Route (B "GET") (B "GET /items")).Description (B "List items."),
     (Registry.Route (B "POST") (B "POST /items")).Description (B "Create item.")]
    NewRegistry

/-- A registry in which `GET` is registered for `/items` in both styles, as
`/items` and as the stdlib pattern `GET /items`. -/
def mixedRegistry : Registry :=
  registerAll [Registry.Get (B "/items"), Registry.Route (B "GET") (B "GET /items")] NewRegistry

/-- A registry with the single route `GET` of the pattern `/a /b`, which has
no method in front and holds a space followed by a slash. -/
def spacedRegistry : Registry := (Registry.Get (B "/a /b")).Register NewRegistry

/-- The entry of `/items` that `TestAutoDiscoveryWithStdlibPatterns` expects,
with the description of the `GET` route. -/
def itemsEntry : ResourceEntry :=
  { Rel := B "items", Href := B "/items", Description := B "List items.",
    Methods := [B "GET", B "POST"] }

/-- The registry of `TestRegistryRoutes`. -/
def routesRegistry : Registry :=
  registerAll
    [(Registry.Get (B "/users")).Description (B "Users list."),
     (Registry.Post (B "/users")).Description (B "Create user."),
     (Registry.Delete (B "/users/\x7bid\x7d")).Description (B "Delete user.")]
    NewRegistry

/-- A handler like that of `TestMiddlewareIsHACRequested`, which reads
`IsHACRequested(r)`; it writes what it read, `true` or `false`. -/
def flagHandler : Handler := fun r =>
  .write (if IsHACRequested r then B "true" else B "false") .done

/-- The `delete` action of the Quick Start of `doc.go`. -/
def quickStartAction : Action :=
  { Rel := B "delete", Method := B "DELETE", Href := B "/users/\x7bid\x7d",
    Description := B "Permanently delete this user.",
    Safety := some
      { Mutability := B "irreversible", BlastRadius := B "self_and_associated",
        ReversibleWithin := [], ConfirmationRecommended := true, Cost := none },
    Fields := [], Preconditions := [] }

/-- The registry of the Quick Start of `doc.go`:
`reg.Get("/users/\x7bid\x7d").Description(..).Actions(..).Register()`. -/
def quickStartRegistry : Registry :=
  (((Registry.Get (B "/users/\x7bid\x7d")).Description (B "A user account.")).Actions
    [quickStartAction]).Register NewRegistry

/-- The options of the Quick Start of `doc.go`. -/
def quickStartOptions : Options :=
  { Registry := some quickStartRegistry, PathResolver := some StdlibPathResolver }

/-- A request `GET /users/1` that accepts `application/vnd.hac+json` and that
the mux matched against the pattern `pattern` (empty before any match). -/
def userRequest (pattern : Bytes) : Request :=
  { Method := B "GET", Path := B "/users/1", Pattern := pattern,
    Header := [(B "Accept", [B "application/vnd.hac+json"])] }

/-- The registry of `TestMiddlewareWithStdlibPathResolver`, which registers
under the whole mux pattern. -/
def stdlibRegistry : Registry :=
  (((Registry.Route (B "GET") (B "GET /users/\x7bid\x7d")).Description (B "A user.")).Actions
    [{ Rel := B "self", Method := B "GET", Href := B "/users/\x7bid\x7d", Description := [],
       Safety := none, Fields := [], Preconditions := [] }]).Register NewRegistry

/-- The options of `TestMiddlewareWithStdlibPathResolver`, with
`StdlibPathResolver` itself as the resolver. -/
def stdlibOptions : Options :=
  { Registry := some stdlibRegistry, PathResolver := some StdlibPathResolver }

/-- The handler of `TestMiddlewareErrorEnvelope`. -/
def notFoundHandler : Handler := fun _ =>
  .header (fun h => Header.Set h (B "Content-Type") (B "application/json"))
    (.writeHeader 404
      (.write (B "\x7b\"code\":\"not_found\",\"message\":\"User not found\"\x7d") .done))

/-- The discovery document of `TestDiscoveryHandler`. -/
def testDiscovery : Discovery :=
  { Meta := some
      { Name := B "Test API", Version := B "1.0", Description := B "A test API.",
        Resources :=
          [{ Rel := B "users", Href := B "/users", Description := [],
             Methods := [B "GET", B "POST"] }] } }

/-- The fallback handler of `TestDiscoveryHandler`. -/
def statusHandler : Handler := fun _ => .write (B "\x7b\"status\":\"ok\"\x7d") .done

/-- A `json.Marshal` for discovery documents that yields the text Go writes
for `testDiscovery` on every input. -/
def testMarshal : DiscoveryResponse → Option Bytes := fun _ =>
  some (B "\x7b\"_hac\":\x7b\"name\":\"Test API\",\"version\":\"1.0\",\"description\":\"A test API.\",\"resources\":[\x7b\"rel\":\"users\",\"href\":\"/users\",\"methods\":[\"GET\",\"POST\"]\x7d]\x7d\x7d")

/-- The envelope of `TestSuccessEnvelopeMarshal`. -/
def aliceEnvelope : SuccessEnvelope :=
  { Data := B "\x7b\"id\":1,\"name\":\"Alice\"\x7d",
    HAC := some
      { Version := B "1.0", Description := B "A user account.",
        Actions :=
          [{ Rel := B "delete", Method := B "DELETE", Href := B "/users/1", Description := [],
             Safety := none, Fields := [], Preconditions := [] }],
        Related := [] } }

/-- The text `json.Marshal` writes for `aliceEnvelope`. -/
def aliceText : Bytes :=
  B "\x7b\"data\":\x7b\"id\":1,\"name\":\"Alice\"\x7d,\"_hac\":\x7b\"version\":\"1.0\",\"description\":\"A user account.\",\"actions\":[\x7b\"rel\":\"delete\",\"method\":\"DELETE\",\"href\":\"/users/1\"\x7d]\x7d\x7d"

/-! ## Theorems -/

/-! ### Fuel: the bounded recursions have fuel enough -/

/-- `utf8.DecodeRune` takes at least one byte of a non-empty input. -/
theorem DecodeRune_size_pos (c : UInt8) (cs : Bytes) : 1 ≤ (DecodeRune (c :: cs)).2 := by
  unfold DecodeRune
  repeat' split
  all_goals first
    | (simp; done)
    | (dsimp only; split <;> simp)
    | (rename_i heq; cases heq)

/-- The result of `trimLeftSpace` is the same for every fuel that is at least the
length of the input. -/
theorem trimLeftSpace_fuel (f1 f2 : Nat) (s : Bytes) (h1 : s.length ≤ f1) (h2 : s.length ≤ f2) :
    trimLeftSpace f1 s = trimLeftSpace f2 s := by
  induction f1 generalizing f2 s with
  | zero =>
    have : s = [] := List.length_eq_zero.mp (Nat.le_zero.mp h1)
    subst this
    cases f2 <;> rfl
  | succ f1 ih =>
    cases s with
    | nil => cases f2 <;> rfl
    | cons c cs =>
      cases f2 with
      | zero => simp at h2
      | succ f2 =>
        have hp := DecodeRune_size_pos c cs
        simp only [List.length_cons] at h1 h2
        have l1 : ((c :: cs).drop (DecodeRune (c :: cs)).2).length ≤ cs.length := by
          simp only [List.length_drop, List.length_cons]
          omega
        simp only [trimLeftSpace]
        split
        · exact ih _ _ (by omega) (by omega)
        · rfl

/-- `utf8.DecodeLastRune` takes at least one byte of a non-empty input. -/
theorem DecodeLastRune_size_pos (c : UInt8) (cs : Bytes) :
    1 ≤ (DecodeLastRune (c :: cs)).2 := by
  unfold DecodeLastRune
  cases hr : (c :: cs).reverse with
  | nil => simp at hr
  | cons l before =>
    simp only
    by_cases hl : l < 0x80
    · simp [hl]
    · simp only [hl, if_false]
      cases hk : lastRuneStart before with
      | none => simp
      | some k =>
        simp only
        split
        · rename_i hz
          rw [hz]
          omega
        · simp

/-- The result of `trimRightSpace` is the same for every fuel that is at least
the length of the input. -/
theorem trimRightSpace_fuel (f1 f2 : Nat) (s : Bytes) (h1 : s.length ≤ f1)
    (h2 : s.length ≤ f2) : trimRightSpace f1 s = trimRightSpace f2 s := by
  induction f1 generalizing f2 s with
  | zero =>
    have : s = [] := List.length_eq_zero.mp (Nat.le_zero.mp h1)
    subst this
    cases f2 <;> rfl
  | succ f1 ih =>
    cases s with
    | nil => cases f2 <;> rfl
    | cons c cs =>
      cases f2 with
      | zero => simp at h2
      | succ f2 =>
        have hp := DecodeLastRune_size_pos c cs
        simp only [List.length_cons] at h1 h2
        have l1 : ((c :: cs).take ((c :: cs).length - (DecodeLastRune (c :: cs)).2)).length
            ≤ cs.length := by
          simp only [List.length_take, List.length_cons]
          omega
        simp only [trimRightSpace]
        split
        · exact ih _ _ (by omega) (by omega)
        · rfl

/-- The fuel of `TrimSpace` is enough: with any larger fuel the result is the
same, so `TrimSpace` removes all leading and all trailing white space. -/
theorem TrimSpace_fuel (f1 f2 : Nat) (s : Bytes) (h1 : s.length ≤ f1)
    (h2 : (trimLeftSpace f1 s).length ≤ f2) :
    trimRightSpace f2 (trimLeftSpace f1 s) = TrimSpace s := by
  unfold TrimSpace
  have e := trimLeftSpace_fuel f1 s.length s h1 (Nat.le_refl _)
  rw [e] at h2 ⊢
  exact trimRightSpace_fuel _ _ _ h2 (Nat.le_refl _)



/-- Skipping white space does not lengthen the input. -/
theorem skipSpace_length_le (s : Bytes) : (skipSpace s).length ≤ s.length := by
  induction s with
  | nil => simp [skipSpace]
  | cons c cs ih =>
    unfold skipSpace
    split
    · exact Nat.le_succ_of_le ih
    · exact Nat.le_refl _

/-- The rest after a run of digits is not longer than the input. -/
theorem takeDigits_length_le (s : Bytes) : (takeDigits s).2.length ≤ s.length := by
  induction s with
  | nil => simp [takeDigits]
  | cons c cs ih =>
    unfold takeDigits
    split
    · exact Nat.le_succ_of_le ih
    · exact Nat.le_refl _

/-- Dropping a sign does not lengthen the input. -/
theorem dropSign_length_le (s : Bytes) : (dropSign s).length ≤ s.length := by
  cases s with
  | nil => simp [dropSign]
  | cons x xs =>
    simp only [dropSign]
    split <;> simp

/-- The rest after an exponent part is not longer than the input. -/
theorem parseNumberExp_length_le (s r : Bytes) (h : parseNumberExp s = some r) :
    r.length ≤ s.length := by
  cases s with
  | nil =>
    simp only [parseNumberExp] at h
    cases h
    exact Nat.le_refl _
  | cons c t =>
    simp only [parseNumberExp] at h
    split at h
    · split at h
      · cases h
      · cases h
        have h1 := takeDigits_length_le (dropSign t)
        have h2 := dropSign_length_le t
        simp only [List.length_cons]
        omega
    · cases h
      exact Nat.le_refl _

/-- The rest after a fraction part is not longer than the input. -/
theorem parseNumberFrac_length_le (s r : Bytes) (h : parseNumberFrac s = some r) :
    r.length ≤ s.length := by
  cases s with
  | nil =>
    simp only [parseNumberFrac] at h
    cases h
    exact Nat.le_refl _
  | cons c t =>
    simp only [parseNumberFrac] at h
    split at h
    · split at h
      · cases h
      · have h1 := parseNumberExp_length_le _ _ h
        have h2 := takeDigits_length_le t
        simp only [List.length_cons]
        omega
    · exact parseNumberExp_length_le _ _ h

/-- A number without its sign takes at least one byte. -/
theorem parseNumberInt_length_lt (s r : Bytes) (h : parseNumberInt s = some r) :
    r.length < s.length := by
  cases s with
  | nil => simp [parseNumberInt] at h
  | cons c t =>
    simp only [parseNumberInt] at h
    split at h
    · have h1 := parseNumberFrac_length_le _ _ h
      simp only [List.length_cons]
      omega
    · split at h
      · have h1 := parseNumberFrac_length_le _ _ h
        have h2 := takeDigits_length_le t
        simp only [List.length_cons]
        omega
      · cases h

/-- A number takes at least one byte. -/
theorem parseNumber_length_lt (s r : Bytes) (h : parseNumber s = some r) :
    r.length < s.length := by
  cases s with
  | nil => simp [parseNumber] at h
  | cons c t =>
    simp only [parseNumber] at h
    split at h
    · have h1 := parseNumberInt_length_lt _ _ h
      simp only [List.length_cons]
      omega
    · exact parseNumberInt_length_lt _ _ h

/-- A `\u` escape takes at least one byte. -/
theorem unicodeEscape_size (s : Bytes) (r n : Nat) (h : unicodeEscape s = some (r, n)) :
    1 ≤ n := by
  unfold unicodeEscape at h
  split at h
  · cases h
  · split at h
    · split at h
      · split at h <;> cases h <;> omega
      · cases h; omega
    · cases h; omega

/-- A string takes at least one byte (its closing quote). -/
theorem parseString_rest_lt (f : Nat) (s acc o r : Bytes)
    (h : parseString f s acc = some (o, r)) : r.length < s.length := by
  induction f generalizing s acc with
  | zero => simp [parseString] at h
  | succ f ih =>
    cases s with
    | nil => simp [parseString] at h
    | cons c cs =>
      simp only [parseString] at h
      split at h
      · cases h
        simp
      · split at h
        · cases h
        · split at h
          · split at h
            · cases h
            · split at h
              · have := ih _ _ h
                simp only [List.length_cons] at this ⊢
                omega
              · split at h
                · split at h
                  · rename_i r0 n hu
                    have h1 := ih _ _ h
                    have h2 := unicodeEscape_size _ _ _ hu
                    simp only [List.length_drop, List.length_cons] at h1 ⊢
                    omega
                  · cases h
                · cases h
          · split at h
            · have := ih _ _ h
              simp only [List.length_cons] at this ⊢
              omega
            · have h1 := ih _ _ h
              simp only [List.length_drop, List.length_cons] at h1 ⊢
              omega

/-- The result of `parseString` is the same for every fuel that is at least the
length of the input. -/
theorem parseString_fuel (f1 f2 : Nat) (s acc : Bytes) (h1 : s.length ≤ f1)
    (h2 : s.length ≤ f2) : parseString f1 s acc = parseString f2 s acc := by
  induction f1 generalizing f2 s acc with
  | zero =>
    have : s = [] := List.length_eq_zero.mp (Nat.le_zero.mp h1)
    subst this
    cases f2 <;> simp [parseString]
  | succ f1 ih =>
    cases s with
    | nil => cases f2 <;> simp [parseString]
    | cons c cs =>
      cases f2 with
      | zero => simp at h2
      | succ f2 =>
        simp only [List.length_cons] at h1 h2
        simp only [parseString]
        split
        · rfl
        · split
          · rfl
          · split
            · split
              · rfl
              · split
                · exact ih _ _ _ (by simp only [List.length_cons] at *; omega)
                    (by simp only [List.length_cons] at *; omega)
                · split
                  · split
                    · rename_i r0 n hu
                      have h3 := unicodeEscape_size _ _ _ hu
                      exact ih _ _ _
                        (by simp only [List.length_drop, List.length_cons] at *; omega)
                        (by simp only [List.length_drop, List.length_cons] at *; omega)
                    · rfl
                  · rfl
            · split
              · exact ih _ _ _ (by omega) (by omega)
              · have h3 := DecodeRune_size_pos c cs
                exact ih _ _ _
                  (by simp only [List.length_drop, List.length_cons]; omega)
                  (by simp only [List.length_drop, List.length_cons]; omega)

/-- A JSON value, the elements of an array and the members of an object each
take at least one byte. -/
theorem parse_rest_lt (f : Nat) :
    (∀ d s v r, parseValue f d s = some (v, r) → r.length < s.length) ∧
      (∀ d s acc v r, parseElems f d s acc = some (v, r) → r.length < s.length) ∧
      (∀ d s acc v r, parseMembers f d s acc = some (v, r) → r.length < s.length) := by
  induction f with
  | zero =>
    refine ⟨?_, ?_, ?_⟩
    · intro d s v r h; simp [parseValue] at h
    · intro d s acc v r h; simp [parseElems] at h
    · intro d s acc v r h; simp [parseMembers] at h
  | succ f ih =>
    obtain ⟨ihV, ihE, ihM⟩ := ih
    refine ⟨?_, ?_, ?_⟩
    · intro d s v r h
      simp only [parseValue] at h
      split at h
      · cases h
      · rename_i c r' heq
        have hs := skipSpace_length_le s
        rw [heq] at hs
        have hr := skipSpace_length_le r'
        simp only [List.length_cons] at hs
        split at h
        · split at h
          · cases h
          · split at h
            · cases h
            · rename_i x xs heq2
              rw [heq2] at hr
              simp only [List.length_cons] at hr
              split at h
              · cases h; omega
              · have := ihM _ _ _ _ _ h
                simp only [List.length_cons] at this
                omega
        · split at h
          · split at h
            · cases h
            · split at h
              · cases h
              · rename_i x xs heq2
                rw [heq2] at hr
                simp only [List.length_cons] at hr
                split at h
                · cases h; omega
                · have := ihE _ _ _ _ _ h
                  simp only [List.length_cons] at this
                  omega
          · split at h
            · split at h
              · rename_i str rest heq3
                have := parseString_rest_lt _ _ _ _ _ heq3
                cases h
                omega
              · cases h
            · split at h
              · split at h
                · rename_i rest heq3
                  have := parseNumber_length_lt _ _ heq3
                  simp only [List.length_cons] at this
                  cases h
                  omega
                · cases h
              · split at h
                · cases h
                  simp only [List.length_drop]
                  omega
                · split at h
                  · cases h
                    simp only [List.length_drop]
                    omega
                  · split at h
                    · cases h
                      simp only [List.length_drop]
                      omega
                    · cases h
    · intro d s acc v r h
      simp only [parseElems] at h
      split at h
      · cases h
      · rename_i v1 r1 heq
        have h1 := ihV _ _ _ _ heq
        have hr := skipSpace_length_le r1
        split at h
        · cases h
        · rename_i x xs heq2
          rw [heq2] at hr
          simp only [List.length_cons] at hr
          split at h
          · have := ihE _ _ _ _ _ h
            omega
          · split at h
            · cases h; omega
            · cases h
    · intro d s acc v r h
      simp only [parseMembers] at h
      split at h
      · cases h
      · rename_i q r0 heq
        have hs := skipSpace_length_le s
        rw [heq] at hs
        simp only [List.length_cons] at hs
        split at h
        · split at h
          · cases h
          · rename_i key r1 heq1
            have h1 := parseString_rest_lt _ _ _ _ _ heq1
            have hr1 := skipSpace_length_le r1
            split at h
            · cases h
            · rename_i colon r2 heq2
              rw [heq2] at hr1
              simp only [List.length_cons] at hr1
              split at h
              · split at h
                · cases h
                · rename_i v3 r3 heq3
                  have h3 := ihV _ _ _ _ heq3
                  have hr3 := skipSpace_length_le r3
                  split at h
                  · cases h
                  · rename_i x xs heq4
                    rw [heq4] at hr3
                    simp only [List.length_cons] at hr3
                    split at h
                    · have := ihM _ _ _ _ _ h
                      omega
                    · split at h
                      · cases h; omega
                      · cases h
              · cases h
        · cases h

/-- The results of `parseValue`, `parseElems` and `parseMembers` are the same for
every fuel that is at least twice the length of the input plus one (resp.
plus two). -/
theorem parse_fuel (f1 : Nat) :
    (∀ f2 d s, 2 * s.length + 1 ≤ f1 → 2 * s.length + 1 ≤ f2 →
        parseValue f1 d s = parseValue f2 d s) ∧
      (∀ f2 d s acc, 2 * s.length + 2 ≤ f1 → 2 * s.length + 2 ≤ f2 →
        parseElems f1 d s acc = parseElems f2 d s acc) ∧
      (∀ f2 d s acc, 2 * s.length + 2 ≤ f1 → 2 * s.length + 2 ≤ f2 →
        parseMembers f1 d s acc = parseMembers f2 d s acc) := by
  induction f1 with
  | zero =>
    refine ⟨?_, ?_, ?_⟩
    · intro f2 d s h1; omega
    · intro f2 d s acc h1; omega
    · intro f2 d s acc h1; omega
  | succ f1 ih =>
    obtain ⟨ihV, ihE, ihM⟩ := ih
    refine ⟨?_, ?_, ?_⟩
    · intro f2 d s h1 h2
      cases f2 with
      | zero => omega
      | succ f2 =>
        simp only [parseValue]
        split
        · rfl
        · rename_i c r' heq
          have hs := skipSpace_length_le s
          rw [heq] at hs
          have hr := skipSpace_length_le r'
          simp only [List.length_cons] at hs
          split
          · split
            · rfl
            · split
              · rfl
              · rename_i x xs heq2
                rw [heq2] at hr
                simp only [List.length_cons] at hr
                split
                · rfl
                · exact ihM _ _ _ _ (by simp only [List.length_cons]; omega)
                    (by simp only [List.length_cons]; omega)
          · split
            · split
              · rfl
              · split
                · rfl
                · rename_i x xs heq2
                  rw [heq2] at hr
                  simp only [List.length_cons] at hr
                  split
                  · rfl
                  · exact ihE _ _ _ _ (by simp only [List.length_cons]; omega)
                      (by simp only [List.length_cons]; omega)
            · rfl
    · intro f2 d s acc h1 h2
      cases f2 with
      | zero => omega
      | succ f2 =>
        simp only [parseElems]
        rw [ihV f2 d s (by omega) (by omega)]
        split
        · rfl
        · rename_i v1 r1 heq
          have h3 := (parse_rest_lt f2).1 _ _ _ _ heq
          have hr := skipSpace_length_le r1
          split
          · rfl
          · rename_i x xs heq2
            rw [heq2] at hr
            simp only [List.length_cons] at hr
            split
            · exact ihE _ _ _ _ (by omega) (by omega)
            · rfl
    · intro f2 d s acc h1 h2
      cases f2 with
      | zero => omega
      | succ f2 =>
        simp only [parseMembers]
        split
        · rfl
        · rename_i q r0 heq
          have hs := skipSpace_length_le s
          rw [heq] at hs
          simp only [List.length_cons] at hs
          split
          · split
            · rfl
            · rename_i key r1 heq1
              have h3 := parseString_rest_lt _ _ _ _ _ heq1
              have hr1 := skipSpace_length_le r1
              split
              · rfl
              · rename_i colon r2 heq2
                rw [heq2] at hr1
                simp only [List.length_cons] at hr1
                split
                · rw [ihV f2 d r2 (by omega) (by omega)]
                  split
                  · rfl
                  · rename_i v3 r3 heq3
                    have h4 := (parse_rest_lt f2).1 _ _ _ _ heq3
                    have hr3 := skipSpace_length_le r3
                    split
                    · rfl
                    · rename_i x xs heq4
                      rw [heq4] at hr3
                      simp only [List.length_cons] at hr3
                      split
                      · exact ihM _ _ _ _ (by omega) (by omega)
                      · rfl
                · rfl
          · rfl

/-- The fuel of `jsonParse` is enough: with any larger fuel the parser gives
the same answer, so its `none` is a syntax error, never a lack of fuel. -/
theorem jsonParse_fuel (fuel : Nat) (data : Bytes) (h : 2 * data.length + 2 ≤ fuel) :
    parseValue fuel 0 data = parseValue (2 * data.length + 2) 0 data :=
  (parse_fuel fuel).1 _ 0 data (by omega) (by omega)


/-- The result of `bitLen` is the same for every fuel that is at least the
number. -/
theorem bitLen_fuel (f1 f2 n : Nat) (h1 : n ≤ f1) (h2 : n ≤ f2) : bitLen f1 n = bitLen f2 n := by
  induction f1 generalizing f2 n with
  | zero =>
    have : n = 0 := Nat.le_zero.mp h1
    subst this
    cases f2 <;> simp [bitLen]
  | succ f1 ih =>
    cases f2 with
    | zero =>
      have : n = 0 := Nat.le_zero.mp h2
      subst this
      simp [bitLen]
    | succ f2 =>
      simp only [bitLen]
      split
      · rfl
      · rw [ih f2 (n / 2) (by omega) (by omega)]


/-- The `Accept` header value `Middleware` negotiates on. -/
theorem accept_getRequest (path accept : Bytes) :
    Header.Get (getRequest path accept).Header (B "Accept") = accept := by
  have h : CanonicalMIMEHeaderKey (B "Accept") = B "Accept" := by decide
  simp [Header.Get, getRequest, h, mapGet]

/-- C1: when the `Accept` header does not want HAC, the middleware is the
downstream handler applied to the original request, whatever the registry,
path resolver and error mapper: the same calls reach the original writer, so
status, headers and body are the downstream handler's on every writer. -/
theorem C1_passthrough (rt : GoRuntime) (opts : Options) (next : Handler) (r : Request)
    (h : wantsHAC (Header.Get r.Header (B "Accept")) = false) :
    Middleware rt opts next r = next r ∧
      ∀ w : Response, (Middleware rt opts next r).serve w = (next r).serve w := by
  have e : Middleware rt opts next r = next r := by
    simp [Middleware, h]
  exact ⟨e, fun w => by rw [e]⟩

/-- Witness for C1: the request of `TestMiddlewarePassthrough`
(`Accept: application/json`) with a registry that has the route. -/
theorem C1_passthrough_witness :
    wantsHAC (Header.Get (getRequest (B "/test") (B "application/json")).Header (B "Accept"))
        = false ∧
      (Middleware (constRuntime []) { Registry := some testRegistry } jsonHandler
          (getRequest (B "/test") (B "application/json"))
        = jsonHandler (getRequest (B "/test") (B "application/json")) ∧
      ∀ w : Response,
        (Middleware (constRuntime []) { Registry := some testRegistry } jsonHandler
            (getRequest (B "/test") (B "application/json"))).serve w
          = (jsonHandler (getRequest (B "/test") (B "application/json"))).serve w) :=
  ⟨by rw [accept_getRequest]; decide,
   C1_passthrough _ _ _ _ (by rw [accept_getRequest]; decide)⟩

/-- C2: `wantsHAC` holds exactly when `parseAccept` yields a range of type
`application` and subtype `vnd.hac+json` whose quality is above zero; the
empty header, a header of other types only and a HAC range with `q=0` give
false, the HAC type listed among other types gives true. -/
theorem C2_wantsHAC_iff (h : Bytes) :
    (wantsHAC h = true ↔
        ∃ mr ∈ parseAccept h,
          mr.typ = B "application" ∧ mr.subtype = B "vnd.hac+json" ∧ mr.quality.gtZero = true) ∧
      wantsHAC [] = false ∧
      wantsHAC (B "application/json") = false ∧
      wantsHAC (B "text/html, application/json;q=0.9") = false ∧
      wantsHAC (B "application/vnd.hac+json;q=0") = false ∧
      wantsHAC (B "application/json, application/vnd.hac+json") = true ∧
      wantsHAC (B "application/vnd.hac+json, application/json;q=0.9") = true := by
  refine ⟨?_, by decide, by decide, by decide, by decide, by decide, by decide⟩
  simp only [wantsHAC, List.any_eq_true, matchesHAC, Bool.and_eq_true, decide_eq_true_eq]
  constructor
  · rintro ⟨mr, hm, ⟨ht, hs⟩, hq⟩
    exact ⟨mr, hm, ht, hs, hq⟩
  · rintro ⟨mr, hm, ht, hs, hq⟩
    exact ⟨mr, hm, ⟨ht, hs⟩, hq⟩

/-- What `http.Error` leaves on a writer that has not sent its header yet:
the given status (a valid one) and the message followed by a newline. -/
theorem httpError_serve (msg : Bytes) (code : Int) (w : Response) (hw : w.wroteHeader = false)
    (hp : w.panicked = false) (hc : 100 ≤ code ∧ code ≤ 999) :
    ((httpError msg code).serve w).code = code ∧
      ((httpError msg code).serve w).wroteHeader = true ∧
      ((httpError msg code).serve w).panicked = false ∧
      ((httpError msg code).serve w).body = w.body ++ (msg ++ [0x0A]) := by
  have h1 : ¬ (code < 100 ∨ code > 999) := by omega
  simp [httpError, Prog.serve, Response.WriteHeader, Response.Write, hw, hp, h1]

/-- C3: for a request that wants HAC and has no `RouteConfig` under (method,
resolved pattern), the middleware is `http.Error(.., 406)` when
`hacIsOnlyAcceptable` holds (a program that never calls the downstream
handler and answers 406) and is the downstream handler on the original
request otherwise. -/
theorem C3_no_config (rt : GoRuntime) (opts : Options) (next : Handler) (r : Request)
    (hw : wantsHAC (Header.Get r.Header (B "Accept")) = true)
    (hl : (opts.Registry.getD NewRegistry).Lookup r.Method
        ((opts.PathResolver.getD (fun r => r.Path)) r) = none) :
    Middleware rt opts next r
        = (if hacIsOnlyAcceptable (Header.Get r.Header (B "Accept")) = true then
            httpError (B "Not Acceptable: no HAC metadata for this route") 406
           else next r) ∧
      ∀ w : Response, w.wroteHeader = false → w.panicked = false →
        ((Middleware rt opts next r).serve w).code
          = (if hacIsOnlyAcceptable (Header.Get r.Header (B "Accept")) = true then 406
             else ((next r).serve w).code) := by
  have e : Middleware rt opts next r
      = (if hacIsOnlyAcceptable (Header.Get r.Header (B "Accept")) = true then
          httpError (B "Not Acceptable: no HAC metadata for this route") 406
         else next r) := by
    simp only [Middleware, hw, hl]
    rfl
  refine ⟨e, fun w hwh hwp => ?_⟩
  rw [e]
  by_cases hq : hacIsOnlyAcceptable (Header.Get r.Header (B "Accept")) = true
  · rw [if_pos hq, if_pos hq]
    exact (httpError_serve _ 406 w hwh hwp (by decide)).1
  · rw [if_neg hq, if_neg hq]

/-- Witness for C3, on the two requests of `TestMiddleware406WhenHACOnly` and
`TestMiddlewarePassthroughWhenNoConfigButFallback` (nil registry): the first
is answered 406 whatever the handler, the second 200 with the body `ok`. -/
theorem C3_no_config_witness :
    (((Middleware (constRuntime []) {} okHandler
          (getRequest (B "/unknown") (B "application/vnd.hac+json"))).serve {}).code = 406 ∧
      Middleware (constRuntime []) {} okHandler
          (getRequest (B "/unknown") (B "application/vnd.hac+json"))
        = httpError (B "Not Acceptable: no HAC metadata for this route") 406) ∧
    (((Middleware (constRuntime []) {} okHandler
          (getRequest (B "/unknown")
            (B "application/vnd.hac+json, application/json;q=0.9"))).serve {}).code = 200 ∧
      ((Middleware (constRuntime []) {} okHandler
          (getRequest (B "/unknown")
            (B "application/vnd.hac+json, application/json;q=0.9"))).serve {}).body = B "ok") := by
  have h1 := C3_no_config (constRuntime []) {} okHandler
    (getRequest (B "/unknown") (B "application/vnd.hac+json"))
    (by rw [accept_getRequest]; decide) rfl
  have h2 := C3_no_config (constRuntime []) {} okHandler
    (getRequest (B "/unknown") (B "application/vnd.hac+json, application/json;q=0.9"))
    (by rw [accept_getRequest]; decide) rfl
  rw [accept_getRequest] at h1 h2
  have q1 : hacIsOnlyAcceptable (B "application/vnd.hac+json") = true := by decide
  have q2 : ¬ hacIsOnlyAcceptable (B "application/vnd.hac+json, application/json;q=0.9") = true := by
    decide
  rw [if_pos q1] at h1
  rw [if_neg q2] at h2
  refine ⟨⟨?_, h1.1⟩, ?_, ?_⟩
  · have := h1.2 {} rfl rfl
    rw [if_pos q1] at this
    exact this
  · rw [h2.1]; decide
  · rw [h2.1]; decide

/-! ### Maps and headers -/

/-- Reading a map after an assignment. -/
theorem mapGet_mapSet {K V : Type} [DecidableEq K] (m : List (K × V)) (k k' : K) (v : V) :
    mapGet (mapSet m k v) k' = if k = k' then some v else mapGet m k' := by
  induction m with
  | nil => simp [mapSet, mapGet]
  | cons e m ih =>
    obtain ⟨a, b⟩ := e
    by_cases h : a = k
    · subst h
      by_cases h2 : a = k'
      · simp [mapSet, mapGet, h2]
      · simp [mapSet, mapGet, h2]
    · by_cases h2 : a = k'
      · subst h2
        have h3 : ¬ k = a := fun e => h e.symm
        simp [mapSet, mapGet, h, h3]
      · simp [mapSet, mapGet, h, h2, ih]

/-- The values under a raw key after `Header.Add`. -/
theorem getD_Add (h : Header) (k v key : Bytes) :
    (mapGet (Header.Add h k v) key).getD []
      = if CanonicalMIMEHeaderKey k = key then (mapGet h key).getD [] ++ [v]
        else (mapGet h key).getD [] := by
  unfold Header.Add
  rw [mapGet_mapSet]
  by_cases e : CanonicalMIMEHeaderKey k = key
  · subst e
    simp
  · simp [e]

/-- The values under a raw key after adding all of `vs` under `k`. -/
theorem getD_foldl_Add (vs : List Bytes) (h : Header) (k key : Bytes) :
    (mapGet (vs.foldl (fun h v => Header.Add h k v) h) key).getD []
      = if CanonicalMIMEHeaderKey k = key then (mapGet h key).getD [] ++ vs
        else (mapGet h key).getD [] := by
  induction vs generalizing h with
  | nil => simp
  | cons v vs ih =>
    rw [List.foldl_cons, ih, getD_Add]
    by_cases e : CanonicalMIMEHeaderKey k = key
    · simp [e]
    · simp [e]

/-- The values under a raw key after the copy loop. -/
theorem getD_copied (es : Header) (h : Header) (key : Bytes) :
    (mapGet (copied es h) key).getD [] = (mapGet h key).getD [] ++ collect key es := by
  induction es generalizing h with
  | nil => simp [copied, collect]
  | cons e es ih =>
    have step : copied (e :: es) h
        = copied es (e.2.foldl (fun h v => Header.Add h e.1 v) h) := rfl
    rw [step, ih, getD_foldl_Add]
    by_cases c : CanonicalMIMEHeaderKey e.1 = key
    · simp [collect, c]
    · simp [collect, c]

/-- The values of an entry are a contiguous part of what is collected under
the canonical form of its key. -/
theorem infix_collect (es : Header) (e : Bytes × List Bytes) (he : e ∈ es) :
    e.2 <:+: collect (CanonicalMIMEHeaderKey e.1) es := by
  induction es with
  | nil => cases he
  | cons a es ih =>
    rcases List.mem_cons.mp he with h | h
    · subst h
      exact ⟨[], collect (CanonicalMIMEHeaderKey e.1) es, by simp [collect]⟩
    · obtain ⟨p, q, hpq⟩ := ih h
      exact ⟨(if CanonicalMIMEHeaderKey a.1 = CanonicalMIMEHeaderKey e.1 then a.2 else []) ++ p, q,
        by simp [collect, ← hpq, List.append_assoc]⟩

/-- Reading a header map after `Header.Set`. -/
theorem mapGet_Set (h : Header) (k v key : Bytes) :
    mapGet (Header.Set h k v) key
      = if CanonicalMIMEHeaderKey k = key then some [v] else mapGet h key := by
  unfold Header.Set
  rw [mapGet_mapSet]

/-! ### The intercepting branch -/

/-- Running the inner copy loop on the server's writer. -/
theorem serve_addValues (key : Bytes) (vs : List Bytes) (k : Prog) (w : Response)
    (hp : w.panicked = false) :
    (addValues key vs k).serve w
      = k.serve { w with header := vs.foldl (fun h v => Header.Add h key v) w.header } := by
  induction vs generalizing w with
  | nil => rfl
  | cons v vs ih =>
    have step : addValues key (v :: vs) k
        = .header (fun h => Header.Add h key v) (addValues key vs k) := rfl
    rw [step]
    show (if w.panicked = true then w
      else (addValues key vs k).serve { w with header := Header.Add w.header key v }) = _
    rw [if_neg (by simp [hp]), ih { w with header := Header.Add w.header key v } hp]
    rfl

/-- Running the copy loop on the server's writer. -/
theorem serve_copyHeaders (es : Header) (k : Prog) (w : Response) (hp : w.panicked = false) :
    (copyHeaders es k).serve w = k.serve { w with header := copied es w.header } := by
  induction es generalizing w with
  | nil => rfl
  | cons e es ih =>
    have step : copyHeaders (e :: es) k = addValues e.1 e.2 (copyHeaders es k) := rfl
    rw [step, serve_addValues _ _ _ _ hp,
      ih { w with header := e.2.foldl (fun h v => Header.Add h e.1 v) w.header } hp]
    rfl

/-- The response left by the tail of `Middleware` on a writer that has not
sent its header yet, when the recorded status is one `WriteHeader` accepts. -/
theorem emit_serve (rt : GoRuntime) (recorded : responseRecorder) (out : Bytes) (w : Response)
    (hw : w.wroteHeader = false) (hp : w.panicked = false) (hc : recorded.code ≤ 999) :
    (emit rt recorded out).serve w
      = { header := emittedHeader rt recorded w.header
          wroteHeader := true
          code := if recorded.code ≥ 400 then recorded.code else 200
          sent := emittedHeader rt recorded w.header
          body := w.body ++ out
          panicked := false } := by
  unfold emit
  rw [serve_copyHeaders _ _ _ hp]
  by_cases c : recorded.code ≥ 400
  · have h1 : ¬ (recorded.code < 100 ∨ recorded.code > 999) := by omega
    simp [Prog.serve, Response.WriteHeader, Response.Write, hw, hp, c, h1, emittedHeader]
  · simp [Prog.serve, Response.WriteHeader, Response.Write, hw, hp, c, emittedHeader]

/-- The tail of `Middleware` when the recorded status is above 999:
`WriteHeader` panics and nothing is sent. -/
theorem emit_serve_panic (rt : GoRuntime) (recorded : responseRecorder) (out : Bytes)
    (w : Response) (hw : w.wroteHeader = false) (hp : w.panicked = false)
    (hc : 999 < recorded.code) :
    ((emit rt recorded out).serve w).panicked = true ∧
      ((emit rt recorded out).serve w).wroteHeader = false := by
  unfold emit
  rw [serve_copyHeaders _ _ _ hp]
  have c : recorded.code ≥ 400 := by omega
  have h1 : recorded.code < 100 ∨ recorded.code > 999 := Or.inr hc
  simp [Prog.serve, Response.WriteHeader, hw, hp, c, h1]

/-- `buildErrorEnvelope` never returns an error. -/
theorem buildErrorEnvelope_ok (statusCode : Int) (body : Bytes) (r : Request)
    (mapper : Option ErrorMapper) :
    buildErrorEnvelope statusCode body r mapper
      = .ok { Error := some (((mapper.bind (fun m => m statusCode body r))).getD
          (defaultErrorMapping statusCode body)) } := by
  cases mapper with
  | none => rfl
  | some m =>
    simp only [buildErrorEnvelope, Option.bind]
    cases m statusCode body r <;> rfl

/-- The envelope built from a recorded response: never an error. -/
theorem buildEnvelope_ok (recorded : responseRecorder) (cfg : RouteConfig) (r : Request)
    (mapper : Option ErrorMapper) :
    ∃ env, buildEnvelope recorded cfg r mapper = .ok env := by
  unfold buildEnvelope
  by_cases c : recorded.code ≥ 400
  · rw [if_pos c, buildErrorEnvelope_ok]
    exact ⟨_, rfl⟩
  · rw [if_neg c]
    exact ⟨_, rfl⟩

/-- With HAC wanted and a `RouteConfig` found, `Middleware` takes the
intercepting branch. -/
theorem Middleware_intercept (rt : GoRuntime) (opts : Options) (next : Handler) (r : Request)
    (cfg : RouteConfig)
    (hw : wantsHAC (Header.Get r.Header (B "Accept")) = true)
    (hl : (opts.Registry.getD NewRegistry).Lookup r.Method
        ((opts.PathResolver.getD (fun r => r.Path)) r) = some cfg) :
    Middleware rt opts next r = intercept rt opts next cfg r := by
  simp only [Middleware, hw, hl]
  rfl

/-- The intercepting branch when the envelope is serialised. -/
theorem intercept_ok (rt : GoRuntime) (opts : Options) (next : Handler) (r : Request)
    (cfg : RouteConfig) (env : Envelope) (out : Bytes)
    (he : buildEnvelope ((next (withHACRequested r)).record newRecorder) cfg
        (withHACRequested r) opts.ErrorMapper = .ok env)
    (hm : rt.Marshal env = some out) :
    intercept rt opts next cfg r
      = emit rt ((next (withHACRequested r)).record newRecorder) out := by
  simp only [intercept, he, hm]

/-- The intercepting branch when serialisation fails. -/
theorem intercept_fail (rt : GoRuntime) (opts : Options) (next : Handler) (r : Request)
    (cfg : RouteConfig) (env : Envelope)
    (he : buildEnvelope ((next (withHACRequested r)).record newRecorder) cfg
        (withHACRequested r) opts.ErrorMapper = .ok env)
    (hm : rt.Marshal env = none) :
    intercept rt opts next cfg r = httpError (B "Internal Server Error") 500 := by
  simp only [intercept, he, hm]

/-- C4, as stated, fails: `createdHandler` records status 201 on a registered
route for a request that wants HAC, the envelope is serialised, and the
response carries status 200. -/
theorem C4_counterexample :
    wantsHAC (Header.Get hacRequest.Header (B "Accept")) = true ∧
      (testRegistry.Lookup hacRequest.Method hacRequest.Path).isSome = true ∧
      ((createdHandler (withHACRequested hacRequest)).record newRecorder).code = 201 ∧
      ((Middleware testRuntime testOptions createdHandler hacRequest).serve {}).code = 200 ∧
      ((Middleware testRuntime testOptions createdHandler hacRequest).serve {}).code
        ≠ ((createdHandler (withHACRequested hacRequest)).record newRecorder).code := by
  decide

/-- C4 (amended): for a request that wants HAC and has a `RouteConfig`, on a
writer that has not sent its header, the envelope is always built; when it is
serialised, the status sent is 200 if the recorded status is below 400 and is
the recorded status if that is between 400 and 999 (above 999 `WriteHeader`
panics and no response is sent); when serialisation fails the status is
500. -/
theorem C4_status (rt : GoRuntime) (opts : Options) (next : Handler) (r : Request)
    (cfg : RouteConfig) (w : Response)
    (hw : wantsHAC (Header.Get r.Header (B "Accept")) = true)
    (hl : (opts.Registry.getD NewRegistry).Lookup r.Method
        ((opts.PathResolver.getD (fun r => r.Path)) r) = some cfg)
    (hfresh : w.wroteHeader = false) (hlive : w.panicked = false) :
    ∃ env,
      buildEnvelope ((next (withHACRequested r)).record newRecorder) cfg
          (withHACRequested r) opts.ErrorMapper = .ok env ∧
      (rt.Marshal env = none →
        ((Middleware rt opts next r).serve w).wroteHeader = true ∧
        ((Middleware rt opts next r).serve w).code = 500) ∧
      (rt.Marshal env ≠ none →
        (((next (withHACRequested r)).record newRecorder).code < 400 →
          ((Middleware rt opts next r).serve w).wroteHeader = true ∧
          ((Middleware rt opts next r).serve w).code = 200) ∧
        (400 ≤ ((next (withHACRequested r)).record newRecorder).code →
          ((next (withHACRequested r)).record newRecorder).code ≤ 999 →
          ((Middleware rt opts next r).serve w).wroteHeader = true ∧
          ((Middleware rt opts next r).serve w).code
            = ((next (withHACRequested r)).record newRecorder).code) ∧
        (999 < ((next (withHACRequested r)).record newRecorder).code →
          ((Middleware rt opts next r).serve w).wroteHeader = false ∧
          ((Middleware rt opts next r).serve w).panicked = true)) := by
  obtain ⟨env, he⟩ := buildEnvelope_ok ((next (withHACRequested r)).record newRecorder) cfg
    (withHACRequested r) opts.ErrorMapper
  refine ⟨env, he, ?_, ?_⟩
  · intro hm
    rw [Middleware_intercept rt opts next r cfg hw hl,
      intercept_fail rt opts next r cfg env he hm]
    have h := httpError_serve (B "Internal Server Error") 500 w hfresh hlive (by decide)
    exact ⟨h.2.1, h.1⟩
  · intro hm
    obtain ⟨out, ho⟩ := Option.ne_none_iff_exists'.mp hm
    rw [Middleware_intercept rt opts next r cfg hw hl,
      intercept_ok rt opts next r cfg env out he ho]
    refine ⟨?_, ?_, ?_⟩
    · intro hc
      rw [emit_serve rt _ out w hfresh hlive (by omega)]
      have c : ¬ ((next (withHACRequested r)).record newRecorder).code ≥ 400 := by omega
      simp [c]
    · intro hc1 hc2
      rw [emit_serve rt _ out w hfresh hlive hc2]
      simp [hc1]
    · intro hc
      have h := emit_serve_panic rt _ out w hfresh hlive hc
      exact ⟨h.2, h.1⟩

/-- Witness for C4 (amended): the 201 of `createdHandler` is sent as 200. -/
theorem C4_status_witness :
    wantsHAC (Header.Get hacRequest.Header (B "Accept")) = true ∧
      ((createdHandler (withHACRequested hacRequest)).record newRecorder).code = 201 ∧
      ((Middleware testRuntime testOptions createdHandler hacRequest).serve {}).code = 200 := by
  obtain ⟨env, _, _, h⟩ := C4_status testRuntime testOptions createdHandler hacRequest
    { Description := B "Test.", Actions := [], Related := [] } {} (by decide) rfl rfl rfl
  exact ⟨by decide, by decide, ((h (by simp [testRuntime, constRuntime])).1 (by decide)).2⟩

/-- C5: for a request that wants HAC and has a `RouteConfig`, once the
envelope is serialised and the response is sent (the recorded status is one
`WriteHeader` accepts), the headers sent have `Content-Type` equal to the one
value `application/vnd.hac+json` and `Vary` equal to the one value `Accept`,
whatever was recorded; under every other name they are the values the writer
already had followed by the values recorded under that name, so the values of
every other recorded header appear in their recorded order. -/
theorem C5_headers (rt : GoRuntime) (opts : Options) (next : Handler) (r : Request)
    (cfg : RouteConfig) (w : Response) (env : Envelope) (out : Bytes)
    (hw : wantsHAC (Header.Get r.Header (B "Accept")) = true)
    (hl : (opts.Registry.getD NewRegistry).Lookup r.Method
        ((opts.PathResolver.getD (fun r => r.Path)) r) = some cfg)
    (hfresh : w.wroteHeader = false) (hlive : w.panicked = false)
    (he : buildEnvelope ((next (withHACRequested r)).record newRecorder) cfg
        (withHACRequested r) opts.ErrorMapper = .ok env)
    (hm : rt.Marshal env = some out)
    (hc : ((next (withHACRequested r)).record newRecorder).code ≤ 999) :
    Header.Values ((Middleware rt opts next r).serve w).sent (B "Content-Type") = [MediaType] ∧
      Header.Values ((Middleware rt opts next r).serve w).sent (B "Vary") = [B "Accept"] ∧
      (∀ key : Bytes,
        CanonicalMIMEHeaderKey key ≠ B "Content-Type" → CanonicalMIMEHeaderKey key ≠ B "Vary" →
        Header.Values ((Middleware rt opts next r).serve w).sent key
          = Header.Values w.header key
            ++ collect (CanonicalMIMEHeaderKey key)
                (rt.rangeHeader ((next (withHACRequested r)).record newRecorder).header)) ∧
      (∀ (k : Bytes) (vs : List Bytes),
        (k, vs) ∈ ((next (withHACRequested r)).record newRecorder).header →
        CanonicalMIMEHeaderKey k ≠ B "Content-Type" → CanonicalMIMEHeaderKey k ≠ B "Vary" →
        vs <:+: Header.Values ((Middleware rt opts next r).serve w).sent k) := by
  have cCT : CanonicalMIMEHeaderKey (B "Content-Type") = B "Content-Type" := by decide
  have cV : CanonicalMIMEHeaderKey (B "Vary") = B "Vary" := by decide
  have ne1 : B "Vary" ≠ B "Content-Type" := by decide
  rw [Middleware_intercept rt opts next r cfg hw hl,
    intercept_ok rt opts next r cfg env out he hm, emit_serve rt _ out w hfresh hlive hc]
  simp only [Header.Values, emittedHeader, mapGet_Set, cCT, cV]
  have other : ∀ key : Bytes,
      CanonicalMIMEHeaderKey key ≠ B "Content-Type" → CanonicalMIMEHeaderKey key ≠ B "Vary" →
      (if B "Vary" = CanonicalMIMEHeaderKey key then some [B "Accept"]
        else if B "Content-Type" = CanonicalMIMEHeaderKey key then some [MediaType]
        else mapGet (copied (rt.rangeHeader ((next (withHACRequested r)).record newRecorder).header)
          w.header) (CanonicalMIMEHeaderKey key)).getD []
        = (mapGet w.header (CanonicalMIMEHeaderKey key)).getD []
          ++ collect (CanonicalMIMEHeaderKey key)
              (rt.rangeHeader ((next (withHACRequested r)).record newRecorder).header) := by
    intro key h1 h2
    rw [if_neg (fun e => h2 e.symm), if_neg (fun e => h1 e.symm), getD_copied]
  refine ⟨by simp [ne1], by simp, other, ?_⟩
  intro k vs hmem h1 h2
  rw [other k h1 h2]
  have hmem2 : (k, vs) ∈ rt.rangeHeader ((next (withHACRequested r)).record newRecorder).header :=
    (rt.rangeHeader_perm _).mem_iff.mpr hmem
  obtain ⟨p, q, hpq⟩ := infix_collect _ (k, vs) hmem2
  exact ⟨(mapGet w.header (CanonicalMIMEHeaderKey k)).getD [] ++ p, q,
    by simp only [← hpq, List.append_assoc]⟩

/-- Witness for C5: `customHandler` records `Content-Type: application/json`
and `X-Custom: value`; the response carries the HAC content type, `Vary:
Accept` and `X-Custom: value`. -/
theorem C5_headers_witness :
    wantsHAC (Header.Get hacRequest.Header (B "Accept")) = true ∧
      Header.Values ((Middleware testRuntime testOptions customHandler hacRequest).serve {}).sent
          (B "Content-Type") = [MediaType] ∧
      Header.Values ((Middleware testRuntime testOptions customHandler hacRequest).serve {}).sent
          (B "Vary") = [B "Accept"] ∧
      [B "value"] <:+:
        Header.Values ((Middleware testRuntime testOptions customHandler hacRequest).serve {}).sent
          (B "X-Custom") := by
  obtain ⟨env, he⟩ := buildEnvelope_ok
    ((customHandler (withHACRequested hacRequest)).record newRecorder)
    { Description := B "Test.", Actions := [], Related := [] }
    (withHACRequested hacRequest) testOptions.ErrorMapper
  have h := C5_headers testRuntime testOptions customHandler hacRequest
    { Description := B "Test.", Actions := [], Related := [] } {} env _ (by decide) rfl rfl rfl
    he rfl (by decide)
  exact ⟨by decide, h.1, h.2.1,
    h.2.2.2 (B "X-Custom") [B "value"] (by decide) (by decide) (by decide)⟩

/-- C6: `buildSuccessEnvelope` returns no error; its `Data` is valid JSON: the
body itself when the body is non-empty valid JSON, the literal `null` when the
body is empty or not valid JSON (such as `not json`). -/
theorem C6_payload (body : Bytes) (cfg : Option RouteConfig) :
    (∃ env, buildSuccessEnvelope body cfg = .ok env ∧
        jsonValid env.Data = true ∧
        (body ≠ [] → jsonValid body = true → env.Data = body) ∧
        (body = [] ∨ jsonValid body = false → env.Data = B "null")) ∧
      ((buildSuccessEnvelope [] cfg).toOption.map (fun e => e.Data) = some (B "null")) ∧
      ((buildSuccessEnvelope (B "not json") cfg).toOption.map (fun e => e.Data)
        = some (B "null")) ∧
      ((buildSuccessEnvelope (B "\x7b\"id\":1\x7d") cfg).toOption.map (fun e => e.Data)
        = some (B "\x7b\"id\":1\x7d")) := by
  have hnull : jsonValid (B "null") = true := by decide
  have hnj : jsonValid (B "not json") = false := by decide
  have hid : jsonValid (B "\x7b\"id\":1\x7d") = true := by decide
  refine ⟨?_, ?_, ?_, ?_⟩
  · by_cases c : 0 < body.length ∧ jsonValid body = true
    · refine ⟨_, rfl, ?_, ?_, ?_⟩
      · simp only [if_pos c]; exact c.2
      · intro _ _; simp only [if_pos c]
      · rintro (h | h)
        · subst h; simp at c
        · rw [h] at c; simp at c
    · refine ⟨_, rfl, ?_, ?_, ?_⟩
      · simp only [if_neg c]; exact hnull
      · intro h1 h2
        exact absurd ⟨List.length_pos.mpr h1, h2⟩ c
      · intro _; simp only [if_neg c]
  · simp [buildSuccessEnvelope, Except.toOption]
  · simp [buildSuccessEnvelope, Except.toOption, hnj]
  · simp [buildSuccessEnvelope, Except.toOption, hid]
    decide

/-- C7: the metadata of `buildSuccessEnvelope(body, cfg)` has version `1.0`
and the description, actions and related resources of `cfg`; with no `cfg`
the version is `1.0` and the three are empty; the metadata is the same for
every body. -/
theorem C7_meta (body body' : Bytes) (cfg : RouteConfig) (c : Option RouteConfig) :
    (∃ env, buildSuccessEnvelope body (some cfg) = .ok env ∧
        env.HAC = some { Version := B "1.0", Description := cfg.Description,
                         Actions := cfg.Actions, Related := cfg.Related }) ∧
      (∃ env, buildSuccessEnvelope body none = .ok env ∧
        env.HAC = some { Version := B "1.0", Description := [], Actions := [], Related := [] }) ∧
      (buildSuccessEnvelope body c).toOption.map (fun e => e.HAC)
        = (buildSuccessEnvelope body' c).toOption.map (fun e => e.HAC) := by
  refine ⟨⟨_, rfl, rfl⟩, ⟨_, rfl, rfl⟩, ?_⟩
  cases c <;> rfl

/-! ### `json.Unmarshal` into `parsed` -/

/-- Once a type error is recorded, it stays. -/
theorem storeMember_false (p : parsedBody) (kv : Bytes × JSON) :
    (storeMember (p, false) kv).2 = false := by
  unfold storeMember
  simp only
  split
  · split <;> rfl
  · split
    · split <;> rfl
    · split
      · split <;> rfl
      · rfl

/-- Once a type error is recorded, the decoding of the remaining members
keeps it. -/
theorem foldl_storeMember_false (kvs : List (Bytes × JSON)) (p : parsedBody) :
    (kvs.foldl storeMember (p, false)).2 = false := by
  induction kvs generalizing p with
  | nil => rfl
  | cons kv kvs ih =>
    rw [List.foldl_cons]
    have h := storeMember_false p kv
    rcases hs : storeMember (p, false) kv with ⟨p', b⟩
    rw [hs] at h
    simp only at h
    subst h
    exact ih p'

/-- A value that is neither a string nor `null` cannot be stored. -/
theorem storeString_none (cur : Bytes) (v : JSON) (hv : v.isStringOrNull = false) :
    storeString cur v = none := by
  cases v <;> simp [JSON.isStringOrNull] at hv <;> rfl

/-- A member for one of the three fields whose value is neither a string nor
`null` records a type error. -/
theorem storeMember_mismatch (p : parsedBody) (ok : Bool) (kv : Bytes × JSON)
    (hk : isFieldKey kv.1 = true) (hv : kv.2.isStringOrNull = false) :
    (storeMember (p, ok) kv).2 = false := by
  unfold storeMember
  simp only [storeString_none _ _ hv]
  by_cases h1 : equalFoldField (B "code") kv.1 = true
  · simp [h1]
  · by_cases h2 : equalFoldField (B "message") kv.1 = true
    · simp [h1, h2]
    · by_cases h3 : equalFoldField (B "error") kv.1 = true
      · simp [h1, h2, h3]
      · simp [isFieldKey, h1, h2, h3] at hk

/-- A member of the wrong type anywhere in the object makes the decoding
fail. -/
theorem foldl_storeMember_mismatch (kvs : List (Bytes × JSON)) (st : parsedBody × Bool)
    (kv : Bytes × JSON) (hm : kv ∈ kvs) (hk : isFieldKey kv.1 = true)
    (hv : kv.2.isStringOrNull = false) :
    (kvs.foldl storeMember st).2 = false := by
  induction kvs generalizing st with
  | nil => cases hm
  | cons a kvs ih =>
    rw [List.foldl_cons]
    rcases List.mem_cons.mp hm with h | h
    · subst h
      have h := storeMember_mismatch st.1 st.2 kv hk hv
      rcases hs : storeMember (st.1, st.2) kv with ⟨p', b⟩
      rw [hs] at h
      simp only at h
      subst h
      exact foldl_storeMember_false kvs p'
    · exact ih _ h

/-- `json.Unmarshal` into `parsed` fails on a JSON text that is not an object
or `null`, and on an object holding, for one of the three fields, a value
that is neither a string nor `null`. -/
theorem unmarshalParsed_none (body : Bytes) :
    (∀ v, jsonParse body = some v → v.isObjectOrNull = false → unmarshalParsed body = none) ∧
      (∀ kvs kv, jsonParse body = some (.obj kvs) → kv ∈ kvs → isFieldKey kv.1 = true →
        kv.2.isStringOrNull = false → unmarshalParsed body = none) := by
  constructor
  · intro v hv hn
    unfold unmarshalParsed
    rw [hv]
    cases v <;> simp [JSON.isObjectOrNull] at hn <;> rfl
  · intro kvs kv hp hm hk hv
    unfold unmarshalParsed
    rw [hp]
    have h := foldl_storeMember_mismatch kvs ({}, true) kv hm hk hv
    rcases hs : kvs.foldl storeMember ({}, true) with ⟨p', b⟩
    rw [hs] at h
    simp only at h
    subst h
    simp only [hs]
    rfl

/-- A key matching a field name that does not start with `s` or `k` starts
with the same letter, in either case. -/
theorem equalFoldField_head (sb tb : UInt8) (s t : Bytes)
    (h : equalFoldField (sb :: s) (tb :: t) = true)
    (hs : sb ≠ 0x73 ∧ sb ≠ 0x53 ∧ sb ≠ 0x6B ∧ sb ≠ 0x4B) :
    sb &&& 0xDF = tb &&& 0xDF := by
  unfold equalFoldField at h
  by_cases c : tb < 0x80
  · simp only [c, if_true] at h
    by_cases e : sb = tb
    · rw [e]
    · simp only [e, if_false] at h
      by_cases c2 : (decide (0x41 ≤ sb &&& 0xDF) && decide (sb &&& 0xDF ≤ 0x5A)
          && decide (sb &&& 0xDF = tb &&& 0xDF)) = true
      · simp only [Bool.and_eq_true, decide_eq_true_eq] at c2
        exact c2.2
      · simp only [c2, if_false] at h
        cases h
  · simp only [c, if_false] at h
    cases t with
    | nil => cases h
    | cons t1 t' =>
      have n1 : ¬ ((sb = 0x73 ∨ sb = 0x53) ∧ tb = 0xC5 ∧ t1 = 0xBF) := fun x =>
        x.1.elim hs.1 hs.2.1
      simp only [n1, if_false] at h
      cases t' with
      | nil => cases h
      | cons t2 t'' =>
        have n2 : ¬ ((sb = 0x6B ∨ sb = 0x4B) ∧ tb = 0xE2 ∧ t1 = 0x84 ∧ t2 = 0xAA) := fun x =>
          x.1.elim hs.2.2.1 hs.2.2.2
        simp only [n2, if_false] at h
        cases h

/-- First letter, folded, of a key that matches `code`, `message` or `error`. -/
theorem fieldKey_head (k : Bytes) :
    (equalFoldField (B "code") k = true → ∃ tb t, k = tb :: t ∧ tb &&& 0xDF = 0x43) ∧
      (equalFoldField (B "message") k = true → ∃ tb t, k = tb :: t ∧ tb &&& 0xDF = 0x4D) ∧
      (equalFoldField (B "error") k = true → ∃ tb t, k = tb :: t ∧ tb &&& 0xDF = 0x45) := by
  have e1 : B "code" = 0x63 :: B "ode" := by decide
  have e2 : B "message" = 0x6D :: B "essage" := by decide
  have e3 : B "error" = 0x65 :: B "rror" := by decide
  rw [e1, e2, e3]
  cases k with
  | nil =>
    refine ⟨fun h => ?_, fun h => ?_, fun h => ?_⟩
    · simp [equalFoldField] at h
    · simp [equalFoldField] at h
    · simp [equalFoldField] at h
  | cons tb t =>
    refine ⟨fun h => ⟨tb, t, rfl, ?_⟩, fun h => ⟨tb, t, rfl, ?_⟩, fun h => ⟨tb, t, rfl, ?_⟩⟩
    · rw [← equalFoldField_head _ _ _ _ h (by decide)]; decide
    · rw [← equalFoldField_head _ _ _ _ h (by decide)]; decide
    · rw [← equalFoldField_head _ _ _ _ h (by decide)]; decide

/-- A key matches at most one of the three field names. -/
theorem fieldKey_exclusive (k : Bytes) :
    (equalFoldField (B "code") k = true → equalFoldField (B "message") k = false ∧
        equalFoldField (B "error") k = false) ∧
      (equalFoldField (B "message") k = true → equalFoldField (B "error") k = false) := by
  obtain ⟨hc, hm, he⟩ := fieldKey_head k
  refine ⟨fun h => ⟨?_, ?_⟩, fun h => ?_⟩
  · obtain ⟨tb, t, rfl, h1⟩ := hc h
    cases hx : equalFoldField (B "message") (tb :: t) with
    | false => rfl
    | true =>
      obtain ⟨tb', t', e, h2⟩ := hm hx
      cases e
      rw [h1] at h2
      exact absurd h2 (by decide)
  · obtain ⟨tb, t, rfl, h1⟩ := hc h
    cases hx : equalFoldField (B "error") (tb :: t) with
    | false => rfl
    | true =>
      obtain ⟨tb', t', e, h2⟩ := he hx
      cases e
      rw [h1] at h2
      exact absurd h2 (by decide)
  · obtain ⟨tb, t, rfl, h1⟩ := hm h
    cases hx : equalFoldField (B "error") (tb :: t) with
    | false => rfl
    | true =>
      obtain ⟨tb', t', e, h2⟩ := he hx
      cases e
      rw [h1] at h2
      exact absurd h2 (by decide)

/-- Decoding of one well-typed member: each field takes the member's string
if the key matches it, and keeps its value otherwise; no type error. -/
theorem storeMember_wellTyped (p : parsedBody) (kv : Bytes × JSON)
    (h : (!isFieldKey kv.1 || kv.2.isStringOrNull) = true) :
    storeMember (p, true) kv
      = ({ Code := (if equalFoldField (B "code") kv.1 then
                      match kv.2 with
                      | .str s => s
                      | _ => p.Code
                    else p.Code)
           Message := (if equalFoldField (B "message") kv.1 then
                        match kv.2 with
                        | .str s => s
                        | _ => p.Message
                       else p.Message)
           Error := (if equalFoldField (B "error") kv.1 then
                      match kv.2 with
                      | .str s => s
                      | _ => p.Error
                     else p.Error) }, true) := by
  obtain ⟨k, v⟩ := kv
  obtain ⟨x1, x2⟩ := fieldKey_exclusive k
  by_cases h1 : equalFoldField (B "code") k = true
  · obtain ⟨n2, n3⟩ := x1 h1
    have hk : isFieldKey k = true := by simp [isFieldKey, h1]
    cases v <;> simp [hk, JSON.isStringOrNull] at h <;>
      simp [storeMember, storeString, h1, n2, n3]
  · have n1 : equalFoldField (B "code") k = false := by simpa using h1
    by_cases h2 : equalFoldField (B "message") k = true
    · have n3 := x2 h2
      have hk : isFieldKey k = true := by simp [isFieldKey, h2]
      cases v <;> simp [hk, JSON.isStringOrNull] at h <;>
        simp [storeMember, storeString, n1, h2, n3]
    · have n2 : equalFoldField (B "message") k = false := by simpa using h2
      by_cases h3 : equalFoldField (B "error") k = true
      · have hk : isFieldKey k = true := by simp [isFieldKey, h3]
        cases v <;> simp [hk, JSON.isStringOrNull] at h <;>
          simp [storeMember, storeString, n1, n2, h3]
      · have n3 : equalFoldField (B "error") k = false := by simpa using h3
        simp [storeMember, n1, n2, n3]

/-- Decoding of the members of a well-typed object: each field ends up with
the last string given for it. -/
theorem foldl_storeMember_wellTyped (kvs : List (Bytes × JSON)) (p : parsedBody)
    (h : wellTyped kvs = true) :
    kvs.foldl storeMember (p, true)
      = ({ Code := lastString (B "code") kvs p.Code
           Message := lastString (B "message") kvs p.Message
           Error := lastString (B "error") kvs p.Error }, true) := by
  induction kvs generalizing p with
  | nil => rfl
  | cons kv kvs ih =>
    have h' : (!isFieldKey kv.1 || kv.2.isStringOrNull) = true ∧ wellTyped kvs = true := by
      simpa [wellTyped] using h
    rw [List.foldl_cons, storeMember_wellTyped p kv h'.1, ih _ h'.2]
    rfl

/-- `json.Unmarshal` into `parsed` succeeds on a well-typed object, with the
last string given for each field. -/
theorem unmarshalParsed_wellTyped (body : Bytes) (kvs : List (Bytes × JSON))
    (hp : jsonParse body = some (.obj kvs)) (h : wellTyped kvs = true) :
    unmarshalParsed body
      = some { Code := lastString (B "code") kvs []
               Message := lastString (B "message") kvs []
               Error := lastString (B "error") kvs [] } := by
  unfold unmarshalParsed
  rw [hp]
  simp only [foldl_storeMember_wellTyped kvs {} h]
  rfl

/-- The retryable flag of the default mapping. -/
theorem defaultErrorMapping_retryable (s : Int) (body : Bytes) :
    (defaultErrorMapping s body).Retryable = decide (s = 429 ∨ s ≥ 500) := by
  by_cases c : s = 429 ∨ s ≥ 500 <;> by_cases hb : body.length = 0
  · simp [defaultErrorMapping, c, hb]
  · cases hp : unmarshalParsed body with
    | none => simp [defaultErrorMapping, c, hb, hp]
    | some p =>
      by_cases c1 : p.Code = [] <;> by_cases c2 : p.Message = [] <;> by_cases c3 : p.Error = [] <;>
        simp [defaultErrorMapping, c, hb, hp, c1, c2, c3]
  · simp [defaultErrorMapping, c, hb]
  · cases hp : unmarshalParsed body with
    | none => simp [defaultErrorMapping, c, hb, hp]
    | some p =>
      by_cases c1 : p.Code = [] <;> by_cases c2 : p.Message = [] <;> by_cases c3 : p.Error = [] <;>
        simp [defaultErrorMapping, c, hb, hp, c1, c2, c3]

/-- Code and message of the default mapping when the body is empty or
`json.Unmarshal` fails. -/
theorem defaultErrorMapping_plain (s : Int) (body : Bytes)
    (h : body.length = 0 ∨ unmarshalParsed body = none) :
    (defaultErrorMapping s body).Code = StatusText s ∧
      (defaultErrorMapping s body).Message = StatusText s := by
  by_cases c : s = 429 ∨ s ≥ 500 <;> by_cases hb : body.length = 0
  · simp [defaultErrorMapping, c, hb]
  · have hp : unmarshalParsed body = none := h.resolve_left hb
    simp [defaultErrorMapping, c, hb, hp]
  · simp [defaultErrorMapping, c, hb]
  · have hp : unmarshalParsed body = none := h.resolve_left hb
    simp [defaultErrorMapping, c, hb, hp]

/-- Code and message of the default mapping when the body is not empty and
`json.Unmarshal` succeeds with `p`. -/
theorem defaultErrorMapping_parsed (s : Int) (body : Bytes) (p : parsedBody)
    (hb : ¬ body.length = 0) (hp : unmarshalParsed body = some p) :
    (defaultErrorMapping s body).Code = (if p.Code ≠ [] then p.Code else StatusText s) ∧
      (defaultErrorMapping s body).Message
        = (if p.Message ≠ [] then p.Message
           else if p.Error ≠ [] then p.Error else StatusText s) := by
  by_cases c : s = 429 ∨ s ≥ 500 <;>
    by_cases c1 : p.Code = [] <;> by_cases c2 : p.Message = [] <;> by_cases c3 : p.Error = [] <;>
    simp [defaultErrorMapping, c, hb, hp, c1, c2, c3]

/-- C8, as stated, fails on three bodies that are non-empty JSON with string
fields: a `code` string next to a `message` of another type does not replace
the code, an empty `code` string does not replace it either, and an `error`
string replaces the message although a `message` (the empty string) is
given. -/
theorem C8_counterexample :
    jsonValid (B "\x7b\"code\":\"bad_input\",\"message\":5\x7d") = true ∧
      (defaultErrorMapping 400 (B "\x7b\"code\":\"bad_input\",\"message\":5\x7d")).Code
        = B "Bad Request" ∧
      (defaultErrorMapping 400 (B "\x7b\"code\":\"\"\x7d")).Code = B "Bad Request" ∧
      (defaultErrorMapping 400 (B "\x7b\"message\":\"\",\"error\":\"boom\"\x7d")).Message
        = B "boom" := by
  decide

/-- C8 (amended): code and message of the default mapping are the status
text when the body is empty, is not JSON, is a JSON value other than an
object, or is an object in which a member for `code`, `message` or `error`
(keys matched without regard to case) is neither a string nor `null`.  For
any other object, a non-empty `code` string replaces the code, a non-empty
`message` string replaces the message, and a non-empty `error` string
replaces the message when there is no non-empty `message` string.  Status 404
with an empty body gives `Not Found` twice, and the body of
`TestBuildErrorEnvelopeDefault` gives `bad_input` and `Invalid email`. -/
theorem C8_default_mapping (s : Int) (body : Bytes) :
    (body = [] ∨ jsonValid body = false →
        (defaultErrorMapping s body).Code = StatusText s ∧
        (defaultErrorMapping s body).Message = StatusText s) ∧
      (∀ v, jsonParse body = some v → (∀ kvs, v ≠ .obj kvs) →
        (defaultErrorMapping s body).Code = StatusText s ∧
        (defaultErrorMapping s body).Message = StatusText s) ∧
      (∀ kvs kv, jsonParse body = some (.obj kvs) → kv ∈ kvs → isFieldKey kv.1 = true →
        kv.2.isStringOrNull = false →
        (defaultErrorMapping s body).Code = StatusText s ∧
        (defaultErrorMapping s body).Message = StatusText s) ∧
      (∀ kvs, jsonParse body = some (.obj kvs) → wellTyped kvs = true →
        (defaultErrorMapping s body).Code
          = (if lastString (B "code") kvs [] ≠ [] then lastString (B "code") kvs []
             else StatusText s) ∧
        (defaultErrorMapping s body).Message
          = (if lastString (B "message") kvs [] ≠ [] then lastString (B "message") kvs []
             else if lastString (B "error") kvs [] ≠ [] then lastString (B "error") kvs []
             else StatusText s)) ∧
      ((defaultErrorMapping 404 []).Code = B "Not Found" ∧
        (defaultErrorMapping 404 []).Message = B "Not Found") ∧
      ((defaultErrorMapping 400 (B "\x7b\"code\":\"bad_input\",\"message\":\"Invalid email\"\x7d")).Code
          = B "bad_input" ∧
        (defaultErrorMapping 400
            (B "\x7b\"code\":\"bad_input\",\"message\":\"Invalid email\"\x7d")).Message
          = B "Invalid email") ∧
      (defaultErrorMapping 500 (B "\x7b\"message\":\"m\",\"error\":\"e\"\x7d")).Message = B "m" ∧
      (defaultErrorMapping 500 (B "\x7b\"error\":\"Something went wrong\"\x7d")).Message
        = B "Something went wrong" ∧
      (defaultErrorMapping 400 (B "not json")).Message = B "Bad Request" := by
  have hempty : ∀ v, jsonParse body = some v → ¬ body.length = 0 := by
    intro v hv e
    rw [List.length_eq_zero.mp e] at hv
    have hnone : jsonParse [] = none := rfl
    rw [hnone] at hv
    cases hv
  refine ⟨?_, ?_, ?_, ?_, by decide, by decide, by decide, by decide, by decide⟩
  · intro h
    refine defaultErrorMapping_plain s body ?_
    rcases h with h | h
    · exact Or.inl (by rw [h]; rfl)
    · refine Or.inr ?_
      have hp : jsonParse body = none := by
        cases e : jsonParse body with
        | none => rfl
        | some v => simp [jsonValid, e] at h
      simp [unmarshalParsed, hp]
  · intro v hv hn
    cases v with
    | obj kvs => exact absurd rfl (hn kvs)
    | null =>
      have hp : unmarshalParsed body = some {} := by
        unfold unmarshalParsed
        rw [hv]
      have f := defaultErrorMapping_parsed s body {} (hempty _ hv) hp
      simpa using f
    | bool b =>
      exact defaultErrorMapping_plain s body
        (Or.inr ((unmarshalParsed_none body).1 _ hv rfl))
    | num =>
      exact defaultErrorMapping_plain s body
        (Or.inr ((unmarshalParsed_none body).1 _ hv rfl))
    | str x =>
      exact defaultErrorMapping_plain s body
        (Or.inr ((unmarshalParsed_none body).1 _ hv rfl))
    | arr xs =>
      exact defaultErrorMapping_plain s body
        (Or.inr ((unmarshalParsed_none body).1 _ hv rfl))
  · intro kvs kv hp hm hk hv
    exact defaultErrorMapping_plain s body
      (Or.inr ((unmarshalParsed_none body).2 kvs kv hp hm hk hv))
  · intro kvs hp hwt
    exact defaultErrorMapping_parsed s body _ (hempty _ hp)
      (unmarshalParsed_wellTyped body kvs hp hwt)

/-- C9: the default mapping marks a status retryable exactly when it is 429
or at least 500, whatever the body; status 600 is therefore marked retryable
although it is neither 429 nor a 5xx status. -/
theorem C9_retryable (s : Int) (body : Bytes) :
    ((defaultErrorMapping s body).Retryable = true ↔ (s = 429 ∨ 500 ≤ s)) ∧
      (defaultErrorMapping 600 body).Retryable = true ∧
      ¬ ((600 : Int) = 429 ∨ ((500 : Int) ≤ 600 ∧ (600 : Int) ≤ 599)) := by
  refine ⟨?_, ?_, by decide⟩
  · rw [defaultErrorMapping_retryable s body]
    simp
  · rw [defaultErrorMapping_retryable 600 body]
    decide

/-- C10: with a mapper that returns a `HACError`, the envelope's error is
that value unchanged; with no mapper, or a mapper that returns nil, it is
`defaultErrorMapping(status, body)`; `buildErrorEnvelope` never returns an
error. -/
theorem C10_mapper (s : Int) (body : Bytes) (r : Request) :
    (∀ (m : ErrorMapper) (e : HACError), m s body r = some e →
        buildErrorEnvelope s body r (some m) = .ok { Error := some e }) ∧
      (∀ m : ErrorMapper, m s body r = none →
        buildErrorEnvelope s body r (some m)
          = .ok { Error := some (defaultErrorMapping s body) }) ∧
      buildErrorEnvelope s body r none = .ok { Error := some (defaultErrorMapping s body) } ∧
      (∀ mapper : Option ErrorMapper, ∃ env, buildErrorEnvelope s body r mapper = .ok env) := by
  refine ⟨?_, ?_, rfl, ?_⟩
  · intro m e h
    simp only [buildErrorEnvelope, h]
  · intro m h
    simp only [buildErrorEnvelope, h]
  · intro mapper
    exact ⟨_, buildErrorEnvelope_ok s body r mapper⟩

/-! ### The registry -/

theorem mapSet_mapSet {K V : Type} [DecidableEq K] (m : List (K × V)) (k : K) (v₁ v₂ : V) :
    mapSet (mapSet m k v₁) k v₂ = mapSet m k v₂ := by
  induction m with
  | nil => simp [mapSet]
  | cons e m ih =>
    obtain ⟨k', v'⟩ := e
    by_cases h : k' = k
    · simp [mapSet, h]
    · simp [mapSet, h, ih]

theorem Lookup_Register (b : RouteBuilder) (reg : Registry) (M P : Bytes) :
    (b.Register reg).Lookup M P =
      if b.method = M ∧ b.pattern = P then
        some { Description := b.description, Actions := b.actions, Related := b.related }
      else reg.Lookup M P := by
  simp only [RouteBuilder.Register, Registry.Lookup, mapGet_mapSet]
  by_cases h : b.method = M ∧ b.pattern = P
  · rw [if_pos h, if_pos (by rw [h.1, h.2])]
  · rw [if_neg h, if_neg]
    intro hk
    injection hk with h1 h2
    exact h ⟨h1, h2⟩

theorem Lookup_registerAll_other (bs : List RouteBuilder) (reg : Registry) (M P : Bytes)
    (h : ∀ b ∈ bs, ¬(b.method = M ∧ b.pattern = P)) :
    (registerAll bs reg).Lookup M P = reg.Lookup M P := by
  induction bs generalizing reg with
  | nil => rfl
  | cons b bs ih =>
    show (registerAll bs (b.Register reg)).Lookup M P = _
    rw [ih _ (fun b' hb' => h b' (List.mem_cons_of_mem _ hb')), Lookup_Register,
      if_neg (h b (List.mem_cons_self _ _))]

/-- C11: committing a builder with `Register` under `(M, P)`, whether it was
started with `Route(M, P)` or with one of the helpers `Get`, `Post`, `Put`,
`Patch`, `Delete` (whose methods are `GET`, `POST`, `PUT`, `PATCH`,
`DELETE`), makes `Lookup(M, P)` return a configuration with the builder's
description, actions and related resources, whatever the registry held
before; `Lookup` on a new registry, and more generally of a key that none of
the builders registered so far was committed under, returns `nil`. -/
theorem C11_round_trip (reg : Registry) (M P d : Bytes) (a : List Action)
    (r : List RelatedResource) :
    (∀ b : RouteBuilder, (b.Register reg).Lookup b.method b.pattern =
        some { Description := b.description, Actions := b.actions, Related := b.related })
    ∧ (((((Registry.Route M P).Description d).Actions a).Related r).Register reg).Lookup M P =
        some { Description := d, Actions := a, Related := r }
    ∧ (((((Registry.Get P).Description d).Actions a).Related r).Register reg).Lookup (B "GET") P =
        some { Description := d, Actions := a, Related := r }
    ∧ (((((Registry.Post P).Description d).Actions a).Related r).Register reg).Lookup (B "POST") P =
        some { Description := d, Actions := a, Related := r }
    ∧ (((((Registry.Put P).Description d).Actions a).Related r).Register reg).Lookup (B "PUT") P =
        some { Description := d, Actions := a, Related := r }
    ∧ (((((Registry.Patch P).Description d).Actions a).Related r).Register reg).Lookup (B "PATCH") P =
        some { Description := d, Actions := a, Related := r }
    ∧ (((((Registry.Delete P).Description d).Actions a).Related r).Register reg).Lookup
          (B "DELETE") P =
        some { Description := d, Actions := a, Related := r }
    ∧ NewRegistry.Lookup M P = none
    ∧ (∀ bs : List RouteBuilder, (∀ b ∈ bs, ¬(b.method = M ∧ b.pattern = P)) →
        (registerAll bs NewRegistry).Lookup M P = none) := by
  refine ⟨fun b => ?_, ?_, ?_, ?_, ?_, ?_, ?_, rfl, fun bs h => ?_⟩
  · rw [Lookup_Register, if_pos ⟨rfl, rfl⟩]
  · rw [Lookup_Register, if_pos ⟨rfl, rfl⟩]; rfl
  · rw [Lookup_Register, if_pos ⟨rfl, rfl⟩]; rfl
  · rw [Lookup_Register, if_pos ⟨rfl, rfl⟩]; rfl
  · rw [Lookup_Register, if_pos ⟨rfl, rfl⟩]; rfl
  · rw [Lookup_Register, if_pos ⟨rfl, rfl⟩]; rfl
  · rw [Lookup_Register, if_pos ⟨rfl, rfl⟩]; rfl
  · rw [Lookup_registerAll_other bs _ M P h]; rfl

/-- Witness for C11, on the data of `TestRegistryLookup` and
`TestRegistryLookupMiss`: `GET /users/\x7bid\x7d` registered with a
description is found again, and `GET /nonexistent` is absent from the
registry of `TestAutoDiscovery`. -/
theorem C11_round_trip_witness :
    (((((Registry.Get (B "/users/\x7bid\x7d")).Description (B "Get a user by ID.")).Actions
        []).Related []).Register NewRegistry).Lookup (B "GET") (B "/users/\x7bid\x7d") =
      some { Description := B "Get a user by ID.", Actions := [], Related := [] }
    ∧ usersRegistry.Lookup (B "GET") (B "/nonexistent") = none :=
  ⟨(C11_round_trip NewRegistry (B "GET") (B "/users/\x7bid\x7d") (B "Get a user by ID.") []
      []).2.2.1,
    (C11_round_trip NewRegistry (B "GET") (B "/nonexistent") [] [] []).2.2.2.2.2.2.2.2 _
      (by decide)⟩

/-- C12: registering `c1` and then `c2` under the same key `(M, P)` leaves
`Lookup(M, P)` returning exactly the configuration of `c2`, and the registry
is the one that registering `c2` alone produces. -/
theorem C12_last_write_wins (reg : Registry) (c1 c2 : RouteBuilder)
    (hm : c1.method = c2.method) (hp : c1.pattern = c2.pattern) :
    (c2.Register (c1.Register reg)).Lookup c2.method c2.pattern =
        some { Description := c2.description, Actions := c2.actions, Related := c2.related }
    ∧ c2.Register (c1.Register reg) = c2.Register reg := by
  refine ⟨by rw [Lookup_Register, if_pos ⟨rfl, rfl⟩], ?_⟩
  simp only [RouteBuilder.Register, hm, hp, mapSet_mapSet]

/-- Witness for C12: `GET /users` registered with a description and then
again with an empty builder. -/
theorem C12_last_write_wins_witness :
    ((Registry.Get (B "/users")).Register
        (((Registry.Get (B "/users")).Description (B "First.")).Register NewRegistry)).Lookup
          (B "GET") (B "/users") =
        some { Description := [], Actions := [], Related := [] }
    ∧ (Registry.Get (B "/users")).Register
        (((Registry.Get (B "/users")).Description (B "First.")).Register NewRegistry) =
      (Registry.Get (B "/users")).Register NewRegistry :=
  C12_last_write_wins NewRegistry ((Registry.Get (B "/users")).Description (B "First."))
    (Registry.Get (B "/users")) rfl rfl

/-! ### Accept headers -/

theorem hacOnlyLoop_iff (l : List mediaRange) (hasHAC : Bool) :
    hacOnlyLoop l hasHAC = true ↔
      (hasHAC = true ∨ ∃ mr ∈ l, matchesHAC mr = true ∧ mr.quality.gtZero = true) ∧
      (∀ mr ∈ l, matchesHAC mr = false → mr.quality.gtZero = false) := by
  induction l generalizing hasHAC with
  | nil => simp [hacOnlyLoop]
  | cons mr rest ih =>
    unfold hacOnlyLoop
    by_cases hm : matchesHAC mr = true
    · rw [if_pos hm, ih]
      by_cases hq : mr.quality.gtZero = true
      · simp [hm, hq]
      · simp [hm, hq]
    · rw [if_neg hm]
      by_cases hq : mr.quality.gtZero = true
      · rw [if_pos hq]
        simp only [Bool.not_eq_true] at hm
        simp [hm, hq]
      · rw [if_neg hq, ih]
        simp only [Bool.not_eq_true] at hm hq
        simp [hm, hq]

theorem hacIsOnlyAcceptable_iff (h : Bytes) :
    hacIsOnlyAcceptable h = true ↔
      (∃ mr ∈ parseAccept h, matchesHAC mr = true ∧ mr.quality.gtZero = true) ∧
      (∀ mr ∈ parseAccept h, matchesHAC mr = false → mr.quality.gtZero = false) := by
  unfold hacIsOnlyAcceptable
  by_cases hl : (parseAccept h).length = 0
  · have hnil : parseAccept h = [] := List.length_eq_zero.mp hl
    simp [hnil]
  · simp only [hl, if_false, hacOnlyLoop_iff]
    simp

/-- Counterexample for C13: with the header
`application/vnd.hac+json, application/json;q=-1` the range
`application/json` does not match the HAC media type and its quality, `-1`,
is not `0`, yet `hacIsOnlyAcceptable` is true. -/
theorem C13_counterexample :
    parseAccept (B "application/vnd.hac+json, application/json;q=-1") =
        [{ typ := B "application", subtype := B "vnd.hac+json", quality := Float64.one },
         { typ := B "application", subtype := B "json",
           quality := .fin true 4503599627370496 (-52) }]
    ∧ hacIsOnlyAcceptable (B "application/vnd.hac+json, application/json;q=-1") = true
    ∧ ¬ (∀ mr ∈ parseAccept (B "application/vnd.hac+json, application/json;q=-1"),
          matchesHAC mr = false → mr.quality.eqZero = true) := by
  decide

/-- C13 (amended): `hacIsOnlyAcceptable(h)` is true if and only if some parsed
range matches the HAC media type with quality `> 0` and no parsed range that
does not match it has quality `> 0` (such a range may have quality `0`, a
negative quality or NaN); the five sample headers give true, false,
true, false and false. -/
theorem C13_only_acceptable (h : Bytes) :
    (hacIsOnlyAcceptable h = true ↔
      (∃ mr ∈ parseAccept h, matchesHAC mr = true ∧ mr.quality.gtZero = true) ∧
      (∀ mr ∈ parseAccept h, matchesHAC mr = false → mr.quality.gtZero = false))
    ∧ (∀ q : Float64, q.eqZero = true → q.gtZero = false)
    ∧ hacIsOnlyAcceptable (B "application/vnd.hac+json") = true
    ∧ hacIsOnlyAcceptable (B "application/vnd.hac+json, application/json;q=0.9") = false
    ∧ hacIsOnlyAcceptable (B "application/vnd.hac+json, application/json;q=0") = true
    ∧ hacIsOnlyAcceptable (B "application/json") = false
    ∧ hacIsOnlyAcceptable [] = false := by
  refine ⟨hacIsOnlyAcceptable_iff h, ?_, by decide, by decide, by decide, by decide, by decide⟩
  intro q hq
  cases q with
  | nan => rfl
  | inf neg => simp [Float64.eqZero] at hq
  | fin neg m e =>
    simp only [Float64.eqZero, beq_iff_eq] at hq
    simp [Float64.gtZero, hq]

theorem matchesHAC_iff (mr : mediaRange) :
    matchesHAC mr = true ↔ mr.typ = B "application" ∧ mr.subtype = B "vnd.hac+json" := by
  simp [matchesHAC]

theorem isWildcard_not_matchesHAC (mr : mediaRange) (h : isWildcard mr = true) :
    matchesHAC mr = false := by
  cases hm : matchesHAC mr with
  | false => rfl
  | true =>
    exfalso
    have hs := ((matchesHAC_iff mr).mp hm).2
    simp only [isWildcard, Bool.and_eq_true, decide_eq_true_eq] at h
    rw [hs] at h
    exact absurd h.1 (by decide)

/-- C14: matching is on the exact type `application` and the exact subtype
`vnd.hac+json`; a header all of whose parsed ranges are wildcards (`*/*` or
`application/*`, whatever their parameters) gives `wantsHAC` false and
`hacIsOnlyAcceptable` false. -/
theorem C14_wildcards (h : Bytes) (hw : ∀ mr ∈ parseAccept h, isWildcard mr = true) :
    wantsHAC h = false ∧ hacIsOnlyAcceptable h = false
    ∧ (∀ mr : mediaRange,
        matchesHAC mr = true ↔ mr.typ = B "application" ∧ mr.subtype = B "vnd.hac+json") := by
  refine ⟨?_, ?_, matchesHAC_iff⟩
  · unfold wantsHAC
    rw [List.any_eq_false]
    intro mr hmr
    simp [isWildcard_not_matchesHAC mr (hw mr hmr)]
  · cases ho : hacIsOnlyAcceptable h with
    | false => rfl
    | true =>
      exfalso
      obtain ⟨⟨mr, hmr, hm, _⟩, _⟩ := (hacIsOnlyAcceptable_iff h).mp ho
      rw [isWildcard_not_matchesHAC mr (hw mr hmr)] at hm
      exact absurd hm (by decide)

/-- Witness for C14: the header `*/*, application/*;q=0.5`, whose two ranges
are wildcards. -/
theorem C14_wildcards_witness :
    (∀ mr ∈ parseAccept (B "*/*, application/*;q=0.5"), isWildcard mr = true)
    ∧ (parseAccept (B "*/*, application/*;q=0.5")).length = 2
    ∧ wantsHAC (B "*/*, application/*;q=0.5") = false
    ∧ hacIsOnlyAcceptable (B "*/*, application/*;q=0.5") = false :=
  ⟨by decide, by decide,
    (C14_wildcards (B "*/*, application/*;q=0.5") (by decide)).1,
    (C14_wildcards (B "*/*, application/*;q=0.5") (by decide)).2.1⟩

theorem applyParam_typ (mr : mediaRange) (param : Bytes) :
    (applyParam mr param).typ = mr.typ ∧ (applyParam mr param).subtype = mr.subtype := by
  unfold applyParam
  dsimp only
  split
  · split <;> exact ⟨rfl, rfl⟩
  · exact ⟨rfl, rfl⟩

theorem foldl_applyParam_typ (params : List Bytes) (mr : mediaRange) :
    (params.foldl applyParam mr).typ = mr.typ ∧
      (params.foldl applyParam mr).subtype = mr.subtype := by
  induction params generalizing mr with
  | nil => exact ⟨rfl, rfl⟩
  | cons p ps ih =>
    rw [List.foldl_cons, (ih _).1, (ih _).2]
    exact applyParam_typ mr p

theorem parseMediaRange_wellFormed (s : Bytes) (h : wellFormedEntry s = true) :
    (parseMediaRange s).typ ≠ [] ∧ (parseMediaRange s).subtype ≠ [] := by
  simp only [wellFormedEntry, Bool.and_eq_true, decide_eq_true_eq] at h
  obtain ⟨⟨h1, h2⟩, h3⟩ := h
  unfold parseMediaRange
  dsimp only
  rw [if_neg (by omega), if_neg (by rintro (h | h); exact h2 h; exact h3 h)]
  rw [(foldl_applyParam_typ _ _).1, (foldl_applyParam_typ _ _).2]
  exact ⟨h2, h3⟩

theorem parseMediaRange_malformed (s : Bytes) (h : wellFormedEntry s = false) :
    parseMediaRange s = mediaRange.empty := by
  unfold parseMediaRange
  dsimp only
  split
  · rfl
  · rename_i hs
    split
    · rfl
    · rename_i ht
      exfalso
      have : wellFormedEntry s = true := by
        simp only [wellFormedEntry, Bool.and_eq_true, decide_eq_true_eq]
        push_neg at ht
        exact ⟨⟨by omega, ht.1⟩, ht.2⟩
      rw [h] at this
      exact absurd this (by decide)

theorem parseMediaRange_typ_iff (s : Bytes) :
    decide ((parseMediaRange s).typ ≠ []) = wellFormedEntry s := by
  cases h : wellFormedEntry s with
  | true => simpa using (parseMediaRange_wellFormed s h).1
  | false => rw [parseMediaRange_malformed s h]; rfl

theorem parseAccept_eq (header : Bytes) :
    parseAccept header =
      (((splitByte 0x2C header).map TrimSpace).filter wellFormedEntry).map parseMediaRange := by
  unfold parseAccept
  split
  · rename_i h
    subst h
    decide
  · simp only [List.filter_map, List.map_map]
    have hf : ((fun mr : mediaRange => decide (mr.typ ≠ [])) ∘
        fun part => parseMediaRange (TrimSpace part)) = wellFormedEntry ∘ TrimSpace := by
      funext part
      exact parseMediaRange_typ_iff _
    rw [hf]
    rfl

theorem IndexByte_of_not_mem (c : UInt8) (s : Bytes) (h : c ∉ s) : IndexByte c s = -1 := by
  induction s with
  | nil => rfl
  | cons b bs ih =>
    have hb : b ≠ c := fun e => h (e ▸ List.mem_cons_self _ _)
    have hbs : c ∉ bs := fun e => h (List.mem_cons_of_mem _ e)
    simp [IndexByte, hb, ih hbs]

theorem mem_of_mem_trimLeftSpace (fuel : Nat) (s : Bytes) (x : UInt8)
    (h : x ∈ trimLeftSpace fuel s) : x ∈ s := by
  induction fuel generalizing s with
  | zero => exact h
  | succ n ih =>
    unfold trimLeftSpace at h
    cases s with
    | nil => exact h
    | cons c cs =>
      dsimp only at h
      split at h
      · exact List.mem_of_mem_drop (ih _ h)
      · exact h

theorem mem_of_mem_trimRightSpace (fuel : Nat) (s : Bytes) (x : UInt8)
    (h : x ∈ trimRightSpace fuel s) : x ∈ s := by
  induction fuel generalizing s with
  | zero => exact h
  | succ n ih =>
    unfold trimRightSpace at h
    cases s with
    | nil => exact h
    | cons c cs =>
      dsimp only at h
      split at h
      · exact List.mem_of_mem_take (ih _ h)
      · exact h

theorem mem_of_mem_TrimSpace (s : Bytes) (x : UInt8) (h : x ∈ TrimSpace s) : x ∈ s :=
  mem_of_mem_trimLeftSpace _ _ _ (mem_of_mem_trimRightSpace _ _ _ h)

theorem splitByte_ne_nil (sep : UInt8) (s : Bytes) : splitByte sep s ≠ [] := by
  induction s with
  | nil => simp [splitByte]
  | cons c cs ih =>
    unfold splitByte
    split
    · simp
    · cases h : splitByte sep cs with
      | nil => exact absurd h ih
      | cons p ps => simp

theorem mem_of_mem_splitByte_head (sep : UInt8) (s : Bytes) (x : UInt8)
    (h : x ∈ (splitByte sep s).headD []) : x ∈ s := by
  induction s with
  | nil => simp [splitByte] at h
  | cons c cs ih =>
    unfold splitByte at h
    split at h
    · simp at h
    · cases hs : splitByte sep cs with
      | nil => exact absurd hs (splitByte_ne_nil sep cs)
      | cons p ps =>
        rw [hs] at h ih
        simp only [List.headD_cons, List.mem_cons] at h ih
        rcases h with h | h
        · exact h ▸ List.mem_cons_self _ _
        · exact List.mem_cons_of_mem _ (ih h)

theorem parseMediaRange_no_slash (s : Bytes) (h : (0x2F : UInt8) ∉ s) :
    parseMediaRange s = mediaRange.empty := by
  have hm : (0x2F : UInt8) ∉ TrimSpace ((splitByte 0x3B s).headD []) :=
    fun hx => h (mem_of_mem_splitByte_head _ _ _ (mem_of_mem_TrimSpace _ _ hx))
  unfold parseMediaRange
  dsimp only
  rw [IndexByte_of_not_mem _ _ hm, if_pos (by decide)]

theorem splitByte_of_not_mem (sep : UInt8) (e : Bytes) (h : sep ∉ e) : splitByte sep e = [e] := by
  induction e with
  | nil => rfl
  | cons c cs ih =>
    have hc : c ≠ sep := fun e => h (e ▸ List.mem_cons_self _ _)
    have hcs : sep ∉ cs := fun e => h (List.mem_cons_of_mem _ e)
    simp [splitByte, hc, ih hcs]

theorem splitByte_append (sep : UInt8) (e rest : Bytes) (h : sep ∉ e) :
    splitByte sep (e ++ sep :: rest) = e :: splitByte sep rest := by
  induction e with
  | nil => simp [splitByte]
  | cons c cs ih =>
    have hc : c ≠ sep := fun e => h (e ▸ List.mem_cons_self _ _)
    have hcs : sep ∉ cs := fun e => h (List.mem_cons_of_mem _ e)
    simp [splitByte, hc, ih hcs]

theorem splitByte_Join (sep : UInt8) (es : List Bytes) (hne : es ≠ [])
    (h : ∀ e ∈ es, sep ∉ e) : splitByte sep (Join [sep] es) = es := by
  induction es with
  | nil => exact absurd rfl hne
  | cons e es ih =>
    cases es with
    | nil => exact splitByte_of_not_mem sep e (h e (List.mem_cons_self _ _))
    | cons e' es =>
      show splitByte sep (e ++ [sep] ++ Join [sep] (e' :: es)) = _
      rw [List.append_assoc, List.singleton_append,
        splitByte_append sep e _ (h e (List.mem_cons_self _ _)),
        ih (by simp) (fun x hx => h x (List.mem_cons_of_mem _ hx))]

theorem parseAccept_Join (es : List Bytes) (h : ∀ e ∈ es, (0x2C : UInt8) ∉ e) :
    parseAccept (Join (B ",") es) =
      ((es.map TrimSpace).filter wellFormedEntry).map parseMediaRange := by
  cases es with
  | nil => decide
  | cons e es =>
    rw [parseAccept_eq]
    have : B "," = [(0x2C : UInt8)] := by decide
    rw [this, splitByte_Join _ _ (by simp) h]

/-- C15: `parseAccept` returns, in order, the range of every comma-separated
entry that is well formed once trimmed (its media type, the part before the
first `;`, has a `/` with a non-empty type before it and a non-empty subtype
after it, each trimmed) and nothing for the other entries; so the result has
one range per well-formed entry, every returned range has a non-empty type and
a non-empty subtype, and a header made of the entries `es` yields the same
ranges as the header made of the well-formed entries of `es` alone.
`parseMediaRange` of an entry without `/`, such as `not-a-media-type`, is the
empty range. -/
theorem C15_parseAccept (header : Bytes) :
    parseAccept header =
        (((splitByte 0x2C header).map TrimSpace).filter wellFormedEntry).map parseMediaRange
    ∧ (parseAccept header).length =
        (((splitByte 0x2C header).map TrimSpace).filter wellFormedEntry).length
    ∧ (∀ mr ∈ parseAccept header, mr.typ ≠ [] ∧ mr.subtype ≠ [])
    ∧ (∀ entry : Bytes, wellFormedEntry entry = false → parseMediaRange entry = mediaRange.empty)
    ∧ (∀ es : List Bytes, (∀ e ∈ es, (0x2C : UInt8) ∉ e) →
        parseAccept (Join (B ",") es) =
          parseAccept (Join (B ",") (es.filter (fun e => wellFormedEntry (TrimSpace e)))))
    ∧ (∀ s : Bytes, (0x2F : UInt8) ∉ s → parseMediaRange s = mediaRange.empty)
    ∧ parseMediaRange (B "not-a-media-type") = mediaRange.empty := by
  refine ⟨parseAccept_eq header, ?_, ?_, parseMediaRange_malformed, ?_,
    parseMediaRange_no_slash, by decide⟩
  · rw [parseAccept_eq, List.length_map]
  · intro mr hmr
    rw [parseAccept_eq, List.mem_map] at hmr
    obtain ⟨s, hs, rfl⟩ := hmr
    exact parseMediaRange_wellFormed s (List.mem_filter.mp hs).2
  · intro es h
    rw [parseAccept_Join es h,
      parseAccept_Join _ (fun e he => h e (List.mem_filter.mp he).1)]
    congr 1
    rw [List.filter_map, List.filter_map, List.filter_filter]
    congr 1
    apply List.filter_congr
    intro x _
    simp

/-- A sample for C15: the header `text/html, bogus, */*;q=0.1`
yields the ranges of `text/html, */*;q=0.1`. -/
theorem C15_sample :
    parseAccept (B "text/html, bogus, */*;q=0.1") = parseAccept (B "text/html, */*;q=0.1")
    ∧ (parseAccept (B "text/html, bogus, */*;q=0.1")).length = 2 := by
  decide

/-! ### The order of strings and sorting -/

theorem lessBytes_irrefl (a : Bytes) : lessBytes a a = false := by
  induction a with
  | nil => rfl
  | cons x xs ih => simp [lessBytes, ih]

theorem lessBytes_trans (a b c : Bytes) (hab : lessBytes a b = true)
    (hbc : lessBytes b c = true) : lessBytes a c = true := by
  induction a generalizing b c with
  | nil =>
    cases c with
    | nil => cases b <;> simp [lessBytes] at hbc
    | cons z zs => rfl
  | cons x xs ih =>
    cases b with
    | nil => simp [lessBytes] at hab
    | cons y ys =>
      cases c with
      | nil => simp [lessBytes] at hbc
      | cons z zs =>
        simp only [lessBytes] at hab hbc ⊢
        by_cases h1 : x.toNat < y.toNat
        · by_cases h2 : y.toNat < z.toNat
          · rw [if_pos (by omega)]
          · rw [if_neg h2] at hbc
            by_cases h3 : z.toNat < y.toNat
            · rw [if_pos h3] at hbc; exact absurd hbc (by decide)
            · rw [if_pos (by omega)]
        · rw [if_neg h1] at hab
          by_cases h1' : y.toNat < x.toNat
          · rw [if_pos h1'] at hab; exact absurd hab (by decide)
          · rw [if_neg h1'] at hab
            by_cases h2 : y.toNat < z.toNat
            · rw [if_pos (by omega)]
            · rw [if_neg h2] at hbc
              by_cases h3 : z.toNat < y.toNat
              · rw [if_pos h3] at hbc; exact absurd hbc (by decide)
              · rw [if_neg h3] at hbc
                rw [if_neg (by omega), if_neg (by omega)]
                exact ih ys zs hab hbc

theorem lessBytes_asymm (a b : Bytes) (hab : lessBytes a b = true) : lessBytes b a = false := by
  cases h : lessBytes b a with
  | false => rfl
  | true =>
    have := lessBytes_trans a b a hab h
    rw [lessBytes_irrefl] at this
    exact absurd this (by decide)

theorem lessBytes_connex (a b : Bytes) (hab : lessBytes a b = false)
    (hba : lessBytes b a = false) : a = b := by
  induction a generalizing b with
  | nil =>
    cases b with
    | nil => rfl
    | cons y ys => simp [lessBytes] at hab
  | cons x xs ih =>
    cases b with
    | nil => simp [lessBytes] at hba
    | cons y ys =>
      simp only [lessBytes] at hab hba
      by_cases h1 : x.toNat < y.toNat
      · rw [if_pos h1] at hab; exact absurd hab (by decide)
      · by_cases h2 : y.toNat < x.toNat
        · rw [if_pos h2] at hba; exact absurd hba (by decide)
        · rw [if_neg h1, if_neg h2] at hab
          rw [if_neg h2, if_neg h1] at hba
          have hxy : x = y := UInt8.ext (by omega)
          rw [hxy, ih ys hab hba]

theorem leBytes_total (a b : Bytes) : leBytes a b ∨ leBytes b a := by
  unfold leBytes
  cases h : lessBytes b a with
  | false => exact Or.inl rfl
  | true => exact Or.inr (lessBytes_asymm b a h)

theorem leBytes_trans (a b c : Bytes) (hab : leBytes a b) (hbc : leBytes b c) : leBytes a c := by
  unfold leBytes at *
  cases h : lessBytes c a with
  | false => rfl
  | true =>
    exfalso
    cases h' : lessBytes a b with
    | true =>
      have := lessBytes_trans c a b h h'
      rw [hbc] at this
      exact absurd this (by decide)
    | false =>
      have hab' : a = b := lessBytes_connex a b h' hab
      rw [hab', hbc] at h
      exact absurd h (by decide)

theorem leBytes_antisymm (a b : Bytes) (hab : leBytes a b) (hba : leBytes b a) : a = b :=
  lessBytes_connex a b hba hab

theorem sortStrings_sorted (l : List Bytes) : (sortStrings l).Sorted leBytes :=
  @List.sorted_insertionSort _ leBytes _ ⟨leBytes_total⟩ ⟨leBytes_trans⟩ l

theorem sortStrings_perm (l : List Bytes) : (sortStrings l).Perm l :=
  List.perm_insertionSort leBytes l

theorem eq_of_perm_of_sorted {l₁ l₂ : List Bytes} (hp : l₁.Perm l₂) (h₁ : l₁.Sorted leBytes)
    (h₂ : l₂.Sorted leBytes) : l₁ = l₂ :=
  @List.eq_of_perm_of_sorted _ leBytes ⟨leBytes_antisymm⟩ _ _ hp h₁ h₂

theorem sortStrings_eq_of_perm {l₁ l₂ : List Bytes} (hp : l₁.Perm l₂) :
    sortStrings l₁ = sortStrings l₂ :=
  eq_of_perm_of_sorted ((sortStrings_perm l₁).trans (hp.trans (sortStrings_perm l₂).symm))
    (sortStrings_sorted l₁) (sortStrings_sorted l₂)

theorem sortByHref_sorted (l : List ResourceEntry) :
    (sortByHref l).Sorted (fun a b => leBytes a.Href b.Href) :=
  @List.sorted_insertionSort _ (fun a b : ResourceEntry => leBytes a.Href b.Href) _
    ⟨fun a b => leBytes_total a.Href b.Href⟩
    ⟨fun a b c => leBytes_trans a.Href b.Href c.Href⟩ l

theorem sortByHref_perm (l : List ResourceEntry) : (sortByHref l).Perm l :=
  List.perm_insertionSort _ l

/-- A list sorted by `<=` without repetition is sorted by `<`. -/
theorem sorted_lt_of_nodup {l : List Bytes} (hs : l.Sorted leBytes) (hn : l.Nodup) :
    l.Pairwise (fun a b => lessBytes a b = true) := by
  have := List.Pairwise.and hs hn
  refine this.imp ?_
  intro a b ⟨hle, hne⟩
  cases h : lessBytes a b with
  | true => rfl
  | false => exact absurd (lessBytes_connex a b h hle) hne

/-! ### `deriveRel` -/

theorem TrimPrefix_slash (pattern : Bytes) :
    TrimPrefix pattern (B "/") = if pattern.head? = some 0x2F then pattern.tail else pattern := by
  have hB : B "/" = [(0x2F : UInt8)] := by decide
  cases pattern with
  | nil => rw [hB]; rfl
  | cons c cs =>
    rw [hB]
    by_cases hc : c = 0x2F
    · subst hc
      simp [TrimPrefix, HasPrefix, List.isPrefixOf]
    · simp [TrimPrefix, HasPrefix, List.isPrefixOf, hc, Ne.symm hc]

theorem find_plain_TrimPrefix (pattern : Bytes) :
    (splitByte 0x2F (TrimPrefix pattern (B "/"))).find? isPlainSegment =
      (splitByte 0x2F pattern).find? isPlainSegment := by
  rw [TrimPrefix_slash]
  cases pattern with
  | nil => rfl
  | cons c cs =>
    by_cases hc : c = 0x2F
    · subst hc
      have : isPlainSegment [] = false := by decide
      simp [splitByte, this]
    · simp [hc]

theorem TrimPrefix_eq_nil (pattern : Bytes) :
    TrimPrefix pattern (B "/") = [] ↔ pattern = [] ∨ pattern = B "/" := by
  have hB : B "/" = [(0x2F : UInt8)] := by decide
  rw [TrimPrefix_slash, hB]
  cases pattern with
  | nil => simp
  | cons c cs =>
    by_cases hc : c = 0x2F
    · subst hc
      simp
    · simp [hc]

/-- Counterexample for C18: `/\x7bid\x7d` has no segment that is non-empty
and does not start with a brace, yet `deriveRel` returns `\x7bid\x7d` for it,
not `root`. -/
theorem C18_counterexample :
    (splitByte 0x2F (B "/\x7bid\x7d")).find? isPlainSegment = none
    ∧ deriveRel (B "/\x7bid\x7d") = B "\x7bid\x7d"
    ∧ deriveRel (B "/\x7bid\x7d") ≠ B "root" := by
  decide

/-- C18 (amended): `deriveRel` returns the first segment of the pattern (split
on `/`) that is non-empty and does not start with an opening brace; when
there is no such segment it returns `root` for the empty pattern and for
`/`, and otherwise the pattern without its leading `/` (so `\x7bid\x7d` for
`/\x7bid\x7d`). -/
theorem C18_deriveRel (pattern : Bytes) :
    deriveRel pattern =
        ((splitByte 0x2F pattern).find? isPlainSegment).getD
          (if pattern = [] ∨ pattern = B "/" then B "root" else TrimPrefix pattern (B "/"))
    ∧ (∀ p : Bytes, isPlainSegment p = true ↔ p ≠ [] ∧ p.head? ≠ some 0x7B)
    ∧ deriveRel (B "/users") = B "users"
    ∧ deriveRel (B "/users/\x7bid\x7d") = B "users"
    ∧ deriveRel (B "/orders/\x7bid\x7d/items") = B "orders"
    ∧ deriveRel [] = B "root"
    ∧ deriveRel (B "/") = B "root"
    ∧ deriveRel (B "/\x7bid\x7d") = B "\x7bid\x7d"
    ∧ deriveRel (B "/\x7bid\x7d/\x7bname\x7d") = B "\x7bid\x7d/\x7bname\x7d" := by
  refine ⟨?_, ?_, by decide, by decide, by decide, by decide, by decide, by decide, by decide⟩
  · unfold deriveRel
    dsimp only
    rw [find_plain_TrimPrefix]
    cases (splitByte 0x2F pattern).find? isPlainSegment with
    | some p => rfl
    | none =>
      simp only [Option.getD_none]
      by_cases h : TrimPrefix pattern (B "/") = []
      · rw [if_pos h, if_pos ((TrimPrefix_eq_nil pattern).mp h)]
      · rw [if_neg h, if_neg (fun h' => h ((TrimPrefix_eq_nil pattern).mpr h'))]
  · intro p
    have hB : B "\x7b" = [(0x7B : UInt8)] := by decide
    unfold isPlainSegment
    rw [hB]
    cases p with
    | nil => simp
    | cons c cs =>
      by_cases hc : c = 0x7B
      · subst hc
        simp [HasPrefix, List.isPrefixOf]
      · simp [HasPrefix, List.isPrefixOf, hc, Ne.symm hc]
/-! ### `AutoDiscovery` -/

theorem keys_mapSet {K V : Type} [DecidableEq K] (m : List (K × V)) (k : K) (v : V) :
    (mapSet m k v).map Prod.fst =
      if k ∈ m.map Prod.fst then m.map Prod.fst else m.map Prod.fst ++ [k] := by
  induction m with
  | nil => simp [mapSet]
  | cons e m ih =>
    obtain ⟨k', v'⟩ := e
    by_cases h : k' = k
    · subst h
      simp [mapSet]
    · have h' : ¬ k = k' := fun e => h e.symm
      by_cases hm : k ∈ m.map Prod.fst
      · rw [if_pos hm] at ih
        simp only [mapSet, if_neg h, List.map_cons, ih]
        rw [if_pos (List.mem_cons_of_mem _ hm)]
      · rw [if_neg hm] at ih
        simp only [mapSet, if_neg h, List.map_cons, ih]
        rw [if_neg (by simpa [h'] using hm)]
        rfl

theorem mem_keys_mapSet {K V : Type} [DecidableEq K] (m : List (K × V)) (k k' : K) (v : V) :
    k' ∈ (mapSet m k v).map Prod.fst ↔ k' = k ∨ k' ∈ m.map Prod.fst := by
  rw [keys_mapSet]
  by_cases hm : k ∈ m.map Prod.fst
  · rw [if_pos hm]
    constructor
    · exact Or.inr
    · rintro (h | h)
      · exact h ▸ hm
      · exact h
  · rw [if_neg hm, List.mem_append, List.mem_singleton]
    exact Or.comm

theorem nodup_keys_mapSet {K V : Type} [DecidableEq K] (m : List (K × V)) (k : K) (v : V)
    (h : (m.map Prod.fst).Nodup) : ((mapSet m k v).map Prod.fst).Nodup := by
  rw [keys_mapSet]
  by_cases hm : k ∈ m.map Prod.fst
  · rw [if_pos hm]; exact h
  · rw [if_neg hm]
    exact List.Nodup.append h (List.nodup_singleton k) (by simpa using hm)

theorem mapGet_of_mem {K V : Type} [DecidableEq K] (m : List (K × V)) (k : K) (v : V)
    (hn : (m.map Prod.fst).Nodup) (h : (k, v) ∈ m) : mapGet m k = some v := by
  induction m with
  | nil => simp at h
  | cons e m ih =>
    obtain ⟨k', v'⟩ := e
    rw [List.map_cons, List.nodup_cons] at hn
    rcases List.mem_cons.mp h with h | h
    · injection h with h1 h2
      subst h1; subst h2
      simp [mapGet]
    · have hk : k' ≠ k := by
        intro e
        subst e
        exact hn.1 (List.mem_map.mpr ⟨(k', v), h, rfl⟩)
      simp only [mapGet, if_neg hk]
      exact ih hn.2 h

theorem mem_keys_foldl_groupStep (routes : List (Bytes × Bytes)) (g : List (Bytes × List Bytes))
    (p : Bytes) :
    p ∈ (routes.foldl groupStep g).map Prod.fst ↔
      p ∈ g.map Prod.fst ∨ ∃ pair ∈ routes, cleanPattern pair.2 = p := by
  induction routes generalizing g with
  | nil => simp
  | cons r rs ih =>
    rw [List.foldl_cons, ih, groupStep, mem_keys_mapSet]
    simp only [List.mem_cons, exists_eq_or_imp]
    constructor
    · rintro ((h | h) | h)
      · exact Or.inr (Or.inl h.symm)
      · exact Or.inl h
      · exact Or.inr (Or.inr h)
    · rintro (h | h | h)
      · exact Or.inl (Or.inr h)
      · exact Or.inl (Or.inl h.symm)
      · exact Or.inr h

theorem nodup_keys_foldl_groupStep (routes : List (Bytes × Bytes))
    (g : List (Bytes × List Bytes)) (h : (g.map Prod.fst).Nodup) :
    ((routes.foldl groupStep g).map Prod.fst).Nodup := by
  induction routes generalizing g with
  | nil => exact h
  | cons r rs ih => exact ih _ (nodup_keys_mapSet _ _ _ h)

theorem getD_foldl_groupStep (routes : List (Bytes × Bytes)) (g : List (Bytes × List Bytes))
    (p : Bytes) :
    (mapGet (routes.foldl groupStep g) p).getD [] = (mapGet g p).getD [] ++ methodsOf routes p := by
  induction routes generalizing g with
  | nil => simp [methodsOf]
  | cons r rs ih =>
    rw [List.foldl_cons, ih, groupStep, mapGet_mapSet]
    by_cases h : cleanPattern r.2 = p
    · subst h
      simp [methodsOf, List.filter_cons]
    · simp [methodsOf, List.filter_cons, h]

theorem mem_groupRoutes (routes : List (Bytes × Bytes)) (e : Bytes × List Bytes)
    (h : e ∈ groupRoutes routes) : e.2 = methodsOf routes e.1 := by
  have hn : ((groupRoutes routes).map Prod.fst).Nodup :=
    nodup_keys_foldl_groupStep routes [] List.nodup_nil
  have hg := mapGet_of_mem (groupRoutes routes) e.1 e.2 hn h
  have := getD_foldl_groupStep routes [] e.1
  rw [show routes.foldl groupStep [] = groupRoutes routes from rfl, hg] at this
  simpa [mapGet] using this

theorem methodsOf_perm {r₁ r₂ : List (Bytes × Bytes)} (h : r₁.Perm r₂) (p : Bytes) :
    (methodsOf r₁ p).Perm (methodsOf r₂ p) :=
  (h.filter _).map _

theorem Routes_perm (ro : RangeOrder (routeKey × RouteConfig)) (reg : Registry) :
    (reg.Routes ro).Perm (reg.Routes (RangeOrder.stored _)) :=
  (ro.perm reg.routes).map _

theorem mem_Routes (ro : RangeOrder (routeKey × RouteConfig)) (reg : Registry) (p : Bytes) :
    (∃ pair ∈ reg.Routes ro, cleanPattern pair.2 = p) ↔
      p ∈ reg.routes.map (fun e => cleanPattern e.1.pattern) := by
  simp only [Registry.Routes, List.mem_map, (ro.perm reg.routes).mem_iff]
  constructor
  · rintro ⟨pair, ⟨e, he, rfl⟩, h⟩
    exact ⟨e, he, h⟩
  · rintro ⟨e, he, h⟩
    exact ⟨_, ⟨e, he, rfl⟩, h⟩

/-- The resource list of `AutoDiscovery` in closed form: one entry for each
cleaned pattern of the registry, in ascending order; only the descriptions
depend on the order in which the registry's map is visited. -/
theorem Resources_eq (ro : RangeOrder (routeKey × RouteConfig))
    (go : RangeOrder (Bytes × List Bytes)) (name version description : Bytes) (reg : Registry) :
    (AutoDiscovery ro go name version description reg).Resources =
      (sortStrings (reg.routes.map (fun e => cleanPattern e.1.pattern)).dedup).map (fun p =>
        { Rel := deriveRel p
          Href := p
          Description := findDescription reg p (reg.Routes ro)
          Methods := sortStrings (methodsOf (reg.Routes (RangeOrder.stored _)) p) }) := by
  show sortByHref ((go.order (groupRoutes (reg.Routes ro))).map _) = _
  generalize hL : (go.order (groupRoutes (reg.Routes ro))).map (fun e =>
    ({ Rel := deriveRel e.1, Href := e.1, Description := findDescription reg e.1 (reg.Routes ro),
       Methods := sortStrings e.2 } : ResourceEntry)) = L
  have hmem : ∀ x ∈ sortByHref L, x =
      { Rel := deriveRel x.Href, Href := x.Href
        Description := findDescription reg x.Href (reg.Routes ro)
        Methods := sortStrings (methodsOf (reg.Routes (RangeOrder.stored _)) x.Href) } := by
    intro x hx
    rw [(sortByHref_perm L).mem_iff, ← hL, List.mem_map] at hx
    obtain ⟨e, he, rfl⟩ := hx
    rw [(go.perm _).mem_iff] at he
    dsimp only
    rw [mem_groupRoutes _ e he,
      sortStrings_eq_of_perm (methodsOf_perm (Routes_perm ro reg) e.1)]
  have hkeys : (sortByHref L).map (fun x => x.Href) =
      sortStrings (reg.routes.map (fun e => cleanPattern e.1.pattern)).dedup := by
    apply eq_of_perm_of_sorted
    · refine ((sortByHref_perm L).map _).trans ?_
      rw [← hL, List.map_map]
      refine ((go.perm _).map _).trans ?_
      refine List.Perm.trans ?_ (sortStrings_perm _).symm
      show (((reg.Routes ro).foldl groupStep []).map Prod.fst).Perm _
      rw [List.perm_ext_iff_of_nodup
        (nodup_keys_foldl_groupStep (reg.Routes ro) [] List.nodup_nil) (List.nodup_dedup _)]
      intro p
      rw [List.mem_dedup, ← mem_Routes ro reg p]
      have := mem_keys_foldl_groupStep (reg.Routes ro) [] p
      simpa using this
    · exact List.pairwise_map.mpr (sortByHref_sorted L)
    · exact sortStrings_sorted _
  rw [← hkeys, List.map_map]
  conv_lhs => rw [← List.map_id (sortByHref L)]
  exact List.map_congr_left hmem

theorem Hrefs_eq (ro : RangeOrder (routeKey × RouteConfig))
    (go : RangeOrder (Bytes × List Bytes)) (name version description : Bytes) (reg : Registry) :
    (AutoDiscovery ro go name version description reg).Resources.map (fun x => x.Href) =
      sortStrings (reg.routes.map (fun e => cleanPattern e.1.pattern)).dedup := by
  rw [Resources_eq, List.map_map]
  exact List.map_id _

theorem Methods_eq (ro : RangeOrder (routeKey × RouteConfig))
    (go : RangeOrder (Bytes × List Bytes)) (name version description : Bytes) (reg : Registry)
    (x : ResourceEntry) (hx : x ∈ (AutoDiscovery ro go name version description reg).Resources) :
    x.Methods = sortStrings (methodsOf (reg.Routes (RangeOrder.stored _)) x.Href) := by
  rw [Resources_eq, List.mem_map] at hx
  obtain ⟨p, _, rfl⟩ := hx
  rfl

/-- C16: the hrefs of the entries that `AutoDiscovery` emits are the distinct
cleaned patterns of the registered routes, each once, and the entries are in
strictly ascending order of href, whatever the iteration orders of the two
maps; for the registrations of `TestAutoDiscovery` the hrefs are `/orders`,
`/users`, `/users/\x7bid\x7d` in this order and the methods of `/users` are
`GET`, `POST`. -/
theorem C16_entries (ro : RangeOrder (routeKey × RouteConfig))
    (go : RangeOrder (Bytes × List Bytes)) (name version description : Bytes) (reg : Registry) :
    ((AutoDiscovery ro go name version description reg).Resources.map (fun x => x.Href)).Perm
        (reg.routes.map (fun e => cleanPattern e.1.pattern)).dedup
    ∧ (AutoDiscovery ro go name version description reg).Resources.length =
        (reg.routes.map (fun e => cleanPattern e.1.pattern)).dedup.length
    ∧ (AutoDiscovery ro go name version description reg).Resources.Pairwise
        (fun a b => lessBytes a.Href b.Href = true)
    ∧ (AutoDiscovery ro go name version description usersRegistry).Resources.map (fun x => x.Href) =
        [B "/orders", B "/users", B "/users/\x7bid\x7d"]
    ∧ (∀ x ∈ (AutoDiscovery ro go name version description usersRegistry).Resources,
        x.Href = B "/users" → x.Methods = [B "GET", B "POST"]) := by
  have hperm : ((AutoDiscovery ro go name version description reg).Resources.map
      (fun x => x.Href)).Perm (reg.routes.map (fun e => cleanPattern e.1.pattern)).dedup := by
    rw [Hrefs_eq]
    exact sortStrings_perm _
  refine ⟨hperm, ?_, ?_, ?_, ?_⟩
  · simpa using hperm.length_eq
  · have hs : ((AutoDiscovery ro go name version description reg).Resources.map
        (fun x => x.Href)).Pairwise (fun a b => lessBytes a b = true) := by
      apply sorted_lt_of_nodup
      · rw [Hrefs_eq]
        exact sortStrings_sorted _
      · exact hperm.nodup_iff.mpr (List.nodup_dedup _)
    exact List.pairwise_map.mp hs
  · rw [Hrefs_eq]
    decide
  · intro x hx hh
    rw [Methods_eq ro go name version description usersRegistry x hx, hh]
    decide

/-- Counterexample for C17: with `GET` registered for `/items` both as `/items`
and as `GET /items`, the single entry that `AutoDiscovery` emits has the
methods `GET`, `GET`, whatever the iteration orders of the maps. -/
theorem C17_counterexample :
    (mixedRegistry.routes.map Prod.fst).Nodup
    ∧ (∀ (ro : RangeOrder (routeKey × RouteConfig)) (go : RangeOrder (Bytes × List Bytes))
        (name version description : Bytes),
        (AutoDiscovery ro go name version description mixedRegistry).Resources.map
          (fun x => (x.Href, x.Methods)) = [(B "/items", [B "GET", B "GET"])])
    ∧ ¬ [B "GET", B "GET"].Nodup := by
  refine ⟨by decide, ?_, by decide⟩
  intro ro go name version description
  rw [Resources_eq, List.map_map]
  show (sortStrings (mixedRegistry.routes.map (fun e => cleanPattern e.1.pattern)).dedup).map
    (fun p => (p, sortStrings (methodsOf (mixedRegistry.Routes (RangeOrder.stored _)) p))) = _
  decide

/-- C17 (amended): the method list of every entry that `AutoDiscovery` emits
is in ascending order and is a rearrangement of the methods of the registered
routes whose pattern cleans to the entry's href, one occurrence for each such
route; it is free of duplicates, and then in strictly ascending order, when
no two of these routes have the same method. -/
theorem C17_methods (ro : RangeOrder (routeKey × RouteConfig))
    (go : RangeOrder (Bytes × List Bytes)) (name version description : Bytes) (reg : Registry)
    (x : ResourceEntry) (hx : x ∈ (AutoDiscovery ro go name version description reg).Resources) :
    x.Methods.Pairwise (fun a b => lessBytes b a = false)
    ∧ x.Methods.Perm
        ((reg.routes.filter (fun e => decide (cleanPattern e.1.pattern = x.Href))).map
          (fun e => e.1.method))
    ∧ (((reg.routes.filter (fun e => decide (cleanPattern e.1.pattern = x.Href))).map
          (fun e => e.1.method)).Nodup →
        x.Methods.Nodup ∧ x.Methods.Pairwise (fun a b => lessBytes a b = true)) := by
  have hm := Methods_eq ro go name version description reg x hx
  have he : methodsOf (reg.Routes (RangeOrder.stored _)) x.Href =
      (reg.routes.filter (fun e => decide (cleanPattern e.1.pattern = x.Href))).map
        (fun e => e.1.method) := by
    simp only [methodsOf, Registry.Routes, RangeOrder.stored, id, List.filter_map, List.map_map]
    rfl
  rw [he] at hm
  have hs : x.Methods.Sorted leBytes := hm ▸ sortStrings_sorted _
  have hp : x.Methods.Perm
      ((reg.routes.filter (fun e => decide (cleanPattern e.1.pattern = x.Href))).map
        (fun e => e.1.method)) := by
    rw [hm]
    exact sortStrings_perm _
  refine ⟨hs, hp, fun hn => ?_⟩
  have hn' : x.Methods.Nodup := hp.nodup_iff.mpr hn
  exact ⟨hn', sorted_lt_of_nodup hs hn'⟩

/-- Witness for C17: the entry of `/items` for the registry of
`TestAutoDiscoveryWithStdlibPatterns`. -/
theorem C17_methods_witness :
    itemsEntry ∈ (AutoDiscovery (RangeOrder.stored _) (RangeOrder.stored _) (B "Item API")
        (B "1.0") [] itemsRegistry).Resources
    ∧ itemsEntry.Methods.Pairwise (fun a b => lessBytes b a = false)
    ∧ itemsEntry.Methods.Perm
        ((itemsRegistry.routes.filter
            (fun e => decide (cleanPattern e.1.pattern = itemsEntry.Href))).map
          (fun e => e.1.method)) :=
  ⟨by decide,
    (C17_methods (RangeOrder.stored _) (RangeOrder.stored _) (B "Item API") (B "1.0") []
      itemsRegistry itemsEntry (by decide)).1,
    (C17_methods (RangeOrder.stored _) (RangeOrder.stored _) (B "Item API") (B "1.0") []
      itemsRegistry itemsEntry (by decide)).2.1⟩

theorem Index_method (m rest : Bytes) (h : (0x20 : UInt8) ∉ m) :
    Index (m ++ 0x20 :: 0x2F :: rest) [0x20, 0x2F] = m.length := by
  induction m with
  | nil => simp [Index, HasPrefix, List.isPrefixOf]
  | cons c cs ih =>
    have hc : c ≠ 0x20 := fun e => h (e ▸ List.mem_cons_self _ _)
    have hcs : (0x20 : UInt8) ∉ cs := fun e => h (List.mem_cons_of_mem _ e)
    have hi := ih hcs
    simp only [List.cons_append, Index, HasPrefix, List.isPrefixOf, hi]
    have hb : ((0x20 : UInt8) == c) = false := by
      simpa using Ne.symm hc
    simp [hb]
    omega

theorem cleanPattern_method (m p : Bytes) (hm : (0x20 : UInt8) ∉ m)
    (hp : HasPrefix p (B "/") = true) : cleanPattern (m ++ B " " ++ p) = p := by
  have h1 : B " " = [(0x20 : UInt8)] := by decide
  have h2 : B " /" = [(0x20 : UInt8), 0x2F] := by decide
  have h3 : B "/" = [(0x2F : UInt8)] := by decide
  rw [h3] at hp
  cases p with
  | nil => simp [HasPrefix, List.isPrefixOf] at hp
  | cons c rest =>
    have hc : c = 0x2F := by
      simp [HasPrefix, List.isPrefixOf] at hp
      exact hp.symm
    subst hc
    unfold cleanPattern
    rw [h1, h2, List.append_assoc, List.singleton_append, Index_method m rest hm]
    simp

theorem order_singleton {α : Type} (o : RangeOrder α) (a : α) : o.order [a] = [a] :=
  List.perm_singleton.mp (o.perm [a])

/-- C19: a pattern `m p`, of a method `m` without space, a space, and a path
`p` beginning with `/`, is cleaned to `p`; but the pattern `/a /b`, which
begins with `/` and so has no method in front, is cleaned to `/b`, and its
route is listed under the href `/b`, whatever the iteration orders; the two
routes of `TestAutoDiscoveryWithStdlibPatterns` give one entry, of href
`/items`, with the methods `GET` and `POST`. -/
theorem C19_clean_pattern :
    (∀ m p : Bytes, (0x20 : UInt8) ∉ m → HasPrefix p (B "/") = true →
        cleanPattern (m ++ B " " ++ p) = p)
    ∧ cleanPattern (B "/a /b") = B "/b"
    ∧ (∀ (ro : RangeOrder (routeKey × RouteConfig)) (go : RangeOrder (Bytes × List Bytes))
        (name version description : Bytes),
        (AutoDiscovery ro go name version description spacedRegistry).Resources =
          [{ Rel := B "b", Href := B "/b", Description := [], Methods := [B "GET"] }])
    ∧ (∀ (ro : RangeOrder (routeKey × RouteConfig)) (go : RangeOrder (Bytes × List Bytes))
        (name version description : Bytes),
        (AutoDiscovery ro go name version description itemsRegistry).Resources.map
          (fun x => (x.Href, x.Methods)) = [(B "/items", [B "GET", B "POST"])]) := by
  refine ⟨cleanPattern_method, by decide, ?_, ?_⟩
  rotate_left
  · intro ro go name version description
    rw [Resources_eq, List.map_map]
    show (sortStrings (itemsRegistry.routes.map (fun e => cleanPattern e.1.pattern)).dedup).map
      (fun p => (p, sortStrings (methodsOf (itemsRegistry.Routes (RangeOrder.stored _)) p))) = _
    decide
  intro ro go name version description
  rw [Resources_eq]
  have hr : spacedRegistry.Routes ro = [(B "GET", B "/a /b")] := by
    show (ro.order [_]).map _ = _
    rw [order_singleton]
    rfl
  rw [hr]
  decide

theorem Lookup_of_mem (reg : Registry) (hk : (reg.routes.map Prod.fst).Nodup)
    (e : routeKey × RouteConfig) (he : e ∈ reg.routes) :
    reg.Lookup e.1.method e.1.pattern = some e.2 :=
  mapGet_of_mem reg.routes e.1 e.2 hk he

theorem findDescription_eq (reg : Registry) (p : Bytes) (l : List (routeKey × RouteConfig))
    (h : ∀ e ∈ l, reg.Lookup e.1.method e.1.pattern = some e.2) :
    findDescription reg p (l.map (fun e => (e.1.method, e.1.pattern))) = firstDescription p l := by
  induction l with
  | nil => rfl
  | cons e l ih =>
    have ih' := ih (fun e' he' => h e' (List.mem_cons_of_mem _ he'))
    have he := h e (List.mem_cons_self _ _)
    unfold firstDescription at ih' ⊢
    rw [List.map_cons, findDescription]
    by_cases hc : cleanPattern e.1.pattern = p
    · rw [if_pos hc, he]
      by_cases hd : e.2.Description = []
      · simp [hc, hd, List.filter_cons, List.find?_cons, ih']
      · simp [hc, hd, List.filter_cons, List.find?_cons]
    · rw [if_neg hc, ih']
      simp [hc, List.filter_cons]

theorem firstDescription_eq_nil (p : Bytes) (l : List (routeKey × RouteConfig)) :
    firstDescription p l = [] ↔
      ∀ e ∈ l, cleanPattern e.1.pattern = p → e.2.Description = [] := by
  unfold firstDescription
  cases hf : (l.filter (fun e => decide (cleanPattern e.1.pattern = p))).find?
      (fun e => decide (e.2.Description ≠ [])) with
  | none =>
    simp only [true_iff]
    intro e he hc
    have := List.find?_eq_none.mp hf e (List.mem_filter.mpr ⟨he, by simpa using hc⟩)
    simpa using this
  | some e =>
    have hd : e.2.Description ≠ [] := by simpa using List.find?_some hf
    have hm := List.mem_filter.mp (List.mem_of_find?_eq_some hf)
    simp only
    constructor
    · intro h
      exact absurd h hd
    · intro h
      exact h e hm.1 (by simpa using hm.2)

theorem firstDescription_mem (p : Bytes) (l : List (routeKey × RouteConfig))
    (h : firstDescription p l ≠ []) :
    ∃ e ∈ l, cleanPattern e.1.pattern = p ∧ e.2.Description = firstDescription p l := by
  unfold firstDescription at h ⊢
  cases hf : (l.filter (fun e => decide (cleanPattern e.1.pattern = p))).find?
      (fun e => decide (e.2.Description ≠ [])) with
  | none =>
    rw [hf] at h
    exact absurd rfl h
  | some e =>
    have hm := List.mem_filter.mp (List.mem_of_find?_eq_some hf)
    exact ⟨e, hm.1, by simpa using hm.2, rfl⟩

theorem nodup_keys_registerAll (bs : List RouteBuilder) (reg : Registry)
    (h : (reg.routes.map Prod.fst).Nodup) : ((registerAll bs reg).routes.map Prod.fst).Nodup := by
  induction bs generalizing reg with
  | nil => exact h
  | cons b bs ih => exact ih _ (nodup_keys_mapSet _ _ _ h)

/-- C20: in a registry whose keys are distinct, as those of a Go map are, the
description of every entry that `AutoDiscovery` emits is the first non-empty
`Description` among the registry's entries whose pattern cleans to the
entry's href, in the order in which `Routes` enumerates the registry; it is
empty exactly when none of these entries has a non-empty description, and
when it is not empty it is the description of a registered route that cleans
to the entry's href. -/
theorem C20_description (ro : RangeOrder (routeKey × RouteConfig))
    (go : RangeOrder (Bytes × List Bytes)) (name version description : Bytes) (reg : Registry)
    (hk : (reg.routes.map Prod.fst).Nodup)
    (x : ResourceEntry) (hx : x ∈ (AutoDiscovery ro go name version description reg).Resources) :
    x.Description = firstDescription x.Href (ro.order reg.routes)
    ∧ (x.Description = [] ↔
        ∀ e ∈ reg.routes, cleanPattern e.1.pattern = x.Href → e.2.Description = [])
    ∧ (x.Description ≠ [] →
        ∃ e ∈ reg.routes, cleanPattern e.1.pattern = x.Href ∧ e.2.Description = x.Description) := by
  have hd : x.Description = firstDescription x.Href (ro.order reg.routes) := by
    rw [Resources_eq, List.mem_map] at hx
    obtain ⟨p, _, rfl⟩ := hx
    exact findDescription_eq reg p (ro.order reg.routes)
      (fun e he => Lookup_of_mem reg hk e ((ro.perm reg.routes).mem_iff.mp he))
  refine ⟨hd, ?_, ?_⟩
  · rw [hd, firstDescription_eq_nil]
    constructor
    · intro h e he
      exact h e ((ro.perm reg.routes).mem_iff.mpr he)
    · intro h e he
      exact h e ((ro.perm reg.routes).mem_iff.mp he)
  · rw [hd]
    intro h
    obtain ⟨e, he, hc, hde⟩ := firstDescription_mem _ _ h
    exact ⟨e, (ro.perm reg.routes).mem_iff.mp he, hc, hde⟩

/-- Witness for C20: the registry of `TestAutoDiscoveryWithStdlibPatterns`,
whose entry `/items` has the description of the `GET` route when the
registry is enumerated in the order of registration. -/
theorem C20_description_witness :
    (itemsRegistry.routes.map Prod.fst).Nodup
    ∧ itemsEntry ∈ (AutoDiscovery (RangeOrder.stored _) (RangeOrder.stored _) (B "Item API")
        (B "1.0") [] itemsRegistry).Resources
    ∧ itemsEntry.Description =
        firstDescription itemsEntry.Href ((RangeOrder.stored _).order itemsRegistry.routes)
    ∧ firstDescription itemsEntry.Href ((RangeOrder.stored _).order itemsRegistry.routes) =
        B "List items."
    ∧ firstDescription itemsEntry.Href ((RangeOrder.reversed _).order itemsRegistry.routes) =
        B "Create item." :=
  ⟨by decide, by decide,
    (C20_description (RangeOrder.stored _) (RangeOrder.stored _) (B "Item API") (B "1.0") []
      itemsRegistry (by decide) itemsEntry (by decide)).1,
    by decide, by decide⟩

/-! ### The response recorder -/

theorem record_eq_calls (p : Prog) (r : responseRecorder) :
    p.record r = (p.calls r).foldl responseRecorder.call r := by
  induction p generalizing r with
  | done => rfl
  | header f k ih => exact ih _
  | getHeader k ih => exact ih _ _
  | write b k ih => exact ih _
  | writeHeader c k ih => exact ih _

theorem foldl_call (calls : List Call) (r : responseRecorder) :
    (calls.foldl responseRecorder.call r).code = ((calls.filterMap Call.status).getLast?).getD r.code
    ∧ (calls.foldl responseRecorder.call r).body = r.body ++ (calls.map Call.chunk).flatten
    ∧ (calls.foldl responseRecorder.call r).header =
        calls.foldl (fun h c => c.onHeader h) r.header := by
  induction calls generalizing r with
  | nil => simp
  | cons c cs ih =>
    obtain ⟨h1, h2, h3⟩ := ih (r.call c)
    rw [List.foldl_cons, h1, h2, h3]
    cases c with
    | header f =>
      refine ⟨?_, ?_, ?_⟩
      · simp [responseRecorder.call, Call.status]
      · simp [responseRecorder.call, Call.chunk]
      · rfl
    | write b =>
      refine ⟨?_, ?_, ?_⟩
      · simp [responseRecorder.call, responseRecorder.Write, Call.status]
      · simp [responseRecorder.call, responseRecorder.Write, Call.chunk]
      · rfl
    | writeHeader code =>
      refine ⟨?_, ?_, ?_⟩
      · simp only [responseRecorder.call, responseRecorder.WriteHeader, Call.status,
          List.filterMap_cons]
        cases hl : cs.filterMap Call.status with
        | nil => simp
        | cons y ys =>
          simp only [List.getLast?_cons_cons]
          rw [List.getLast?_eq_getLast _ (List.cons_ne_nil y ys)]
          rfl
      · simp [responseRecorder.call, responseRecorder.WriteHeader, Call.chunk]
      · rfl

/-- C30: for every sequence of calls made on the recorder that `Middleware`
hands to the downstream handler, the recorded status is 200 when there is no
`WriteHeader` among them and the argument of the last `WriteHeader` otherwise
(wherever the `Write` calls stand), the recorded body is the concatenation of
the chunks written, in order, and the recorded headers are the result of the
changes made through `Header()` alone: `Write` and `WriteHeader` leave them
as they are.  A handler program run against the recorder is the sequence of
its calls. -/
theorem C30_recorder (calls : List Call) :
    (calls.foldl responseRecorder.call newRecorder).code =
        ((calls.filterMap Call.status).getLast?).getD 200
    ∧ (calls.foldl responseRecorder.call newRecorder).body = (calls.map Call.chunk).flatten
    ∧ (calls.foldl responseRecorder.call newRecorder).header =
        calls.foldl (fun h c => c.onHeader h) []
    ∧ (∀ (r : responseRecorder) (b : Bytes), (r.Write b).header = r.header)
    ∧ (∀ (r : responseRecorder) (c : Int), (r.WriteHeader c).header = r.header)
    ∧ (∀ p : Prog, p.record newRecorder =
        (p.calls newRecorder).foldl responseRecorder.call newRecorder)
    ∧ ([Call.write (B "a"), Call.writeHeader 404, Call.write (B "b"),
          Call.writeHeader 201].foldl responseRecorder.call newRecorder).code = 201
    ∧ ([Call.write (B "a"), Call.writeHeader 404, Call.write (B "b"),
          Call.writeHeader 201].foldl responseRecorder.call newRecorder).body = B "ab" := by
  obtain ⟨h1, h2, h3⟩ := foldl_call calls newRecorder
  refine ⟨h1, ?_, h3, fun _ _ => rfl, fun _ _ => rfl, fun p => record_eq_calls p _,
    by decide, by decide⟩
  rw [h2]
  rfl

/-! ### `Routes` -/

theorem mapGet_isSome_iff {K V : Type} [DecidableEq K] (m : List (K × V)) (k : K) :
    (mapGet m k).isSome = true ↔ k ∈ m.map Prod.fst := by
  induction m with
  | nil => simp [mapGet]
  | cons e m ih =>
    obtain ⟨k', v'⟩ := e
    by_cases h : k' = k
    · simp [mapGet, h]
    · have h' : ¬ k = k' := fun e => h e.symm
      simp only [mapGet, if_neg h, ih, List.map_cons, List.mem_cons, h', false_or]

theorem mem_keys_registerAll (bs : List RouteBuilder) (reg : Registry) (k : routeKey) :
    k ∈ (registerAll bs reg).routes.map Prod.fst ↔
      k ∈ reg.routes.map Prod.fst ∨
        ∃ b ∈ bs, k = { method := b.method, pattern := b.pattern } := by
  induction bs generalizing reg with
  | nil => simp [registerAll]
  | cons b bs ih =>
    show k ∈ (registerAll bs (b.Register reg)).routes.map Prod.fst ↔ _
    rw [ih, RouteBuilder.Register, mem_keys_mapSet]
    simp only [List.mem_cons, exists_eq_or_imp]
    constructor
    · rintro ((h | h) | h)
      · exact Or.inr (Or.inl h)
      · exact Or.inl h
      · exact Or.inr (Or.inr h)
    · rintro (h | h | h)
      · exact Or.inl (Or.inr h)
      · exact Or.inl (Or.inl h)
      · exact Or.inr h

theorem mem_Routes_iff (ro : RangeOrder (routeKey × RouteConfig)) (reg : Registry)
    (M P : Bytes) :
    (M, P) ∈ reg.Routes ro ↔ (reg.Lookup M P).isSome = true := by
  rw [Registry.Lookup, mapGet_isSome_iff]
  simp only [Registry.Routes, List.mem_map, (ro.perm reg.routes).mem_iff]
  constructor
  · rintro ⟨e, he, h⟩
    injection h with h1 h2
    refine ⟨e, he, ?_⟩
    cases e with
    | mk k v =>
      cases k
      simp only at h1 h2
      rw [h1, h2]
  · rintro ⟨e, he, h⟩
    exact ⟨e, he, by rw [h]⟩

theorem nodup_Routes (ro : RangeOrder (routeKey × RouteConfig)) (reg : Registry)
    (hk : (reg.routes.map Prod.fst).Nodup) : (reg.Routes ro).Nodup := by
  have h1 : ((ro.order reg.routes).map Prod.fst).Nodup :=
    (((ro.perm reg.routes).map Prod.fst).nodup_iff).mpr hk
  have h2 : reg.Routes ro =
      ((ro.order reg.routes).map Prod.fst).map (fun k => (k.method, k.pattern)) := by
    simp [Registry.Routes, List.map_map]
  rw [h2]
  refine List.Nodup.map ?_ h1
  intro a b hab
  cases a
  cases b
  injection hab with h1 h2
  simp only at h1 h2
  rw [h1, h2]

theorem length_Routes (ro : RangeOrder (routeKey × RouteConfig)) (reg : Registry) :
    (reg.Routes ro).length = reg.routes.length := by
  simp [Registry.Routes, (ro.perm reg.routes).length_eq]

theorem length_mapSet_of_mem {K V : Type} [DecidableEq K] (m : List (K × V)) (k : K) (v : V)
    (h : k ∈ m.map Prod.fst) : (mapSet m k v).length = m.length := by
  have := congrArg List.length (keys_mapSet m k v)
  rw [if_pos h] at this
  simpa using this

/-- C26: for every registry built from a new one by `Register` calls, and
every order in which the map is visited, `Routes()` holds a pair exactly when
`Lookup` of the pair is present, holds no pair twice, and has as many pairs
as there are distinct keys among those registered; registering under a key
that is present does not change the number of pairs; after the three
registrations of `TestRegistryRoutes` there are three. -/
theorem C26_routes (ro : RangeOrder (routeKey × RouteConfig)) (bs : List RouteBuilder) :
    (∀ M P : Bytes, (M, P) ∈ (registerAll bs NewRegistry).Routes ro ↔
        ((registerAll bs NewRegistry).Lookup M P).isSome = true)
    ∧ ((registerAll bs NewRegistry).Routes ro).Nodup
    ∧ ((registerAll bs NewRegistry).Routes ro).length =
        (bs.map (fun b => (b.method, b.pattern))).dedup.length
    ∧ (∀ b : RouteBuilder,
        ((registerAll bs NewRegistry).Lookup b.method b.pattern).isSome = true →
        ((b.Register (registerAll bs NewRegistry)).Routes ro).length =
          ((registerAll bs NewRegistry).Routes ro).length)
    ∧ (routesRegistry.Routes ro).length = 3 := by
  have hk : ((registerAll bs NewRegistry).routes.map Prod.fst).Nodup :=
    nodup_keys_registerAll bs NewRegistry List.nodup_nil
  refine ⟨fun M P => mem_Routes_iff ro _ M P, nodup_Routes ro _ hk, ?_, ?_, ?_⟩
  · have hp : ((registerAll bs NewRegistry).Routes (RangeOrder.stored _)).Perm
        (bs.map (fun b => (b.method, b.pattern))).dedup := by
      rw [List.perm_ext_iff_of_nodup (nodup_Routes _ _ hk) (List.nodup_dedup _)]
      rintro ⟨M, P⟩
      rw [mem_Routes_iff, Registry.Lookup, mapGet_isSome_iff, mem_keys_registerAll,
        List.mem_dedup]
      constructor
      · rintro (h | ⟨b, hb, h⟩)
        · simp [NewRegistry] at h
        · injection h with h1 h2
          exact List.mem_map.mpr ⟨b, hb, by rw [h1, h2]⟩
      · intro h
        obtain ⟨b, hb, h⟩ := List.mem_map.mp h
        injection h with h1 h2
        exact Or.inr ⟨b, hb, by rw [h1, h2]⟩
    rw [length_Routes, ← length_Routes (RangeOrder.stored _)]
    exact hp.length_eq
  · intro b hb
    rw [length_Routes, length_Routes, RouteBuilder.Register]
    exact length_mapSet_of_mem _ _ _ ((mapGet_isSome_iff _ _).mp hb)
  · rw [length_Routes]
    decide

/-! ### The branches of `Middleware` -/

/-- With HAC wanted and no `RouteConfig` found, `Middleware` answers 406 or
passes the original request down. -/
theorem Middleware_no_config (rt : GoRuntime) (opts : Options) (next : Handler) (r : Request)
    (hw : wantsHAC (Header.Get r.Header (B "Accept")) = true)
    (hl : (opts.Registry.getD NewRegistry).Lookup r.Method
        ((opts.PathResolver.getD (fun r => r.Path)) r) = none) :
    Middleware rt opts next r
      = (if hacIsOnlyAcceptable (Header.Get r.Header (B "Accept")) = true then
          httpError (B "Not Acceptable: no HAC metadata for this route") 406
         else next r) := by
  simp only [Middleware, hw, hl]
  rfl

/-- The intercepting branch depends on the downstream handler only through
what it does with the request marked by `withHACRequested`. -/
theorem intercept_congr (rt : GoRuntime) (opts : Options) (next next' : Handler)
    (cfg : RouteConfig) (r : Request)
    (h : next' (withHACRequested r) = next (withHACRequested r)) :
    intercept rt opts next' cfg r = intercept rt opts next cfg r := by
  simp only [intercept, h]

/-- C22: in the intercepting branch (HAC wanted and a `RouteConfig` found) the
downstream handler runs on the request marked by `withHACRequested`, for
which `IsHACRequested` is true, and on no other request; a request not
marked, as every request is before the middleware, has `IsHACRequested`
false.  But a request that wants HAC, has no `RouteConfig` and accepts
another type as well reaches the downstream handler unmarked: for `GET
/unknown` with `Accept: application/vnd.hac+json, application/json;q=0.9`
and no registry, `wantsHAC` is true and the handler reads `IsHACRequested(r)
= false`. -/
theorem C22_flag :
    (∀ (rt : GoRuntime) (opts : Options) (next : Handler) (r : Request) (cfg : RouteConfig),
        wantsHAC (Header.Get r.Header (B "Accept")) = true →
        (opts.Registry.getD NewRegistry).Lookup r.Method
          ((opts.PathResolver.getD (fun r => r.Path)) r) = some cfg →
        Middleware rt opts next r = intercept rt opts next cfg r
        ∧ IsHACRequested (withHACRequested r) = true
        ∧ ∀ next' : Handler, next' (withHACRequested r) = next (withHACRequested r) →
            intercept rt opts next' cfg r = intercept rt opts next cfg r)
    ∧ (∀ (Method Path Pattern : Bytes) (Header : Header),
        IsHACRequested { Method := Method, Path := Path, Pattern := Pattern, Header := Header }
          = false)
    ∧ ((flagHandler (withHACRequested hacRequest)).record newRecorder).body = B "true"
    ∧ wantsHAC (Header.Get
        (getRequest (B "/unknown")
          (B "application/vnd.hac+json, application/json;q=0.9")).Header (B "Accept")) = true
    ∧ (∀ rt : GoRuntime,
        Middleware rt {} flagHandler
          (getRequest (B "/unknown") (B "application/vnd.hac+json, application/json;q=0.9"))
        = .write (B "false") .done) := by
  refine ⟨fun rt opts next r cfg hw hl =>
      ⟨Middleware_intercept rt opts next r cfg hw hl, rfl,
        fun next' h => intercept_congr rt opts next next' cfg r h⟩,
    fun _ _ _ _ => rfl, by decide, by decide, fun rt => ?_⟩
  rw [Middleware_no_config rt {} flagHandler
      (getRequest (B "/unknown") (B "application/vnd.hac+json, application/json;q=0.9"))
      (by decide) rfl, if_neg (by decide)]
  rfl

/-- C28: in the Quick Start of `doc.go` the metadata is registered under
(`GET`, `/users/\x7bid\x7d`) and the middleware resolves the pattern with
`StdlibPathResolver`; for a request that accepts only
`application/vnd.hac+json`, `Lookup` is made under the pattern `GET
/users/\x7bid\x7d` of the mux (or under the empty pattern, since the
middleware wraps the mux and runs before it matched), finds nothing, and the
answer is `406 Not Acceptable`, whatever the downstream handler.  Registered
under the whole mux pattern, as `TestMiddlewareWithStdlibPathResolver` does,
the metadata is found. -/
theorem C28_quick_start (rt : GoRuntime) (next : Handler) :
    quickStartRegistry.Lookup (B "GET") (B "/users/\x7bid\x7d") =
        some { Description := B "A user account.", Actions := [quickStartAction], Related := [] }
    ∧ StdlibPathResolver (userRequest (B "GET /users/\x7bid\x7d")) = B "GET /users/\x7bid\x7d"
    ∧ quickStartRegistry.Lookup (B "GET") (B "GET /users/\x7bid\x7d") = none
    ∧ Middleware rt quickStartOptions next (userRequest (B "GET /users/\x7bid\x7d"))
        = httpError (B "Not Acceptable: no HAC metadata for this route") 406
    ∧ ((Middleware rt quickStartOptions next (userRequest (B "GET /users/\x7bid\x7d"))).serve
          {}).code = 406
    ∧ Middleware rt quickStartOptions next (userRequest [])
        = httpError (B "Not Acceptable: no HAC metadata for this route") 406
    ∧ (∃ cfg, stdlibRegistry.Lookup (B "GET") (B "GET /users/\x7bid\x7d") = some cfg ∧
        Middleware rt stdlibOptions next (userRequest (B "GET /users/\x7bid\x7d"))
          = intercept rt stdlibOptions next cfg (userRequest (B "GET /users/\x7bid\x7d"))) := by
  have h1 : Middleware rt quickStartOptions next (userRequest (B "GET /users/\x7bid\x7d"))
      = httpError (B "Not Acceptable: no HAC metadata for this route") 406 := by
    rw [Middleware_no_config rt quickStartOptions next
        (userRequest (B "GET /users/\x7bid\x7d")) (by decide) rfl,
      if_pos (by decide)]
  have h2 : Middleware rt quickStartOptions next (userRequest [])
      = httpError (B "Not Acceptable: no HAC metadata for this route") 406 := by
    rw [Middleware_no_config rt quickStartOptions next (userRequest []) (by decide) rfl,
      if_pos (by decide)]
  refine ⟨rfl, rfl, rfl, h1, ?_, h2, ⟨_, rfl, ?_⟩⟩
  · rw [h1]
    exact (httpError_serve _ 406 {} rfl rfl (by decide)).1
  · exact Middleware_intercept rt _ next _ _ (by decide) rfl

/-- The envelope depends on the recorded response through its status and body
only. -/
theorem buildEnvelope_congr (rec₁ rec₂ : responseRecorder) (cfg : RouteConfig) (r : Request)
    (mapper : Option ErrorMapper) (hc : rec₁.code = rec₂.code) (hb : rec₁.body = rec₂.body) :
    buildEnvelope rec₁ cfg r mapper = buildEnvelope rec₂ cfg r mapper := by
  simp only [buildEnvelope, hc, hb]

/-- An error envelope does not depend on the `RouteConfig`. -/
theorem buildEnvelope_error (recorded : responseRecorder) (cfg cfg' : RouteConfig) (r : Request)
    (mapper : Option ErrorMapper) (hc : recorded.code ≥ 400) :
    buildEnvelope recorded cfg r mapper = buildEnvelope recorded cfg' r mapper := by
  simp only [buildEnvelope, if_pos hc]

/-- C23: for a request that wants HAC and has a `RouteConfig`, on a writer
that has not sent its header and for a recorded status that `WriteHeader`
accepts, the envelope is the error envelope of `buildErrorEnvelope` on the
recorded status, the recorded body, the request and the error mapper when the
recorded status is at least 400, and the success envelope of
`buildSuccessEnvelope` on the recorded body and the `RouteConfig` otherwise;
when it is serialised, the body sent is its serialisation.  The envelope is
the same for two recorded responses of equal status and body, whatever their
headers; the payload of a success envelope is the recorded body or `null`;
the error envelope is the same for every `RouteConfig`. -/
theorem C23_envelope (rt : GoRuntime) (opts : Options) (next : Handler) (r : Request)
    (cfg : RouteConfig) (w : Response)
    (hw : wantsHAC (Header.Get r.Header (B "Accept")) = true)
    (hl : (opts.Registry.getD NewRegistry).Lookup r.Method
        ((opts.PathResolver.getD (fun r => r.Path)) r) = some cfg)
    (hfresh : w.wroteHeader = false) (hlive : w.panicked = false)
    (hc : ((next (withHACRequested r)).record newRecorder).code ≤ 999) :
    (∃ env,
      buildEnvelope ((next (withHACRequested r)).record newRecorder) cfg
          (withHACRequested r) opts.ErrorMapper = .ok env
      ∧ (400 ≤ ((next (withHACRequested r)).record newRecorder).code →
          ∃ e, buildErrorEnvelope ((next (withHACRequested r)).record newRecorder).code
                ((next (withHACRequested r)).record newRecorder).body (withHACRequested r)
                opts.ErrorMapper = .ok e ∧ env = .error e)
      ∧ (((next (withHACRequested r)).record newRecorder).code < 400 →
          ∃ e, buildSuccessEnvelope ((next (withHACRequested r)).record newRecorder).body
                (some cfg) = .ok e ∧ env = .success e
              ∧ e.Data =
                  (if 0 < ((next (withHACRequested r)).record newRecorder).body.length ∧
                      jsonValid ((next (withHACRequested r)).record newRecorder).body = true
                   then ((next (withHACRequested r)).record newRecorder).body else B "null"))
      ∧ (∀ out, rt.Marshal env = some out →
          ((Middleware rt opts next r).serve w).body = w.body ++ out))
    ∧ (∀ (rec₁ rec₂ : responseRecorder) (c : RouteConfig) (q : Request)
        (mapper : Option ErrorMapper), rec₁.code = rec₂.code → rec₁.body = rec₂.body →
        buildEnvelope rec₁ c q mapper = buildEnvelope rec₂ c q mapper)
    ∧ (∀ (recorded : responseRecorder) (c c' : RouteConfig) (q : Request)
        (mapper : Option ErrorMapper), recorded.code ≥ 400 →
        buildEnvelope recorded c q mapper = buildEnvelope recorded c' q mapper) := by
  refine ⟨?_, buildEnvelope_congr, buildEnvelope_error⟩
  obtain ⟨env, he⟩ := buildEnvelope_ok ((next (withHACRequested r)).record newRecorder) cfg
    (withHACRequested r) opts.ErrorMapper
  refine ⟨env, he, ?_, ?_, ?_⟩
  · intro h4
    have c : ((next (withHACRequested r)).record newRecorder).code ≥ 400 := h4
    rw [buildErrorEnvelope_ok]
    refine ⟨_, rfl, ?_⟩
    simp only [buildEnvelope, if_pos c, buildErrorEnvelope_ok] at he
    injection he with he
    exact he.symm
  · intro h4
    have c : ¬ ((next (withHACRequested r)).record newRecorder).code ≥ 400 := by omega
    refine ⟨_, rfl, ?_, rfl⟩
    simp only [buildEnvelope, if_neg c, buildSuccessEnvelope] at he
    injection he with he
    exact he.symm
  · intro out hm
    rw [Middleware_intercept rt opts next r cfg hw hl,
      intercept_ok rt opts next r cfg env out he hm, emit_serve rt _ out w hfresh hlive hc]

/-- Witness for C23, on `TestMiddlewareErrorEnvelope` (status 404, an error
envelope) with the registry of `TestMiddlewarePreservesOriginalHeaders`. -/
theorem C23_envelope_witness :
    wantsHAC (Header.Get hacRequest.Header (B "Accept")) = true
    ∧ ((notFoundHandler (withHACRequested hacRequest)).record newRecorder).code = 404
    ∧ ∃ env,
      buildEnvelope ((notFoundHandler (withHACRequested hacRequest)).record newRecorder)
          { Description := B "Test.", Actions := [], Related := [] }
          (withHACRequested hacRequest) testOptions.ErrorMapper = .ok env
      ∧ (∀ out, testRuntime.Marshal env = some out →
          ((Middleware testRuntime testOptions notFoundHandler hacRequest).serve {}).body
            = [] ++ out) := by
  obtain ⟨⟨env, he, _, _, h⟩, _⟩ := C23_envelope testRuntime testOptions notFoundHandler
    hacRequest { Description := B "Test.", Actions := [], Related := [] } {} (by decide) rfl
    rfl rfl (by decide)
  exact ⟨by decide, by decide, env, he, h⟩

/-! ### `Discovery.Handler` -/

/-- The response of the serving branch of `Discovery.Handler`. -/
theorem discovery_serve (out : Bytes) (w : Response) (hw : w.wroteHeader = false)
    (hp : w.panicked = false) :
    (Prog.header (fun h => Header.Set h (B "Content-Type") MediaType)
        (.header (fun h => Header.Set h (B "Vary") (B "Accept")) (.write out .done))).serve w
      = { header := Header.Set (Header.Set w.header (B "Content-Type") MediaType)
            (B "Vary") (B "Accept")
          wroteHeader := true
          code := 200
          sent := Header.Set (Header.Set w.header (B "Content-Type") MediaType)
            (B "Vary") (B "Accept")
          body := w.body ++ out
          panicked := false } := by
  simp [Prog.serve, Response.WriteHeader, Response.Write, hw, hp]

/-- C21: the handler of `Discovery.Handler(fallback)` on a writer that has
not sent its header.  When `wantsHAC` holds for the `Accept` header and the
document is serialised to `out`, the handler is the same for every fallback
(the fallback is not called) and answers with status 200, the body `out`,
`Content-Type: application/vnd.hac+json` and `Vary: Accept`.  When
`wantsHAC` does not hold, the handler is the fallback applied to the request
when there is one, and is `http.NotFound`, with status 404, when the
fallback is nil.  The handler has no registry. -/
theorem C21_discovery ( Marshal : DiscoveryResponse → Option Bytes) (d : Discovery)
    (fallback : Option Handler) (r : Request) (w : Response)
    (hfresh : w.wroteHeader = false) (hlive : w.panicked = false) :
    (wantsHAC (Header.Get r.Header (B "Accept")) = true →
      ∀ out, Marshal { HAC := d.Meta } = some out →
        (∀ fallback' : Option Handler,
          Discovery.Handler Marshal d fallback' r = Discovery.Handler Marshal d fallback r)
        ∧ ((Discovery.Handler Marshal d fallback r).serve w).body = w.body ++ out
        ∧ ((Discovery.Handler Marshal d fallback r).serve w).code = 200
        ∧ ((Discovery.Handler Marshal d fallback r).serve w).wroteHeader = true
        ∧ Header.Values ((Discovery.Handler Marshal d fallback r).serve w).sent
            (B "Content-Type") = [MediaType]
        ∧ Header.Values ((Discovery.Handler Marshal d fallback r).serve w).sent
            (B "Vary") = [B "Accept"])
    ∧ (wantsHAC (Header.Get r.Header (B "Accept")) = false →
        (∀ f : Handler, Discovery.Handler Marshal d (some f) r = f r)
        ∧ Discovery.Handler Marshal d none r = NotFound
        ∧ ((Discovery.Handler Marshal d none r).serve w).code = 404
        ∧ ((Discovery.Handler Marshal d none r).serve w).wroteHeader = true) := by
  have cCT : CanonicalMIMEHeaderKey (B "Content-Type") = B "Content-Type" := by decide
  have cV : CanonicalMIMEHeaderKey (B "Vary") = B "Vary" := by decide
  have ne1 : B "Vary" ≠ B "Content-Type" := by decide
  constructor
  · intro hw out hm
    have e : ∀ fb : Option Handler, Discovery.Handler Marshal d fb r =
        Prog.header (fun h => Header.Set h (B "Content-Type") MediaType)
          (.header (fun h => Header.Set h (B "Vary") (B "Accept")) (.write out .done)) := by
      intro fb
      simp only [Discovery.Handler, hw, hm]
      rfl
    refine ⟨fun fb => by rw [e fb, e fallback], ?_⟩
    rw [e fallback, discovery_serve out w hfresh hlive]
    simp [Header.Values, mapGet_Set, cCT, cV, ne1]
  · intro hw
    have e1 : ∀ f : Handler, Discovery.Handler Marshal d (some f) r = f r := by
      intro f
      simp only [Discovery.Handler, hw]
      rfl
    have e2 : Discovery.Handler Marshal d none r = NotFound := by
      simp only [Discovery.Handler, hw]
      rfl
    refine ⟨e1, e2, ?_, ?_⟩
    · rw [e2]
      exact (httpError_serve _ 404 w hfresh hlive (by decide)).1
    · rw [e2]
      exact (httpError_serve _ 404 w hfresh hlive (by decide)).2.1

/-- Witness for C21, on the requests of `TestDiscoveryHandler` and
`TestDiscoveryHandlerNilFallback`: the HAC request is answered with the
document whatever the fallback, the `application/json` request with the
fallback's body, or with 404 when there is no fallback. -/
theorem C21_discovery_witness :
    ((Discovery.Handler testMarshal testDiscovery (some statusHandler)
        (getRequest (B "/") (B "application/vnd.hac+json"))).serve {}).code = 200
    ∧ Header.Values ((Discovery.Handler testMarshal testDiscovery (some statusHandler)
        (getRequest (B "/") (B "application/vnd.hac+json"))).serve {}).sent
          (B "Content-Type") = [MediaType]
    ∧ ((Discovery.Handler testMarshal testDiscovery (some statusHandler)
        (getRequest (B "/") (B "application/json"))).serve {}).body
          = B "\x7b\"status\":\"ok\"\x7d"
    ∧ ((Discovery.Handler testMarshal testDiscovery none
        (getRequest (B "/") (B "application/json"))).serve {}).code = 404 := by
  have h1 := (C21_discovery testMarshal testDiscovery (some statusHandler)
    (getRequest (B "/") (B "application/vnd.hac+json")) {} rfl rfl).1 (by decide) _ rfl
  have h2 := (C21_discovery testMarshal testDiscovery (some statusHandler)
    (getRequest (B "/") (B "application/json")) {} rfl rfl).2 (by decide)
  refine ⟨h1.2.2.1, h1.2.2.2.2.1, ?_, h2.2.2.1⟩
  rw [h2.1 statusHandler]
  decide

/-! ### The order of the parsed ranges -/

/-- The comparison agrees with `gtZero`: `q > 0` is `q >= 0` without
`0 >= q`. -/
theorem gtZero_eq_ge (q : Float64) :
    q.gtZero = (q.ge Float64.zero && !Float64.zero.ge q) := by
  cases q with
  | nan => rfl
  | inf neg => cases neg <;> rfl
  | fin neg m e =>
    cases neg
    · by_cases hm : m = 0 <;> simp [Float64.gtZero, Float64.ge, Float64.zero, magLe, hm]
    · simp [Float64.gtZero, Float64.ge, Float64.zero]

/-- C29: `parseAccept` returns the ranges in the order of the header and does
not sort them: for `*/*;q=0.1, text/html` the first range has quality `0.1`,
the second `1.0`, and `0.1 >= 1.0` is false; for the header of
`TestParseAccept`, whose entries are written in descending order, the result
is in descending order. -/
theorem C29_not_sorted :
    parseAccept (B "*/*;q=0.1, text/html") =
        [{ typ := B "*", subtype := B "*", quality := .fin false 0x1999999999999A (-56) },
         { typ := B "text", subtype := B "html", quality := Float64.one }]
    ∧ Float64.ge (.fin false 0x1999999999999A (-56)) Float64.one = false
    ∧ descendingQuality (parseAccept (B "*/*;q=0.1, text/html")) = false
    ∧ descendingQuality (parseAccept (B "text/html, application/json;q=0.9, */*;q=0.1")) = true
    ∧ (∀ header : Bytes, parseAccept header =
        (((splitByte 0x2C header).map TrimSpace).filter wellFormedEntry).map parseMediaRange) := by
  refine ⟨by decide, by decide, by decide, by decide, parseAccept_eq⟩

/-! ### Negotiation does not panic -/

theorem IndexByte_range (c : UInt8) (s : Bytes) :
    IndexByte c s = -1 ∨ (0 ≤ IndexByte c s ∧ IndexByte c s < s.length) := by
  induction s with
  | nil => exact Or.inl rfl
  | cons b bs ih =>
    unfold IndexByte
    by_cases hb : b = c
    · rw [if_pos hb]
      exact Or.inr ⟨le_refl _, by simp⟩
    · rw [if_neg hb]
      dsimp only
      rcases ih with h | ⟨h1, h2⟩
      · rw [h]
        exact Or.inl (by simp)
      · rw [if_neg (by omega)]
        refine Or.inr ⟨by omega, ?_⟩
        simp only [List.length_cons, Nat.cast_add, Nat.cast_one]
        omega

theorem length_of_HasPrefix (s p : Bytes) (h : HasPrefix s p = true) : p.length ≤ s.length := by
  have := List.isPrefixOf_iff_prefix.mp h
  exact this.length_le

theorem checkedApplyParam_eq (mr : mediaRange) (param : Bytes) :
    checkedApplyParam mr param = some (applyParam mr param) := by
  unfold checkedApplyParam applyParam
  dsimp only
  by_cases h : (HasPrefix (TrimSpace param) (B "q=") || HasPrefix (TrimSpace param) (B "Q=")) = true
  · rw [if_pos h, if_pos h]
    have hl : 2 ≤ (TrimSpace param).length := by
      rcases Bool.or_eq_true _ _ |>.mp h with h | h
      · exact length_of_HasPrefix _ _ h
      · exact length_of_HasPrefix _ _ h
    have hs : sliceFrom (TrimSpace param) 2 = some ((TrimSpace param).drop 2) := by
      unfold sliceFrom
      rw [if_pos ⟨by decide, by exact_mod_cast hl⟩]
      rfl
    rw [hs]
    cases hpf : ParseFloat ((TrimSpace param).drop 2) <;> simp [hpf]
  · rw [if_neg h, if_neg h]

theorem checkedParams_eq (params : List Bytes) (mr : mediaRange) :
    checkedParams mr params = some (params.foldl applyParam mr) := by
  induction params generalizing mr with
  | nil => rfl
  | cons p ps ih =>
    rw [checkedParams, checkedApplyParam_eq]
    exact ih _

theorem checkedParseMediaRange_eq (s : Bytes) :
    checkedParseMediaRange s = some (parseMediaRange s) := by
  unfold checkedParseMediaRange parseMediaRange
  dsimp only
  cases hs : splitByte 0x3B s with
  | nil => exact absurd hs (splitByte_ne_nil _ _)
  | cons first rest =>
    simp only [index, List.get?_cons_zero, List.headD_cons, List.tail_cons]
    by_cases hneg : IndexByte 0x2F (TrimSpace first) < 0
    · rw [if_pos hneg, if_pos hneg]
    · rw [if_neg hneg, if_neg hneg]
      rcases IndexByte_range 0x2F (TrimSpace first) with h | ⟨h1, h2⟩
      · rw [h] at hneg
        exact absurd (by decide) hneg
      · have e1 : sliceTo (TrimSpace first) (IndexByte 0x2F (TrimSpace first)) =
            some ((TrimSpace first).take (IndexByte 0x2F (TrimSpace first)).toNat) := by
          unfold sliceTo
          rw [if_pos ⟨h1, by omega⟩]
        have e2 : sliceFrom (TrimSpace first) (IndexByte 0x2F (TrimSpace first) + 1) =
            some ((TrimSpace first).drop ((IndexByte 0x2F (TrimSpace first)).toNat + 1)) := by
          unfold sliceFrom
          rw [if_pos ⟨by omega, by omega⟩]
          congr 2
          omega
        have e3 : sliceFrom (first :: rest) 1 = some rest := by
          unfold sliceFrom
          rw [if_pos ⟨by decide, by simp⟩]
          rfl
        rw [e1, e2]
        dsimp only
        split
        · rfl
        · rw [e3]
          exact checkedParams_eq _ _

theorem checkedRanges_eq (parts : List Bytes) :
    checkedRanges parts =
      some ((parts.map (fun part => parseMediaRange (TrimSpace part))).filter
        (fun mr => decide (mr.typ ≠ []))) := by
  induction parts with
  | nil => rfl
  | cons p ps ih =>
    rw [checkedRanges, checkedParseMediaRange_eq, ih]
    simp only [List.map_cons, List.filter_cons]
    by_cases h : (parseMediaRange (TrimSpace p)).typ = []
    · simp [h]
    · simp [h]

theorem checkedParseAccept_eq (header : Bytes) :
    checkedParseAccept header = some (parseAccept header) := by
  unfold checkedParseAccept parseAccept
  split
  · rfl
  · exact checkedRanges_eq _

/-- C24: with every index and slice expression of `media.go` checked,
`parseAccept`, `wantsHAC` and `hacIsOnlyAcceptable` return a value for every
header (none of the checks fails), and the value is that of the functions
without checks; a header none of whose entries is a well-formed media range,
such as a header made of the entries `;`, `/`, `a/`, `/b`, `text;q=1`, `;q=`
and empty entries, yields no range, `wantsHAC` false and
`hacIsOnlyAcceptable` false; an entry ending in `;` and parameters `q=` with
nothing or with something that is no number after the `=` leave the quality
at `1.0`. -/
theorem C24_no_panic (header : Bytes) :
    checkedParseAccept header = some (parseAccept header)
    ∧ checkedWantsHAC header = some (wantsHAC header)
    ∧ checkedHacIsOnlyAcceptable header = some (hacIsOnlyAcceptable header)
    ∧ (∀ s : Bytes, checkedParseMediaRange s = some (parseMediaRange s))
    ∧ ((∀ entry ∈ (splitByte 0x2C header).map TrimSpace, wellFormedEntry entry = false) →
        parseAccept header = [] ∧ wantsHAC header = false ∧ hacIsOnlyAcceptable header = false)
    ∧ wantsHAC (B ",;, / ,a/,/b,text;q=1, ;q=") = false
    ∧ hacIsOnlyAcceptable (B ",;, / ,a/,/b,text;q=1, ;q=") = false
    ∧ parseAccept (B "a/b;, c/d;q=, e/f;q=abc;;Q") =
        [{ typ := B "a", subtype := B "b", quality := Float64.one },
         { typ := B "c", subtype := B "d", quality := Float64.one },
         { typ := B "e", subtype := B "f", quality := Float64.one }] := by
  have h1 := checkedParseAccept_eq header
  refine ⟨h1, ?_, ?_, checkedParseMediaRange_eq, ?_, by decide, by decide, by decide⟩
  · simp only [checkedWantsHAC, h1]
    rfl
  · simp only [checkedHacIsOnlyAcceptable, h1]
    rfl
  · intro h
    have hnil : parseAccept header = [] := by
      rw [parseAccept_eq, List.map_eq_nil_iff, List.filter_eq_nil_iff]
      intro e he
      rw [h e he]
      decide
    refine ⟨hnil, ?_, ?_⟩
    · simp [wantsHAC, hnil]
    · simp [hacIsOnlyAcceptable, hnil]

/-! ### The quality of a range -/

theorem trimLeftSpace_q (fuel : Nat) (c : UInt8) (t : Bytes) (hc : c = 0x51 ∨ c = 0x71) :
    trimLeftSpace fuel (c :: t) = c :: t := by
  cases fuel with
  | zero => rfl
  | succ n =>
    rcases hc with rfl | rfl
    · have h : DecodeRune (0x51 :: t) = (0x51, 1) := by simp [DecodeRune]
      simp [trimLeftSpace, h, IsSpace]
    · have h : DecodeRune (0x71 :: t) = (0x71, 1) := by simp [DecodeRune]
      simp [trimLeftSpace, h, IsSpace]

theorem trimRightSpace_nil (fuel : Nat) : trimRightSpace fuel [] = [] := by
  cases fuel <;> rfl

theorem trimRightSpace_q (fuel : Nat) (c : UInt8) (hc : c = 0x51 ∨ c = 0x71) :
    trimRightSpace fuel [c] = [c] := by
  cases fuel with
  | zero => rfl
  | succ n => rcases hc with rfl | rfl <;> rfl

/-- The last rune of a string that goes on after `=` does not depend on the
byte in front of the `=`. -/
theorem DecodeLastRune_eq (c : UInt8) (v : Bytes) :
    DecodeLastRune (c :: 0x3D :: v) = DecodeLastRune (0x3D :: v) := by
  have hs : RuneStart 0x3D = true := by decide
  unfold DecodeLastRune
  simp only [List.reverse_cons, List.append_assoc, List.singleton_append]
  generalize v.reverse = rv
  rcases rv with _ | ⟨l, _ | ⟨b1, _ | ⟨b2, _ | ⟨b3, rest⟩⟩⟩⟩
  · rfl
  · simp [lastRuneStart, hs]
  · by_cases h1 : RuneStart b1 = true <;> simp [lastRuneStart, hs, h1]
  · by_cases h1 : RuneStart b1 = true <;> by_cases h2 : RuneStart b2 = true <;>
      simp [lastRuneStart, hs, h1, h2]
  · by_cases h1 : RuneStart b1 = true <;> by_cases h2 : RuneStart b2 = true <;>
      by_cases h3 : RuneStart b3 = true <;> simp [lastRuneStart, hs, h1, h2, h3]

/-- Trimming on the right keeps a prefix whose length does not depend on
whether the string starts with `q=` or with `Q=`. -/
theorem trimRightSpace_take (fuel : Nat) (v : Bytes) :
    ∃ n, ∀ c : UInt8, c = 0x51 ∨ c = 0x71 →
      trimRightSpace fuel (c :: 0x3D :: v) = (c :: 0x3D :: v).take n := by
  induction fuel generalizing v with
  | zero => exact ⟨v.length + 2, fun c _ => by simp [trimRightSpace]⟩
  | succ k ih =>
    by_cases hsp : IsSpace (DecodeLastRune (0x3D :: v)).1 = true
    · rcases Nat.lt_or_ge (v.length + 2 - (DecodeLastRune (0x3D :: v)).2) 2 with hm | hm
      · refine ⟨v.length + 2 - (DecodeLastRune (0x3D :: v)).2, fun c hc => ?_⟩
        simp only [trimRightSpace, DecodeLastRune_eq, hsp, if_true, List.length_cons]
        rcases Nat.lt_succ_iff_lt_or_eq.mp hm with h0 | h1
        · have h0' : v.length + 2 - (DecodeLastRune (0x3D :: v)).2 = 0 := by omega
          rw [show v.length + 1 + 1 = v.length + 2 from rfl, h0']
          simp [trimRightSpace_nil]
        · rw [show v.length + 1 + 1 = v.length + 2 from rfl, h1]
          simp [trimRightSpace_q k c hc]
      · obtain ⟨n', hn'⟩ := ih (v.take (v.length + 2 - (DecodeLastRune (0x3D :: v)).2 - 2))
        refine ⟨min n' (v.length + 2 - (DecodeLastRune (0x3D :: v)).2), fun c hc => ?_⟩
        simp only [trimRightSpace, DecodeLastRune_eq, hsp, if_true, List.length_cons]
        rw [show v.length + 1 + 1 = v.length + 2 from rfl]
        obtain ⟨j, hj⟩ : ∃ j, v.length + 2 - (DecodeLastRune (0x3D :: v)).2 = j + 2 :=
          ⟨v.length + 2 - (DecodeLastRune (0x3D :: v)).2 - 2, by omega⟩
        rw [hj] at hn' ⊢
        simp only [List.take_succ_cons, Nat.add_sub_cancel] at hn' ⊢
        rw [hn' c hc, ← List.take_succ_cons, ← List.take_succ_cons, List.take_take]
    · refine ⟨v.length + 2, fun c hc => ?_⟩
      simp only [trimRightSpace, DecodeLastRune_eq, hsp]
      simp

theorem TrimSpace_take (v : Bytes) :
    ∃ n, ∀ c : UInt8, c = 0x51 ∨ c = 0x71 →
      TrimSpace (c :: 0x3D :: v) = (c :: 0x3D :: v).take n := by
  obtain ⟨n, hn⟩ := trimRightSpace_take (v.length + 2) v
  refine ⟨n, fun c hc => ?_⟩
  unfold TrimSpace
  rw [trimLeftSpace_q _ c _ hc]
  exact hn c hc

/-- The parameter loop reads `Q=v` as it reads `q=v`. -/
theorem applyParam_Q (mr : mediaRange) (v : Bytes) :
    applyParam mr (0x51 :: 0x3D :: v) = applyParam mr (0x71 :: 0x3D :: v) := by
  have hq : B "q=" = [(0x71 : UInt8), 0x3D] := by decide
  have hQ : B "Q=" = [(0x51 : UInt8), 0x3D] := by decide
  obtain ⟨n, hn⟩ := TrimSpace_take v
  unfold applyParam
  simp only [hn 0x51 (Or.inl rfl), hn 0x71 (Or.inr rfl), hq, hQ]
  rcases n with _ | _ | n
  · rfl
  · rfl
  · simp [HasPrefix, List.isPrefixOf]

theorem splitByte_append_sep (sep : UInt8) (a b : Bytes) :
    splitByte sep (a ++ sep :: b) = splitByte sep a ++ splitByte sep b := by
  induction a with
  | nil => simp [splitByte]
  | cons c cs ih =>
    by_cases hc : c = sep
    · simp [splitByte, hc, ih]
    · cases hs : splitByte sep cs with
      | nil => exact absurd hs (splitByte_ne_nil sep cs)
      | cons p ps =>
        rw [hs] at ih
        simp [splitByte, hc, ih, hs]

theorem splitByte_cons_cons (sep c₁ c₂ : UInt8) (v : Bytes) (h₁ : c₁ ≠ sep) (h₂ : c₂ ≠ sep) :
    splitByte sep (c₁ :: c₂ :: v) =
      (c₁ :: c₂ :: (splitByte sep v).headD []) :: (splitByte sep v).tail := by
  cases hs : splitByte sep v with
  | nil => exact absurd hs (splitByte_ne_nil sep v)
  | cons p ps => simp [splitByte, h₁, h₂, hs]

theorem parseMediaRange_Q (e v : Bytes) :
    parseMediaRange (e ++ B ";Q=" ++ v) = parseMediaRange (e ++ B ";q=" ++ v) := by
  have hQ : B ";Q=" = [(0x3B : UInt8), 0x51, 0x3D] := by decide
  have hq : B ";q=" = [(0x3B : UInt8), 0x71, 0x3D] := by decide
  have e1 : splitByte 0x3B (e ++ B ";Q=" ++ v) =
      splitByte 0x3B e ++
        (0x51 :: 0x3D :: (splitByte 0x3B v).headD []) :: (splitByte 0x3B v).tail := by
    rw [hQ, List.append_assoc, List.cons_append, List.cons_append, List.cons_append,
      List.nil_append, splitByte_append_sep,
      splitByte_cons_cons _ _ _ _ (by decide) (by decide)]
  have e2 : splitByte 0x3B (e ++ B ";q=" ++ v) =
      splitByte 0x3B e ++
        (0x71 :: 0x3D :: (splitByte 0x3B v).headD []) :: (splitByte 0x3B v).tail := by
    rw [hq, List.append_assoc, List.cons_append, List.cons_append, List.cons_append,
      List.nil_append, splitByte_append_sep,
      splitByte_cons_cons _ _ _ _ (by decide) (by decide)]
  unfold parseMediaRange
  rw [e1, e2]
  cases hs : splitByte 0x3B e with
  | nil => exact absurd hs (splitByte_ne_nil _ e)
  | cons f fs =>
    simp only [List.cons_append, List.headD_cons, List.tail_cons, List.foldl_append,
      List.foldl_cons, applyParam_Q]

theorem applyParam_quality (mr : mediaRange) (param : Bytes)
    (h : isQParam param = false ∨ ParseFloat (qValue param) = none) :
    applyParam mr param = mr := by
  unfold applyParam
  dsimp only
  rcases h with h | h
  · rw [if_neg (by simpa [isQParam] using h)]
  · unfold qValue at h
    rw [h]
    split <;> rfl

theorem foldl_applyParam_quality (params : List Bytes) (mr : mediaRange)
    (h : ∀ p ∈ params, isQParam p = false ∨ ParseFloat (qValue p) = none) :
    params.foldl applyParam mr = mr := by
  induction params generalizing mr with
  | nil => rfl
  | cons p ps ih =>
    rw [List.foldl_cons, applyParam_quality mr p (h p (List.mem_cons_self _ _))]
    exact ih mr (fun q hq => h q (List.mem_cons_of_mem _ hq))

theorem applyParam_accepted (mr : mediaRange) (param : Bytes) :
    applyParam mr param =
      { mr with quality := (acceptedQuality param).getD mr.quality } := by
  unfold applyParam acceptedQuality isQParam qValue
  dsimp only
  split
  · split
    · rename_i q hq
      rw [hq]
      rfl
    · rename_i hq
      rw [hq]
      rfl
  · rfl

theorem getLast_cons_getD {α : Type} (a d : α) (l : List α) :
    ((a :: l).getLast?).getD d = (l.getLast?).getD a := by
  cases l with
  | nil => rfl
  | cons b l =>
    rw [List.getLast?_cons_cons, List.getLast?_eq_getLast _ (List.cons_ne_nil b l)]
    rfl

/-- The parameter loop leaves the quality of the last q parameter whose value
`ParseFloat` accepts, and the quality it started with when there is none. -/
theorem foldl_applyParam_last (params : List Bytes) (mr : mediaRange) :
    params.foldl applyParam mr =
      { mr with quality := ((params.filterMap acceptedQuality).getLast?).getD mr.quality } := by
  induction params generalizing mr with
  | nil => rfl
  | cons p ps ih =>
    rw [List.foldl_cons, ih, applyParam_accepted, List.filterMap_cons]
    cases hq : acceptedQuality p with
    | none => rfl
    | some q =>
      simp only [Option.getD_some]
      rw [getLast_cons_getD]

/-- Counterexample for C25: in the well-formed entry `text/html;q=nan` the
value of the q parameter is not a number, yet the quality does not stay
`1.0`: `ParseFloat` accepts `nan` and the quality is NaN.  Likewise `q=inf`
gives `+Inf`. -/
theorem C25_counterexample :
    wellFormedEntry (B "text/html;q=nan") = true
    ∧ ParseFloat (B "nan") = some Float64.nan
    ∧ (parseMediaRange (B "text/html;q=nan")).quality = Float64.nan
    ∧ (parseMediaRange (B "text/html;q=nan")).quality ≠ Float64.one
    ∧ (parseMediaRange (B "text/html;q=inf")).quality = Float64.inf false := by
  decide

/-- C25 (amended): the quality of a well-formed entry is that of its last q
parameter whose value `strconv.ParseFloat` accepts, and `1.0` when it has
none: so it is `1.0` when the entry has no q parameter, and when
`ParseFloat` rejects the value of each of its q parameters (as for `q=` and
`q=abc`); a value that `ParseFloat` accepts becomes the quality, also `nan`
and `inf`.  An entry with `;Q=v` parses to the same range as the entry with
`;q=v` in its place; the three ranges of `text/html, application/json;q=0.9,
*/*;q=0.1` have the qualities `1.0`, `0.9` and `0.1`. -/
theorem C25_quality (entry : Bytes) (hwf : wellFormedEntry entry = true) :
    (parseMediaRange entry).quality =
        ((((splitByte 0x3B entry).tail.filterMap acceptedQuality).getLast?).getD Float64.one)
    ∧ ((∀ p ∈ (splitByte 0x3B entry).tail, isQParam p = false) →
        (parseMediaRange entry).quality = Float64.one)
    ∧ ((∀ p ∈ (splitByte 0x3B entry).tail,
          isQParam p = false ∨ ParseFloat (qValue p) = none) →
        (parseMediaRange entry).quality = Float64.one)
    ∧ (∀ e v : Bytes,
        parseMediaRange (e ++ B ";Q=" ++ v) = parseMediaRange (e ++ B ";q=" ++ v))
    ∧ (parseAccept (B "text/html, application/json;q=0.9, */*;q=0.1")).map (fun mr => mr.quality)
        = [Float64.one, .fin false 0x1CCCCCCCCCCCCD (-53), .fin false 0x1999999999999A (-56)]
    ∧ ParseFloat (B "0.9") = some (.fin false 0x1CCCCCCCCCCCCD (-53))
    ∧ ParseFloat (B "0.1") = some (.fin false 0x1999999999999A (-56))
    ∧ (parseMediaRange (B "application/json;Q=0.9")).quality = .fin false 0x1CCCCCCCCCCCCD (-53)
    ∧ ParseFloat [] = none
    ∧ ParseFloat (B "abc") = none
    ∧ (parseMediaRange (B "text/html;q=nan")).quality = Float64.nan := by
  have hmain : (parseMediaRange entry).quality =
      ((((splitByte 0x3B entry).tail.filterMap acceptedQuality).getLast?).getD Float64.one) := by
    simp only [wellFormedEntry, Bool.and_eq_true, decide_eq_true_eq] at hwf
    obtain ⟨⟨h1, h2⟩, h3⟩ := hwf
    unfold parseMediaRange
    dsimp only
    rw [if_neg (by omega), if_neg (by rintro (h | h); exact h2 h; exact h3 h),
      foldl_applyParam_last]
  have hnone : (∀ p ∈ (splitByte 0x3B entry).tail,
      isQParam p = false ∨ ParseFloat (qValue p) = none) →
      (parseMediaRange entry).quality = Float64.one := by
    intro hq
    have hnil : (splitByte 0x3B entry).tail.filterMap acceptedQuality = [] := by
      rw [List.filterMap_eq_nil_iff]
      intro p hp
      unfold acceptedQuality
      rcases hq p hp with h | h
      · simp [h]
      · simp [h]
    rw [hmain, hnil]
    rfl
  refine ⟨hmain, fun h => hnone (fun p hp => Or.inl (h p hp)), hnone, parseMediaRange_Q,
    by decide, by decide, by decide, by decide, by decide, by decide, by decide⟩

/-- Witness for C25 (amended): `text/html;level=1;q=abc`, whose q parameter
has a value `ParseFloat` rejects, `text/html;level=1`, which has no q
parameter, and `text/html;q=0.5;q=nan`, whose last accepted q value is
`nan`. -/
theorem C25_quality_witness :
    wellFormedEntry (B "text/html;level=1;q=abc") = true
    ∧ (parseMediaRange (B "text/html;level=1;q=abc")).quality = Float64.one
    ∧ (parseMediaRange (B "text/html;level=1")).quality = Float64.one
    ∧ (parseMediaRange (B "text/html;q=0.5;q=nan")).quality =
        ((((splitByte 0x3B (B "text/html;q=0.5;q=nan")).tail.filterMap
          acceptedQuality).getLast?).getD Float64.one) :=
  ⟨by decide,
    (C25_quality (B "text/html;level=1;q=abc") (by decide)).2.2.1 (by decide),
    (C25_quality (B "text/html;level=1") (by decide)).2.1 (by decide),
    (C25_quality (B "text/html;q=0.5;q=nan") (by decide)).1⟩

/-! ### The serialisation of a success envelope -/

/-- The object written for a `HACMeta`: `version` always, `description`,
`actions` and `related` when they are not empty. -/
theorem marshalHACMeta_shape (m : HACMeta) (hac : JSON) (h : marshalHACMeta m = some hac) :
    ∃ members, hac = .obj members
      ∧ members.map Prod.fst =
          [B "version"] ++ (if m.Description = [] then [] else [B "description"])
            ++ (if m.Actions.isEmpty then [] else [B "actions"])
            ++ (if m.Related.isEmpty then [] else [B "related"])
      ∧ mapGet members (B "version") = some (marshalString m.Version)
      ∧ (m.Description ≠ [] →
          mapGet members (B "description") = some (marshalString m.Description))
      ∧ (m.Actions ≠ [] → ∃ actions, mapGet members (B "actions") = some (.arr actions)
          ∧ allSome (m.Actions.map marshalAction) = some actions)
      ∧ (m.Related ≠ [] → ∃ related, mapGet members (B "related") = some (.arr related)
          ∧ allSome (m.Related.map marshalRelatedResource) = some related) := by
  have n1 : B "version" ≠ B "description" := by decide
  have n2 : B "version" ≠ B "actions" := by decide
  have n3 : B "version" ≠ B "related" := by decide
  have n4 : B "description" ≠ B "actions" := by decide
  have n5 : B "description" ≠ B "related" := by decide
  have n6 : B "actions" ≠ B "related" := by decide
  unfold marshalHACMeta marshalStruct at h
  simp only [marshalFields] at h
  by_cases hd : m.Description = [] <;> by_cases ha : m.Actions = [] <;>
    by_cases hr : m.Related = [] <;>
    cases hA : allSome (m.Actions.map marshalAction) <;>
    cases hR : allSome (m.Related.map marshalRelatedResource) <;>
    simp [hd, ha, hr, hA, hR] at h <;>
    subst h <;>
    refine ⟨_, rfl, ?_⟩ <;>
    simp [hd, ha, hr, mapGet, n1, n2, n3, n4, n5, n6, hA, hR]

/-- Counterexample for C27: the object written for the envelope of
`TestSuccessEnvelopeMarshal` has the keys `data` and `_hac`; it has no key
`_meta`.  The object is the value of the text that `json.Marshal` writes. -/
theorem C27_counterexample :
    (marshalSuccessEnvelope aliceEnvelope).map JSON.keys = some [B "data", B "_hac"]
    ∧ (marshalSuccessEnvelope aliceEnvelope).map JSON.keys ≠ some [B "data", B "_meta"]
    ∧ (jsonParse aliceText).map JSON.keys = some [B "data", B "_hac"] := by
  set_option maxRecDepth 100000 in
  decide

/-- C27 (amended): the value written for a success envelope is an object with
exactly the two keys `data` and `_hac`; `data` holds the value of the
envelope's payload (`null` for a nil payload; for an envelope of
`buildSuccessEnvelope`, the value of the body when that is valid JSON and
`null` otherwise); `_hac` holds `null` for a nil pointer and otherwise an
object with the key `version`, a string, followed by `description`, `actions`
and `related`, each present exactly when it is not empty. -/
theorem C27_shape (env : SuccessEnvelope) (v : JSON) (h : marshalSuccessEnvelope env = some v) :
    v.keys = [B "data", B "_hac"]
    ∧ (∃ data hac, v = .obj [(B "data", data), (B "_hac", hac)]
        ∧ (env.Data ≠ [] → jsonParse env.Data = some data)
        ∧ (env.Data = [] → data = .null)
        ∧ (env.HAC = none → hac = .null)
        ∧ ∀ m, env.HAC = some m →
            ∃ members, hac = .obj members
              ∧ members.map Prod.fst =
                  [B "version"] ++ (if m.Description = [] then [] else [B "description"])
                    ++ (if m.Actions.isEmpty then [] else [B "actions"])
                    ++ (if m.Related.isEmpty then [] else [B "related"])
              ∧ mapGet members (B "version") = some (marshalString m.Version)
              ∧ (m.Description ≠ [] →
                  mapGet members (B "description") = some (marshalString m.Description))
              ∧ (m.Actions ≠ [] → ∃ actions, mapGet members (B "actions") = some (.arr actions)
                  ∧ allSome (m.Actions.map marshalAction) = some actions)
              ∧ (m.Related ≠ [] → ∃ related, mapGet members (B "related") = some (.arr related)
                  ∧ allSome (m.Related.map marshalRelatedResource) = some related))
    ∧ (∀ (body : Bytes) (cfg : Option RouteConfig),
        ∃ e, buildSuccessEnvelope body cfg = .ok e ∧
          marshalRawMessage e.Data =
            (if 0 < body.length ∧ jsonValid body = true then jsonParse body else some .null)) := by
  unfold marshalSuccessEnvelope marshalStruct at h
  simp only [marshalFields] at h
  cases hd : marshalRawMessage env.Data with
  | none => simp [hd] at h
  | some data =>
    cases hh : marshalPointer marshalHACMeta env.HAC with
    | none => simp [hd, hh] at h
    | some hac =>
      simp [hd, hh] at h
      subst h
      refine ⟨rfl, ⟨data, hac, rfl, ?_, ?_, ?_, ?_⟩, ?_⟩
      · intro he
        simpa [marshalRawMessage, he] using hd
      · intro he
        simpa [marshalRawMessage, he] using hd.symm
      · intro hn
        rw [hn] at hh
        simpa [marshalPointer] using hh.symm
      · intro m hm
        rw [hm] at hh
        exact marshalHACMeta_shape m hac hh
      · intro body cfg
        refine ⟨_, rfl, ?_⟩
        by_cases c : 0 < body.length ∧ jsonValid body = true
        · have hne : body ≠ [] := List.length_pos.mp c.1
          simp [marshalRawMessage, c, hne]
        · simp only [if_neg c]
          rfl

/-- Witness for C27 (amended): the envelope of `TestSuccessEnvelopeMarshal`. -/
theorem C27_shape_witness :
    ∃ v, marshalSuccessEnvelope aliceEnvelope = some v ∧ v.keys = [B "data", B "_hac"] :=
  ⟨_, rfl, (C27_shape aliceEnvelope _ rfl).1⟩

/-! ### Registered configurations stay as they are -/

theorem foldl_call_registry (calls : List BuilderCall) (s : BuilderState) :
    (calls.foldl BuilderState.call s).registry = s.registry
    ∧ (calls.foldl BuilderState.call s).builder.method = s.builder.method
    ∧ (calls.foldl BuilderState.call s).builder.pattern = s.builder.pattern := by
  induction calls generalizing s with
  | nil => exact ⟨rfl, rfl, rfl⟩
  | cons c cs ih =>
    obtain ⟨h1, h2, h3⟩ := ih (s.call c)
    rw [List.foldl_cons, h1, h2, h3]
    cases c <;> exact ⟨rfl, rfl, rfl⟩

/-- C31: after `b.Register()`, any sequence of calls of `b.Description`,
`b.Actions` and `b.Related` leaves the registry as it is, so `Lookup` under
`b`'s key still returns the configuration `b` had when it was registered (the
calls change neither the key of `b`); registering a builder under a key other
than `(M, P)`, or any number of such builders, leaves `Lookup(M, P)` as it
was.  A changed description reaches the registry only with a new
`Register`. -/
theorem C31_immutable (s : BuilderState) (calls : List BuilderCall) (M P : Bytes) :
    (calls.foldl BuilderState.call s.Register).registry = s.Register.registry
    ∧ (calls.foldl BuilderState.call s.Register).registry.Lookup
          s.builder.method s.builder.pattern =
        some { Description := s.builder.description, Actions := s.builder.actions,
               Related := s.builder.related }
    ∧ (calls.foldl BuilderState.call s.Register).builder.method = s.builder.method
    ∧ (calls.foldl BuilderState.call s.Register).builder.pattern = s.builder.pattern
    ∧ (∀ (reg : Registry) (b : RouteBuilder), ¬(b.method = M ∧ b.pattern = P) →
        (b.Register reg).Lookup M P = reg.Lookup M P)
    ∧ (∀ (reg : Registry) (bs : List RouteBuilder),
        (∀ b ∈ bs, ¬(b.method = M ∧ b.pattern = P)) →
        (registerAll bs reg).Lookup M P = reg.Lookup M P)
    ∧ ((BuilderState.Register
          { builder := (Registry.Get (B "/users")).Description (B "First."),
            registry := NewRegistry }).call
          (.Description (B "Changed."))).registry.Lookup (B "GET") (B "/users") =
        some { Description := B "First.", Actions := [], Related := [] }
    ∧ ((BuilderState.Register
          { builder := (Registry.Get (B "/users")).Description (B "First."),
            registry := NewRegistry }).call
          (.Description (B "Changed."))).Register.registry.Lookup (B "GET") (B "/users") =
        some { Description := B "Changed.", Actions := [], Related := [] } := by
  obtain ⟨h1, h2, h3⟩ := foldl_call_registry calls s.Register
  refine ⟨h1, ?_, h2, h3, ?_, ?_, rfl, rfl⟩
  · rw [h1]
    show (s.builder.Register s.registry).Lookup _ _ = _
    rw [Lookup_Register, if_pos ⟨rfl, rfl⟩]
  · intro reg b hb
    rw [Lookup_Register, if_neg hb]
  · intro reg bs hbs
    exact Lookup_registerAll_other bs reg M P hbs

/-! ### `hacIsOnlyAcceptable` and `wantsHAC` -/

theorem wantsHAC_iff (h : Bytes) :
    wantsHAC h = true ↔
      ∃ mr ∈ parseAccept h, matchesHAC mr = true ∧ mr.quality.gtZero = true := by
  simp [wantsHAC, List.any_eq_true]

/-- C32: `hacIsOnlyAcceptable(h)` implies `wantsHAC(h)`; a header without a
range that matches the HAC media type with quality `> 0` gives
`hacIsOnlyAcceptable` false; and when `wantsHAC` is false `Middleware` is the
downstream handler on the original request, so the 406 of the middleware, the
answer it gives when no `RouteConfig` is found and `hacIsOnlyAcceptable`
holds, is given only to a request that wants HAC. -/
theorem C32_only_implies_wants (h : Bytes) :
    (hacIsOnlyAcceptable h = true → wantsHAC h = true)
    ∧ ((∀ mr ∈ parseAccept h, ¬(matchesHAC mr = true ∧ mr.quality.gtZero = true)) →
        hacIsOnlyAcceptable h = false)
    ∧ (wantsHAC h = false → hacIsOnlyAcceptable h = false)
    ∧ (∀ (rt : GoRuntime) (opts : Options) (next : Handler) (r : Request),
        wantsHAC (Header.Get r.Header (B "Accept")) = false →
        Middleware rt opts next r = next r)
    ∧ (∀ (rt : GoRuntime) (opts : Options) (next : Handler) (r : Request),
        wantsHAC (Header.Get r.Header (B "Accept")) = true →
        (opts.Registry.getD NewRegistry).Lookup r.Method
          ((opts.PathResolver.getD (fun r => r.Path)) r) = none →
        hacIsOnlyAcceptable (Header.Get r.Header (B "Accept")) = true →
        Middleware rt opts next r =
          httpError (B "Not Acceptable: no HAC metadata for this route") 406)
    ∧ hacIsOnlyAcceptable (B "application/json;q=0, text/html;q=0") = false
    ∧ hacIsOnlyAcceptable (B "application/vnd.hac+json;q=0") = false := by
  have himp : hacIsOnlyAcceptable h = true → wantsHAC h = true := by
    intro ho
    exact (wantsHAC_iff h).mpr ((hacIsOnlyAcceptable_iff h).mp ho).1
  have hno : (∀ mr ∈ parseAccept h, ¬(matchesHAC mr = true ∧ mr.quality.gtZero = true)) →
      hacIsOnlyAcceptable h = false := by
    intro hn
    cases ho : hacIsOnlyAcceptable h with
    | false => rfl
    | true =>
      obtain ⟨mr, hmr, hm⟩ := ((hacIsOnlyAcceptable_iff h).mp ho).1
      exact absurd hm (hn mr hmr)
  refine ⟨himp, hno, ?_, ?_, ?_, by decide, by decide⟩
  · intro hw
    cases ho : hacIsOnlyAcceptable h with
    | false => rfl
    | true =>
      rw [himp ho] at hw
      exact absurd hw (by decide)
  · intro rt opts next r hw
    simp only [Middleware, hw]
    rfl
  · intro rt opts next r hw hl ho
    rw [Middleware_no_config rt opts next r hw hl, if_pos ho]

/-- Witness for C32: `application/vnd.hac+json` is HAC-only and wants HAC. -/
theorem C32_only_implies_wants_witness :
    hacIsOnlyAcceptable (B "application/vnd.hac+json") = true
    ∧ wantsHAC (B "application/vnd.hac+json") = true :=
  ⟨by decide, (C32_only_implies_wants (B "application/vnd.hac+json")).1 (by decide)⟩

/-! ### `AutoDiscovery` under two orders of iteration -/

theorem mem_of_mapGet {K V : Type} [DecidableEq K] (m : List (K × V)) (k : K) (v : V)
    (h : mapGet m k = some v) : (k, v) ∈ m := by
  induction m with
  | nil => simp [mapGet] at h
  | cons e m ih =>
    obtain ⟨k', v'⟩ := e
    by_cases hk : k' = k
    · simp only [mapGet, if_pos hk] at h
      injection h with h
      rw [hk, h]
      exact List.mem_cons_self _ _
    · simp only [mapGet, if_neg hk] at h
      exact List.mem_cons_of_mem _ (ih h)

theorem findDescription_eq_nil (reg : Registry) (p : Bytes) (routes : List (Bytes × Bytes)) :
    findDescription reg p routes = [] ↔
      ∀ pair ∈ routes, cleanPattern pair.2 = p →
        ∀ cfg, reg.Lookup pair.1 pair.2 = some cfg → cfg.Description = [] := by
  induction routes with
  | nil => simp [findDescription]
  | cons r rs ih =>
    obtain ⟨method, pat⟩ := r
    simp only [findDescription, List.mem_cons, forall_eq_or_imp]
    by_cases hc : cleanPattern pat = p
    · rw [if_pos hc]
      cases hl : reg.Lookup method pat with
      | none => simp [ih]
      | some cfg =>
        by_cases hd : cfg.Description = []
        · simp [hd, ih, hc]
        · simp [hd, hc]
    · simp [hc, ih]

theorem findDescription_mem (reg : Registry) (p : Bytes) (routes : List (Bytes × Bytes))
    (h : findDescription reg p routes ≠ []) :
    ∃ pair ∈ routes, cleanPattern pair.2 = p ∧
      ∃ cfg, reg.Lookup pair.1 pair.2 = some cfg ∧
        cfg.Description = findDescription reg p routes := by
  induction routes with
  | nil => exact absurd rfl h
  | cons r rs ih =>
    obtain ⟨method, pat⟩ := r
    simp only [findDescription] at h ⊢
    by_cases hc : cleanPattern pat = p
    · rw [if_pos hc] at h ⊢
      cases hl : reg.Lookup method pat with
      | none =>
        rw [hl] at h
        obtain ⟨pair, hp, h1, h2⟩ := ih h
        exact ⟨pair, List.mem_cons_of_mem _ hp, h1, h2⟩
      | some cfg =>
        rw [hl] at h
        by_cases hd : cfg.Description = []
        · simp only [hd, ne_eq, not_true_eq_false, if_false] at h ⊢
          obtain ⟨pair, hp, h1, h2⟩ := ih h
          exact ⟨pair, List.mem_cons_of_mem _ hp, h1, h2⟩
        · simp only [ne_eq, hd, not_false_eq_true, if_true]
          exact ⟨(method, pat), List.mem_cons_self _ _, hc, cfg, hl, rfl⟩
    · rw [if_neg hc] at h ⊢
      obtain ⟨pair, hp, h1, h2⟩ := ih h
      exact ⟨pair, List.mem_cons_of_mem _ hp, h1, h2⟩

/-- A non-empty description found by the inner loop of `AutoDiscovery` is the
description of an entry of the registry whose pattern cleans to the href. -/
theorem findDescription_entry (ro : RangeOrder (routeKey × RouteConfig)) (reg : Registry)
    (p : Bytes) (h : findDescription reg p (reg.Routes ro) ≠ []) :
    ∃ e ∈ reg.routes, cleanPattern e.1.pattern = p ∧
      e.2.Description = findDescription reg p (reg.Routes ro) := by
  obtain ⟨pair, _, hc, cfg, hl, hd⟩ := findDescription_mem reg p _ h
  exact ⟨(_, cfg), mem_of_mapGet _ _ _ hl, hc, hd⟩

/-- Whether the description found is empty does not depend on the order. -/
theorem findDescription_nil_order (ro ro' : RangeOrder (routeKey × RouteConfig))
    (reg : Registry) (p : Bytes) (h : findDescription reg p (reg.Routes ro) = []) :
    findDescription reg p (reg.Routes ro') = [] := by
  rw [findDescription_eq_nil] at h ⊢
  intro pair hp
  exact h pair (((Routes_perm ro' reg).trans (Routes_perm ro reg).symm).mem_iff.mp hp)

/-- C33: for every registry and any two orders in which its map is visited
(and any two orders of the map `grouped`), the two resource lists of
`AutoDiscovery` have the same length and the same rel, href and methods entry
by entry, and the name, version and description of the document are the
arguments; two entries at the same place have different descriptions only if
the registry has two routes whose patterns clean to their href with
different non-empty descriptions.  For the two routes of
`TestAutoDiscoveryWithStdlibPatterns` the description is that of the route
visited first. -/
theorem C33_deterministic (ro ro' : RangeOrder (routeKey × RouteConfig))
    (go go' : RangeOrder (Bytes × List Bytes)) (name version description : Bytes)
    (reg : Registry) :
    (AutoDiscovery ro go name version description reg).Resources.length =
        (AutoDiscovery ro' go' name version description reg).Resources.length
    ∧ (AutoDiscovery ro go name version description reg).Resources.map
          (fun x => (x.Rel, x.Href, x.Methods)) =
        (AutoDiscovery ro' go' name version description reg).Resources.map
          (fun x => (x.Rel, x.Href, x.Methods))
    ∧ (AutoDiscovery ro go name version description reg).Meta.map
          (fun m => (m.Name, m.Version, m.Description)) = some (name, version, description)
    ∧ (∀ (i : Nat) (x x' : ResourceEntry),
        (AutoDiscovery ro go name version description reg).Resources[i]? = some x →
        (AutoDiscovery ro' go' name version description reg).Resources[i]? = some x' →
        x.Description ≠ x'.Description →
        ∃ e₁ ∈ reg.routes, ∃ e₂ ∈ reg.routes,
          cleanPattern e₁.1.pattern = x.Href ∧ cleanPattern e₂.1.pattern = x.Href ∧
          e₁.2.Description ≠ [] ∧ e₂.2.Description ≠ [] ∧
          e₁.2.Description ≠ e₂.2.Description)
    ∧ (AutoDiscovery (RangeOrder.stored _) go name version description
          itemsRegistry).Resources.map (fun x => x.Description) = [B "List items."]
    ∧ (AutoDiscovery (RangeOrder.reversed _) go name version description
          itemsRegistry).Resources.map (fun x => x.Description) = [B "Create item."] := by
  have hmap : (AutoDiscovery ro go name version description reg).Resources.map
        (fun x => (x.Rel, x.Href, x.Methods)) =
      (AutoDiscovery ro' go' name version description reg).Resources.map
        (fun x => (x.Rel, x.Href, x.Methods)) := by
    rw [Resources_eq, Resources_eq, List.map_map, List.map_map]
    rfl
  refine ⟨?_, hmap, rfl, ?_, ?_, ?_⟩
  · have := congrArg List.length hmap
    simpa using this
  · intro i x x' hx hx' hne
    rw [Resources_eq, List.getElem?_map] at hx hx'
    cases hp : (sortStrings (reg.routes.map (fun e => cleanPattern e.1.pattern)).dedup)[i]? with
    | none => simp [hp] at hx
    | some p =>
      rw [hp] at hx hx'
      simp only [Option.map_some', Option.some.injEq] at hx hx'
      subst hx
      subst hx'
      simp only at hne ⊢
      by_cases h1 : findDescription reg p (reg.Routes ro) = []
      · exact absurd (h1.trans (findDescription_nil_order ro ro' reg p h1).symm) hne
      · by_cases h2 : findDescription reg p (reg.Routes ro') = []
        · exact absurd (findDescription_nil_order ro' ro reg p h2) h1
        · obtain ⟨e₁, he₁, hc₁, hd₁⟩ := findDescription_entry ro reg p h1
          obtain ⟨e₂, he₂, hc₂, hd₂⟩ := findDescription_entry ro' reg p h2
          refine ⟨e₁, he₁, e₂, he₂, hc₁, hc₂, ?_, ?_, ?_⟩
          · rw [hd₁]; exact h1
          · rw [hd₂]; exact h2
          · rw [hd₁, hd₂]; exact hne
  · rw [Resources_eq, List.map_map]
    show (sortStrings (itemsRegistry.routes.map (fun e => cleanPattern e.1.pattern)).dedup).map
      (fun p => findDescription itemsRegistry p (itemsRegistry.Routes (RangeOrder.stored _))) = _
    decide
  · rw [Resources_eq, List.map_map]
    show (sortStrings (itemsRegistry.routes.map (fun e => cleanPattern e.1.pattern)).dedup).map
      (fun p => findDescription itemsRegistry p (itemsRegistry.Routes (RangeOrder.reversed _))) = _
    decide

end Hac
